import Mathlib

/-!
# kitkat: a shallow embedding of the commit log, the reference graph and the snapshot operations

The development follows the Go sources `internal/storage/commitStore.go` and,
in `internal/core`, `helpers.go`, `commit.go`, `reset.go`, `merge.go`,
`checkout.go`, `branch.go`, `add.go`, `move.go`, `clean.go` and `index.go`, and
the handlers of `add`, `commit` and `clean` in `cmd/main.go`.

Modelling conventions.

* A Go `string` is a Lean `String`; `strings.HasPrefix`, `strings.TrimSpace`,
  `strings.TrimPrefix` and `strings.Contains` are written out below on the
  character list, so that they evaluate inside the kernel.
* A Go function returning `(T, error)` becomes a function into `Except Err T`.
  A function that writes to the repository additionally returns the new state.
* A loop that follows parent pointers is unbounded in the source; it is given
  a fuel argument and returns `none` when the fuel runs out.
* Functions of the Go standard library that the sources call (`crypto/sha1`,
  `encoding/json`, `time.Format`) are the fields of `Lib` and stay abstract.
* The file system is the record `Repo`: the files below `.kitkat` by role, and
  the working tree as a map from path to content in which a path is a key
  (two spellings of one path are two keys). Reading a file that is there
  succeeds, `os.Remove` removes the file, and a write fails exactly when the
  fault oracle `Faults` says so.
* Functions of package `storage` whose source is not available (`ParseTree`,
  `LoadIndex`, `WriteIndex`, `ReadObject`, `CreateTree`, `HashAndStoreFile`),
  the ignore matcher (`ShouldIgnore`, `LoadIgnorePatterns`) and package `diff`
  follow the specification and say so in their comment.
* A walk of the working tree visits the files at or below the root; a file
  outside the root has a key that starts with `../`.
-/

set_option autoImplicit false

namespace Kitkat

/-! ## Strings -/

/-- Go `strings.HasPrefix s p`. -/
def HasPrefix (s p : String) : Bool :=
  p.data.isPrefixOf s.data

/-- Go `unicode.IsSpace`: the white space that `strings.TrimSpace` removes. -/
def isSpace (c : Char) : Bool :=
  c = '\t' || c = '\n' || c.toNat = 0x0B || c.toNat = 0x0C || c = '\r' || c = ' '
    || c.toNat = 0x85 || c.toNat = 0xA0 || c.toNat = 0x1680
    || (0x2000 ≤ c.toNat && c.toNat ≤ 0x200A)
    || c.toNat = 0x2028 || c.toNat = 0x2029 || c.toNat = 0x202F
    || c.toNat = 0x205F || c.toNat = 0x3000

/-- Characters of `cs` with the trailing white space removed. -/
def trimRight : List Char → List Char
  | [] => []
  | c :: cs =>
    match trimRight cs with
    | [] => if isSpace c then [] else [c]
    | r => c :: r

/-- Go `strings.TrimSpace`. -/
def TrimSpace (s : String) : String :=
  ⟨trimRight (s.data.dropWhile isSpace)⟩

/-- Go `strings.TrimPrefix s p`. -/
def TrimPrefix (s p : String) : String :=
  if HasPrefix s p then ⟨s.data.drop p.data.length⟩ else s

/-- Whether some suffix of `cs` starts with `sub`. -/
def containsChars (sub : List Char) : List Char → Bool
  | [] => sub.isEmpty
  | c :: cs => sub.isPrefixOf (c :: cs) || containsChars sub cs

/-- Go `strings.Contains s sub`. -/
def Contains (s sub : String) : Bool :=
  containsChars sub.data s.data

/-- The fields of a line, separated by `sep`. -/
def splitFields (sep : Char) : List Char → List (List Char)
  | [] => [[]]
  | c :: cs =>
    if c = sep then [] :: splitFields sep cs
    else
      match splitFields sep cs with
      | [] => [[c]]
      | f :: fs => (c :: f) :: fs

/-! ## Commit records and errors -/

/-- Modelled from the spec: the record type `models.Commit`, whose declaration is
not among the sources; its seven fields are the JSON fields the spec lists.
`Timestamp` is the instant in nanoseconds. -/
structure models.Commit where
  ID : String
  Parent : String
  Message : String
  Timestamp : Int
  TreeHash : String
  AuthorName : String
  AuthorEmail : String
deriving DecidableEq, Repr

/-- The errors the modelled functions return. -/
inductive Err where
  /-- `storage.ErrNoCommits`. -/
  | noCommits
  /-- `commit with hash %s not found`. -/
  | notFound (hash : String)
  /-- `ambiguous short hash %s (matches %d commits)`. -/
  | ambiguous (hash : String) (n : Nat)
  /-- `no common ancestor found`. -/
  | noCommonAncestor
  /-- An error of the operating system for which `os.IsNotExist` holds. -/
  | notExist (path : String)
  /-- Any other error of the operating system or of a library call. -/
  | os (what : String)
  /-- An error made by `errors.New` or `fmt.Errorf` without `%w`. -/
  | msg (text : String)
  /-- An error made by `fmt.Errorf` with `%w`: the text before the wrapped error. -/
  | wrap (text : String) (inner : Err)
deriving DecidableEq, Repr

/-- Equality of results can be decided when equality of errors and of values can. -/
instance instDecidableEqExcept {ε α : Type} [DecidableEq ε] [DecidableEq α] :
    DecidableEq (Except ε α)
  | .ok a, .ok b =>
    if h : a = b then isTrue (by rw [h]) else isFalse (fun h1 => h (Except.ok.inj h1))
  | .error a, .error b =>
    if h : a = b then isTrue (by rw [h]) else isFalse (fun h1 => h (Except.error.inj h1))
  | .ok _, .error _ => isFalse (fun h => Except.noConfusion h)
  | .error _, .ok _ => isFalse (fun h => Except.noConfusion h)

/-- Functions of the Go standard library that the sources call. -/
structure Lib where
  /-- Hex encoding of the SHA-1 digest of a byte string. -/
  sha1 : String → String
  /-- The rendering `t.UTC().Format(time.RFC3339Nano)`. -/
  formatTime : Int → String
  /-- The line `json.NewEncoder(f).Encode(commit)` writes, without its newline. -/
  marshal : models.Commit → String
  /-- The record `json.Unmarshal` reads from a line, `none` when it reports an error. -/
  unmarshal : String → Option models.Commit

/-! ## The commit log (`internal/storage/commitStore.go`) -/

/-- The tail of `FindCommit`, after the scanner is exhausted: `found` is the
slice `matches`. -/
def FindCommit.finish (hash : String) (found : List models.Commit) : Except Err models.Commit :=
  match found with
  | [c] => .ok c
  | [] => .error (.notFound hash)
  | _ :: _ :: _ => .error (.ambiguous hash found.length)

/-- The loop of `FindCommit`: `lines` are the lines the scanner has still to
deliver and `found` is the slice `matches`. -/
def FindCommit.scan (L : Lib) (hash : String) : List String → List models.Commit → Except Err models.Commit
  | [], found => FindCommit.finish hash found
  | line :: rest, found =>
    match L.unmarshal line with
    | none => FindCommit.scan L hash rest found
    | some commit =>
      if commit.ID = hash then .ok commit
      else if HasPrefix commit.ID hash then FindCommit.scan L hash rest (found ++ [commit])
      else FindCommit.scan L hash rest found

/-- `FindCommit(hash)`. The argument `log` is the content of `.kitkat/commits.log`
as the scanner splits it into lines, `none` when the file does not exist. The
scanner itself is taken not to fail (`scanner.Err()` is `nil`). -/
def FindCommit (L : Lib) (log : Option (List String)) (hash : String) : Except Err models.Commit :=
  match log with
  | none => .error .noCommits
  | some lines => FindCommit.scan L hash lines []

/-- The records of a log: the lines that `json.Unmarshal` accepts, in log order. -/
def records (L : Lib) (lines : List String) : List models.Commit :=
  lines.filterMap L.unmarshal

/-- The reference definition of the lookup, written after the specification: an
exact match wins (the first in log order), otherwise the prefix matches decide. -/
def FindCommitRef (recs : List models.Commit) (h : String) : Except Err models.Commit :=
  match recs.find? (fun c => decide (c.ID = h)) with
  | some c => .ok c
  | none =>
    match recs.filter (fun c => HasPrefix c.ID h) with
    | [] => .error (.notFound h)
    | [c] => .ok c
    | c :: d :: r => .error (.ambiguous h (c :: d :: r).length)

/-- The loop of `IsAncestor`: walk up from `current` until a commit with ID
`ancestorHash` is met, the root is passed or a lookup fails. -/
def IsAncestor.walk (L : Lib) (log : Option (List String)) (ancestorHash : String) :
    Nat → String → Option (Except Err Bool)
  | 0, current => if current = "" then some (.ok false) else none
  | fuel + 1, current =>
    if current = "" then some (.ok false)
    else
      match FindCommit L log current with
      | .error e => some (.error e)
      | .ok c =>
        if c.ID = ancestorHash then some (.ok true)
        else IsAncestor.walk L log ancestorHash fuel c.Parent

/-- `IsAncestor(ancestorHash, descendantHash)`; `none` when the fuel runs out. -/
def IsAncestor (L : Lib) (log : Option (List String)) (fuel : Nat)
    (ancestorHash descendantHash : String) : Option (Except Err Bool) :=
  if ancestorHash = "" ∨ descendantHash = "" then some (.ok false)
  else if ancestorHash = descendantHash then some (.ok true)
  else IsAncestor.walk L log ancestorHash fuel descendantHash

/-- The first loop of `FindMergeBase`: `seen` holds the keys of `ancestors1`. -/
def FindMergeBase.collect (L : Lib) (log : Option (List String)) :
    Nat → String → List String → Option (Except Err (List String))
  | 0, current, seen => if current = "" then some (.ok seen) else none
  | fuel + 1, current, seen =>
    if current = "" then some (.ok seen)
    else
      match FindCommit L log current with
      | .error e => some (.error e)
      | .ok c => FindMergeBase.collect L log fuel c.Parent (current :: seen)

/-- The second loop of `FindMergeBase` and the error after it. -/
def FindMergeBase.search (L : Lib) (log : Option (List String)) (seen : List String) :
    Nat → String → Option (Except Err String)
  | 0, current => if current = "" then some (.error .noCommonAncestor) else none
  | fuel + 1, current =>
    if current = "" then some (.error .noCommonAncestor)
    else if current ∈ seen then some (.ok current)
    else
      match FindCommit L log current with
      | .error e => some (.error e)
      | .ok c => FindMergeBase.search L log seen fuel c.Parent

/-- `FindMergeBase(hash1, hash2)`; `none` when the fuel runs out. Each loop gets
the whole fuel. -/
def FindMergeBase (L : Lib) (log : Option (List String)) (fuel : Nat)
    (hash1 hash2 : String) : Option (Except Err String) :=
  if hash1 = hash2 then some (.ok hash1)
  else
    match FindMergeBase.collect L log fuel hash1 [] with
    | none => none
    | some (.error e) => some (.error e)
    | some (.ok seen) => FindMergeBase.search L log seen fuel hash2

/-! ## The repository state -/

/-- A Go `map[string]string`: a finite map with the sequence of its entries,
which stands for the order in which a `range` loop visits them. -/
abbrev StrMap := AList (fun _ : String => String)

/-- The file `.kitkat/index`. -/
inductive IndexFile where
  /-- The file does not exist. -/
  | absent
  /-- The file holds bytes that are not a JSON object. -/
  | corrupt
  /-- The file holds the JSON object `m` (an empty file counts as the empty object). -/
  | valid (m : StrMap)
deriving DecidableEq

/-- The part of the file system the operations touch. The files below `.kitkat`
are kept by role; `work` holds every other file, keyed by its clean path
relative to the repository root. -/
structure Repo where
  /-- Whether the directory `.kitkat` exists (`RepoDir`). -/
  repoDir : Bool
  /-- The content of `.kitkat/HEAD` (`HeadPath`), `none` when the file is absent. -/
  head : Option String
  /-- The files `.kitkat/<refPath>`, keyed by `refPath`; a branch `b` is the key
  `refs/heads/b`. -/
  refs : StrMap
  /-- The lines of `.kitkat/commits.log`, `none` when the file is absent. -/
  log : Option (List String)
  /-- The file `.kitkat/index`. -/
  index : IndexFile
  /-- The tree objects of the object store, in parsed form, keyed by hash. -/
  trees : AList (fun _ : String => StrMap)
  /-- The blobs of the object store, keyed by hash. -/
  blobs : StrMap
  /-- The files of the working tree. -/
  work : StrMap

/-- The input and output failures an operation may meet. A fault is a property
of the environment and stays fixed while one operation runs. -/
structure Faults where
  /-- Whether `os.MkdirAll(filepath.Dir(path))` fails for the file `path`. -/
  mkdir : String → Bool
  /-- Whether the atomic write of the file `path` fails. -/
  write : String → Bool
  /-- Whether appending to the commit log fails (lock held, or the write fails). -/
  append : Bool

/-- How a call ends that may also panic. -/
inductive Outcome where
  /-- The call returned `nil`. -/
  | ok
  /-- The call returned an error. -/
  | error (e : Err)
  /-- The call panicked (a slice out of range). -/
  | panic
deriving DecidableEq

/-- The constant `RepoDir`. -/
def RepoDir : String := ".kitkat"

/-- The constant `HeadPath`. -/
def HeadPath : String := ".kitkat/HEAD"

/-- The constant `IndexPath`. -/
def IndexPath : String := ".kitkat/index"

/-- The key in `Repo.refs` of the file `filepath.Join(HeadsDir, name)`. -/
def branchKey (name : String) : String := "refs/heads/" ++ name

/-- The file name `filepath.Join(".kitkat", refPath)`. -/
def branchFile (refPath : String) : String := ".kitkat/" ++ refPath

/-- The text `err.Error()`. -/
def Err.Error : Err → String
  | .noCommits => "no commits yet"
  | .notFound hash => "commit with hash " ++ hash ++ " not found"
  | .ambiguous hash n =>
    "ambiguous short hash " ++ hash ++ " (matches " ++ toString n ++ " commits)"
  | .noCommonAncestor => "no common ancestor found"
  | .notExist path => "open " ++ path ++ ": no such file or directory"
  | .os what => what
  | .msg text => text
  | .wrap text inner => text ++ inner.Error

/-- The test `os.IsNotExist(err)`; it does not look inside wrapped errors. -/
def Err.IsNotExist : Err → Bool
  | .notExist _ => true
  | _ => false

/-! ## Paths -/

/-- One step of `filepath.Clean` over the components of a path: `stack` holds the
components kept so far, the last one first. Empty components and `.` are
dropped, `..` removes the component before it, is dropped at the root and is
kept at the start of a relative path. -/
def Clean.step (rooted : Bool) (stack : List (List Char)) (comp : List Char) : List (List Char) :=
  if comp = [] ∨ comp = ['.'] then stack
  else if comp = ['.', '.'] then
    match stack with
    | [] => if rooted then [] else [comp]
    | top :: rest => if top = ['.', '.'] then comp :: stack else rest
  else comp :: stack

/-- The components joined by `/`. -/
def joinPath : List (List Char) → List Char
  | [] => []
  | [c] => c
  | c :: d :: rest => c ++ '/' :: joinPath (d :: rest)

/-- Go `filepath.Clean` on a path with the separator `/`. -/
def Clean (path : String) : String :=
  let rooted : Bool := path.data.head? = some '/'
  let body := joinPath ((splitFields '/' path.data).foldl (Clean.step rooted) []).reverse
  if rooted then ⟨'/' :: body⟩ else if body = [] then "." else ⟨body⟩

/-- Go `filepath.IsAbs` on a path with the separator `/`. -/
def IsAbs (path : String) : Bool :=
  HasPrefix path "/"

/-- `IsSafePath(path)` (`internal/core/helpers.go`). -/
def IsSafePath (path : String) : Bool :=
  let cleanPath := Clean path
  if IsAbs cleanPath then false
  else if Contains cleanPath ".." then false
  else true

/-- The components of a path. -/
def components (path : String) : List (List Char) :=
  splitFields '/' path.data

/-- Whether a clean path is the directory `.kitkat` or lies inside it. -/
def insideRepoDir (cleanPath : String) : Bool :=
  cleanPath = RepoDir || HasPrefix cleanPath (RepoDir ++ "/")

/-- Safety of a path as the specification words it: after normalisation the path
is relative, has no component `..` and does not lie inside `.kitkat`. -/
def safeBySpec (path : String) : Bool :=
  !IsAbs (Clean path) && !(components (Clean path)).contains ['.', '.'] &&
    !insideRepoDir (Clean path)

/-! ## The object store and the index (package `storage`) -/

/-- Modelled from the spec: `storage.ReadObject`, whose source is missing;
`get(hash)` returns the bytes stored under the hash or fails. -/
def ReadObject (s : Repo) (hash : String) : Except Err String :=
  match s.blobs.lookup hash with
  | some bytes => .ok bytes
  | none => .error (.notExist (".kitkat/objects/" ++ hash))

/-- Modelled from the spec: `storage.ParseTree`, whose source is missing;
`parse(tree_hash)` returns the path-to-hash map of the tree object or fails. -/
def ParseTree (s : Repo) (treeHash : String) : Except Err StrMap :=
  match s.trees.lookup treeHash with
  | some m => .ok m
  | none => .error (.notExist (".kitkat/objects/" ++ treeHash))

/-- Modelled from the spec: `storage.LoadIndex`, whose source is missing; an empty
or absent file yields an empty map and bad JSON is an error. -/
def LoadIndex (s : Repo) : Except Err StrMap :=
  match s.index with
  | .absent => .ok ∅
  | .corrupt => .error (.msg "index file corrupted")
  | .valid m => .ok m

/-- Modelled from the spec: `storage.WriteIndex`, whose source is missing; the
map replaces the index file through the atomic writer. -/
def WriteIndex (F : Faults) (m : StrMap) (s : Repo) : Except Err Unit × Repo :=
  if F.write IndexPath then (.error (.os "write .kitkat/index"), s)
  else (.ok (), { s with index := .valid m })

/-! ## References (`internal/core/helpers.go`) -/

/-- `SafeWrite(filename, data, perm)` on a file of the working tree: either the
file holds `data` afterwards or nothing changed (the temporary file is removed). -/
def SafeWrite (F : Faults) (filename data : String) (s : Repo) : Except Err Unit × Repo :=
  if F.write filename then (.error (.os ("write " ++ filename)), s)
  else (.ok (), { s with work := s.work.insert filename data })

/-- `readHead()`. -/
def readHead (s : Repo) : Except Err String :=
  match s.head with
  | none => .error (.notExist HeadPath)
  | some headData =>
    let ref := TrimSpace headData
    if HasPrefix ref "ref: " then
      let refPath := TrimPrefix ref "ref: "
      match s.refs.lookup refPath with
      | none => .error (.notExist (branchFile refPath))
      | some commitHash => .ok (TrimSpace commitHash)
    else .ok ref

/-- `GetHeadCommit()`. -/
def GetHeadCommit (L : Lib) (s : Repo) : Except Err models.Commit :=
  match readHead s with
  | .error e => .error e
  | .ok commitHash => FindCommit L s.log commitHash

/-- `UpdateBranchPointer(commitHash)`. -/
def UpdateBranchPointer (F : Faults) (commitHash : String) (s : Repo) : Except Err Unit × Repo :=
  match s.head with
  | none => (.error (.wrap "unable to read HEAD file: " (.notExist HeadPath)), s)
  | some headData =>
    let ref := TrimSpace headData
    if HasPrefix ref "ref: " then
      let refPath := TrimPrefix ref "ref: "
      match s.refs.lookup refPath with
      | none =>
        (.error (.msg ("current branch " ++ TrimPrefix refPath "refs/heads/" ++ " not found")), s)
      | some _ =>
        if F.write (branchFile refPath) then
          (.error (.wrap "failed to update branch pointer: " (.os ("write " ++ branchFile refPath))), s)
        else (.ok (), { s with refs := s.refs.insert refPath commitHash })
    else
      if F.write HeadPath then
        (.error (.wrap "failed to update HEAD: " (.os ("write " ++ HeadPath))), s)
      else (.ok (), { s with head := some commitHash })

/-- The file `UpdateBranchPointer` writes: the branch file HEAD names, or HEAD
itself when HEAD is detached. -/
def pointerFile (s : Repo) : String :=
  match s.head with
  | none => HeadPath
  | some headData =>
    if HasPrefix (TrimSpace headData) "ref: " then
      branchFile (TrimPrefix (TrimSpace headData) "ref: ")
    else HeadPath

/-- The first loop of `UpdateWorkspaceAndIndex`: `os.Remove` of every path of the
current index that the target tree lacks; its result is not looked at. -/
def removeStale (targetTree : StrMap) : List String → StrMap → StrMap
  | [], work => work
  | path :: rest, work =>
    if path ∈ targetTree then removeStale targetTree rest work
    else removeStale targetTree rest (work.erase path)

/-- The second loop of `UpdateWorkspaceAndIndex` over the entries of the target
tree: read the blob, make the directory, write the file; the first error ends it. -/
def writeTree (F : Faults) : List (Sigma fun _ : String => String) → Repo → Except Err Unit × Repo
  | [], s => (.ok (), s)
  | ⟨path, hash⟩ :: rest, s =>
    match ReadObject s hash with
    | .error e => (.error e, s)
    | .ok content =>
      if F.mkdir path then (.error (.os ("mkdir for " ++ path)), s)
      else
        match SafeWrite F path content s with
        | (.error e, s1) => (.error e, s1)
        | (.ok (), s1) => writeTree F rest s1

/-- The map `currentIndex, _ := storage.LoadIndex()`: the error is dropped and the
map is then empty. -/
def currentIndexOf (s : Repo) : StrMap :=
  match LoadIndex s with
  | .ok m => m
  | .error _ => ∅

/-- The body of `UpdateWorkspaceAndIndex` once the target tree is known: remove
the stale paths, write the files of the tree, write the index. -/
def applyTree (F : Faults) (targetTree : StrMap) (s : Repo) : Except Err Unit × Repo :=
  match writeTree F targetTree.entries
      { s with work := removeStale targetTree (currentIndexOf s).keys s.work } with
  | (.error e, s2) => (.error e, s2)
  | (.ok (), s2) => WriteIndex F targetTree s2

/-- `UpdateWorkspaceAndIndex(commitHash)`. -/
def UpdateWorkspaceAndIndex (L : Lib) (F : Faults) (commitHash : String) (s : Repo) :
    Except Err Unit × Repo :=
  match FindCommit L s.log commitHash with
  | .error e => (.error e, s)
  | .ok commit =>
    match ParseTree s commit.TreeHash with
    | .error e => (.error e, s)
    | .ok targetTree => applyTree F targetTree s

/-- The files that `filepath.Walk(".", ...)` visits: the files of the working tree
at or below the root, each with its clean path (the key of a file outside the
root starts with `../`). The files below `.kitkat`, which every walk skips, are
not in `Repo.work`; directories hold no content and every walk passes them by. -/
def walkFiles (s : Repo) : List (Sigma fun _ : String => String) :=
  s.work.entries.filter fun e => !HasPrefix e.1 "../"

/-- The callback that `IsWorkDirDirty` hands to `filepath.Walk`, at the file
`cleanPath` with the given content: the error it returns, if any. -/
def IsWorkDirDirty.visit (L : Lib) (index : StrMap) (cleanPath content : String) : Option Err :=
  if HasPrefix cleanPath (RepoDir ++ "/") || cleanPath = RepoDir then none
  else
    match index.lookup cleanPath with
    | none => some (.msg "untracked")
    | some indexHash =>
      if L.sha1 content ≠ indexHash then some (.msg "modified") else none

/-- The walk `filepath.Walk(".", ...)` over the files: the first error a visit
returns ends the walk. -/
def IsWorkDirDirty.walk (L : Lib) (index : StrMap) :
    List (Sigma fun _ : String => String) → Option Err
  | [] => none
  | ⟨path, content⟩ :: rest =>
    match IsWorkDirDirty.visit L index path content with
    | some e => some e
    | none => IsWorkDirDirty.walk L index rest

/-- The comparison of the index with the tree of HEAD on one path. -/
def IsWorkDirDirty.staged (headTree index : StrMap) (path : String) : Bool :=
  match headTree.lookup path, index.lookup path with
  | none, some _ => true
  | some _, none => true
  | some headHash, some indexHash => headHash ≠ indexHash
  | none, none => false

/-- `IsWorkDirDirty()`. -/
def IsWorkDirDirty (L : Lib) (s : Repo) : Except Err Bool :=
  let headTreeOrErr : Except Err StrMap :=
    match GetHeadCommit L s with
    | .ok lastCommit => ParseTree s lastCommit.TreeHash
    | .error err =>
      if !err.IsNotExist && !Contains err.Error "no such file"
          && !Contains err.Error "cannot find the file" then .error err
      else .ok ∅
  match headTreeOrErr with
  | .error e => .error e
  | .ok headTree =>
    match LoadIndex s with
    | .error e => .error e
    | .ok index =>
      if (headTree.keys ++ index.keys).any (IsWorkDirDirty.staged headTree index) then .ok true
      else
        match IsWorkDirDirty.walk L index (walkFiles s) with
        | some err =>
          if err.Error = "untracked" || err.Error = "modified" then .ok true else .error err
        | none => .ok false

/-! ## Reset and merge (`internal/core/reset.go`, `internal/core/merge.go`) -/

/-- The length `len(s)` of a Go string, in bytes. -/
def len (s : String) : Nat := s.utf8ByteSize

/-- `ResetHard(commitHash)`. The last statement slices `commitHash[:7]`, which
panics on an argument shorter than seven bytes. -/
def ResetHard (L : Lib) (F : Faults) (commitHash : String) (s : Repo) : Outcome × Repo :=
  match FindCommit L s.log commitHash with
  | .error _ => (.error (.msg ("fatal: invalid commit: " ++ commitHash)), s)
  | .ok _ =>
    match readHead s with
    | .error e => (.error (.wrap "fatal: unable to read HEAD file: " e), s)
    | .ok oldHeadCommit =>
      match UpdateBranchPointer F commitHash s with
      | (.error e, s1) => (.error e, s1)
      | (.ok (), s1) =>
        match UpdateWorkspaceAndIndex L F commitHash s1 with
        | (.error e, s2) =>
          (.error (.wrap "failed to update workspace: " e), (UpdateBranchPointer F oldHeadCommit s2).2)
        | (.ok (), s2) =>
          if len commitHash < 7 then (.panic, s2) else (.ok, s2)

/-- `Merge(branchToMerge)`; `none` when the fuel of `FindMergeBase` runs out. The
fast-forward case slices both hashes at `[:7]` before it moves the pointer. -/
def Merge (L : Lib) (F : Faults) (fuel : Nat) (branchToMerge : String) (s : Repo) :
    Option (Outcome × Repo) :=
  if !s.repoDir then some (.error (.msg "not a kitkat repository (run `kitkat init`)"), s)
  else
    match IsWorkDirDirty L s with
    | .error e => some (.error (.wrap "failed to check working directory status: " e), s)
    | .ok true =>
      some (.error (.msg
        "error: your local changes would be overwritten by merge. Please commit or stash them"), s)
    | .ok false =>
      match s.refs.lookup (branchKey branchToMerge) with
      | none => some (.error (.msg ("branch '" ++ branchToMerge ++ "' not found")), s)
      | some featureHeadHashBytes =>
        let featureHeadHash := TrimSpace featureHeadHashBytes
        match readHead s with
        | .error e => some (.error (.wrap "could not read current HEAD: " e), s)
        | .ok currentHeadHash =>
          match FindMergeBase L s.log fuel currentHeadHash featureHeadHash with
          | none => none
          | some (.error e) => some (.error (.wrap "failed to calculate merge base: " e), s)
          | some (.ok mergeBase) =>
            if mergeBase = currentHeadHash then
              if len currentHeadHash < 7 ∨ len featureHeadHash < 7 then some (.panic, s)
              else
                match UpdateBranchPointer F featureHeadHash s with
                | (.error e, s1) => some (.error (.wrap "failed to update branch pointer: " e), s1)
                | (.ok (), s1) =>
                  match UpdateWorkspaceAndIndex L F featureHeadHash s1 with
                  | (.error e, s2) =>
                    match UpdateBranchPointer F currentHeadHash s2 with
                    | (.error rollbackErr, s3) =>
                      some (.error (.wrap "failed to update workspace: "
                        (.wrap (e.Error ++ "; additionally failed to rollback branch pointer: ")
                          rollbackErr)), s3)
                    | (.ok (), s3) =>
                      some (.error (.wrap "failed to update workspace: "
                        (.wrap (e.Error ++ "; branch pointer rolled back to ")
                          (.msg currentHeadHash))), s3)
                  | (.ok (), s2) => some (.ok, s2)
            else if mergeBase = featureHeadHash then some (.ok, s)
            else
              some (.error (.msg ("fatal: Not possible to fast-forward, aborting.\n"
                ++ "Merge commits are not supported. Please rebase '" ++ branchToMerge
                ++ "' onto the current branch")), s)

/-! ## Commit (`internal/core/commit.go`) -/

/-- `hashCommit(c)`. -/
def hashCommit (L : Lib) (c : models.Commit) : String :=
  L.sha1 (c.TreeHash ++ c.Parent ++ c.Message ++ L.formatTime c.Timestamp)

/-- Byte-wise order of two strings, on their characters. -/
def leChars : List Char → List Char → Bool
  | [], _ => true
  | _ :: _, [] => false
  | a :: as, b :: bs => a.toNat < b.toNat || (a.toNat = b.toNat && leChars as bs)

/-- Insert an entry into a list of entries sorted by path. -/
def insertByPath (e : String × String) : List (String × String) → List (String × String)
  | [] => [e]
  | x :: xs => if leChars e.1.data x.1.data then e :: x :: xs else x :: insertByPath e xs

/-- Modelled from the spec: the serialised form of a tree, one line
`<hash><SP><path>` per entry, sorted by path. -/
def serializeTree (m : StrMap) : String :=
  String.join (((m.entries.map fun e => (e.1, e.2)).foldr insertByPath []).map
    fun e => e.2 ++ " " ++ e.1 ++ "\n")

/-- Modelled from the spec: `storage.CreateTree`, whose source is missing;
`build_from_index()` writes the tree of the current index into the object store
(unless an object with that hash is there already) and returns its hash. -/
def CreateTree (L : Lib) (F : Faults) (s : Repo) : Except Err String × Repo :=
  match LoadIndex s with
  | .error e => (.error e, s)
  | .ok index =>
    let treeHash := L.sha1 (serializeTree index)
    if treeHash ∈ s.trees then (.ok treeHash, s)
    else if F.write (".kitkat/objects/" ++ treeHash) then
      (.error (.os ("write .kitkat/objects/" ++ treeHash)), s)
    else (.ok treeHash, { s with trees := s.trees.insert treeHash index })

/-- `AppendCommit(commit)`: one more line at the end of the log. -/
def AppendCommit (L : Lib) (F : Faults) (commit : models.Commit) (s : Repo) : Except Err Unit × Repo :=
  if F.append then (.error (.os "append .kitkat/commits.log"), s)
  else (.ok (), { s with repoDir := true, log := some (s.log.getD [] ++ [L.marshal commit]) })

/-- `getCurrentBranchRefPath()`. -/
def getCurrentBranchRefPath (s : Repo) : Except Err String :=
  match s.head with
  | none => .error (.notExist HeadPath)
  | some headData =>
    let ref := TrimSpace headData
    if !HasPrefix ref "ref: " then .error (.msg ("invalid HEAD format: " ++ ref))
    else .ok (TrimPrefix ref "ref: ")

/-- The branch path `Commit` writes to: `getCurrentBranchRefPath()` and, when
that fails, the second reading of HEAD. -/
def Commit.refPath (F : Faults) (s : Repo) : Except Err String :=
  match getCurrentBranchRefPath s with
  | .ok refPath => .ok refPath
  | .error _ =>
    match s.head with
    | none => .error (.wrap "could not read HEAD: " (.notExist HeadPath))
    | some headData =>
      let ref := TrimSpace headData
      if !HasPrefix ref "ref: " then .error (.msg "cannot commit in detached HEAD state")
      else
        let refPath := TrimPrefix ref "ref: "
        if F.mkdir (branchFile refPath) then
          .error (.wrap "could not create refs directory: " (.os ("mkdir for " ++ branchFile refPath)))
        else .ok refPath

/-- The record `Commit` builds: the fields first, then the ID over them. -/
def Commit.newCommit (L : Lib) (parentID message : String) (now : Int)
    (treeHash authorName authorEmail : String) : models.Commit :=
  let commit : models.Commit :=
    { ID := "", Parent := parentID, Message := message, Timestamp := now,
      TreeHash := treeHash, AuthorName := authorName, AuthorEmail := authorEmail }
  { commit with ID := hashCommit L commit }

/-- The end of `Commit`, after the record is appended: find the branch file and
write the ID of the commit to it. -/
def Commit.movePointer (F : Faults) (commit : models.Commit) (s : Repo) :
    Except Err models.Commit × Repo :=
  match Commit.refPath F s with
  | .error e => (.error e, s)
  | .ok refPath =>
    if F.write (branchFile refPath) then
      (.error (.wrap "failed to update branch pointer: " (.os ("write " ++ branchFile refPath))), s)
    else (.ok commit, { s with refs := s.refs.insert refPath commit.ID })

/-- `Commit(message)`, without the summary text it also returns (the summary
reads the object store and changes nothing). `userName` and `userEmail` are what
`GetConfig` finds for `user.name` and `user.email` (empty when unset) and `now`
is the reading of the clock. -/
def Commit (L : Lib) (F : Faults) (userName userEmail : String) (now : Int) (message : String)
    (s : Repo) : Except Err models.Commit × Repo :=
  let authorName := if userName = "" then "Unknown" else userName
  let authorEmail := if userEmail = "" then "unknown@example.com" else userEmail
  match CreateTree L F s with
  | (.error e, s1) => (.error e, s1)
  | (.ok treeHash, s1) =>
    let parent : String × String :=
      match GetHeadCommit L s1 with
      | .ok parentCommit => (parentCommit.ID, parentCommit.TreeHash)
      | .error _ => ("", "")
    if treeHash = parent.2 then (.error (.msg "nothing to commit, working tree clean"), s1)
    else
      let commit := Commit.newCommit L parent.1 message now treeHash authorName authorEmail
      match AppendCommit L F commit s1 with
      | (.error e, s2) => (.error e, s2)
      | (.ok (), s2) => Commit.movePointer F commit s2

/-- The ID of the commit HEAD resolves to, empty when it resolves to none: the
value `parentID` of `Commit`. -/
def headParent (L : Lib) (s : Repo) : String :=
  match GetHeadCommit L s with
  | .ok parentCommit => parentCommit.ID
  | .error _ => ""

/-- `ReadCommits()`: the records of the log in order, none when the file is absent. -/
def ReadCommits (L : Lib) (s : Repo) : Except Err (List models.Commit) :=
  match s.log with
  | none => .ok []
  | some lines => .ok (records L lines)

/-- `GetLastCommit()`: the last record of the log. -/
def GetLastCommit (L : Lib) (s : Repo) : Except Err models.Commit :=
  match ReadCommits L s with
  | .error e => .error e
  | .ok commits =>
    match commits.getLast? with
    | none => .error .noCommits
    | some c => .ok c

/-- `AmendCommit(newMessage)`. -/
def AmendCommit (L : Lib) (F : Faults) (newMessage : String) (s : Repo) :
    Except Err models.Commit × Repo :=
  match GetLastCommit L s with
  | .error e =>
    if e = .noCommits then (.error (.msg "no commits to amend"), s)
    else (.error (.wrap "failed to get last commit: " e), s)
  | .ok lastCommit =>
    let amendedCommit := Commit.newCommit L lastCommit.Parent newMessage lastCommit.Timestamp
      lastCommit.TreeHash lastCommit.AuthorName lastCommit.AuthorEmail
    match AppendCommit L F amendedCommit s with
    | (.error e, s1) => (.error (.wrap "failed to save amended commit: " e), s1)
    | (.ok (), s1) =>
      match getCurrentBranchRefPath s1 with
      | .error e => (.error (.wrap "failed to get current branch: " e), s1)
      | .ok refPath =>
        if F.write (branchFile refPath) then
          (.error (.wrap "failed to update branch pointer: "
            (.os ("write " ++ branchFile refPath))), s1)
        else (.ok amendedCommit, { s1 with refs := s1.refs.insert refPath amendedCommit.ID })

/-! ## Checkout (`internal/core/checkout.go`) -/

/-- `os.WriteFile(path, content, 0644)` on a file of the working tree. A failure
is taken to leave the file as it was (the file cannot be opened). -/
def WriteFile (F : Faults) (path content : String) (s : Repo) : Except Err Unit × Repo :=
  if F.write path then (.error (.os ("write " ++ path)), s)
  else (.ok (), { s with work := s.work.insert path content })

/-- The safety check of `CheckoutFile`: the error it ends with, if any. The file
is there when `os.Stat` succeeds; `calculateHash` is the digest of its bytes. -/
def CheckoutFile.guard (L : Lib) (filePath : String) (s : Repo) : Option Err :=
  match s.work.lookup filePath with
  | none => none
  | some bytes =>
    let currentHash := L.sha1 bytes
    match LoadIndex s with
    | .error e => some e
    | .ok index =>
      match index.lookup filePath with
      | some trackedHash =>
        if currentHash ≠ trackedHash then
          some (.msg ("error: local changes to '" ++ filePath ++ "' would be overwritten"))
        else none
      | none => some (.msg ("error: untracked file '" ++ filePath ++ "' would be overwritten"))

/-- `CheckoutFile(filePath)`. -/
def CheckoutFile (L : Lib) (F : Faults) (filePath : String) (s : Repo) : Except Err Unit × Repo :=
  match GetLastCommit L s with
  | .error e => (.error e, s)
  | .ok lastCommit =>
    match ParseTree s lastCommit.TreeHash with
    | .error e => (.error e, s)
    | .ok tree =>
      match tree.lookup filePath with
      | none => (.error (.msg "file not found in the last commit"), s)
      | some blobHash =>
        match CheckoutFile.guard L filePath s with
        | some e => (.error e, s)
        | none =>
          match ReadObject s blobHash with
          | .error e => (.error e, s)
          | .ok content => WriteFile F filePath content s

/-- `CheckoutBranch(name)`. The two loops and the write of the index are those of
`UpdateWorkspaceAndIndex` (here with `os.WriteFile` for the files, which the
model does not tell apart from `SafeWrite`); HEAD is then written with
`os.WriteFile`. -/
def CheckoutBranch (L : Lib) (F : Faults) (name : String) (s : Repo) : Except Err Unit × Repo :=
  match s.refs.lookup (branchKey name) with
  | none => (.error (.msg ("branch '" ++ name ++ "' not found")), s)
  | some commitHashBytes =>
    let commitHash := TrimSpace commitHashBytes
    match FindCommit L s.log commitHash with
    | .error e => (.error e, s)
    | .ok commit =>
      match ParseTree s commit.TreeHash with
      | .error e => (.error e, s)
      | .ok targetTree =>
        match IsWorkDirDirty L s with
        | .error e => (.error (.wrap "could not check for local changes: " e), s)
        | .ok true =>
          (.error (.msg ("error: Your local changes to the following files would be overwritten "
            ++ "by checkout:\n\tPlease commit your changes or stash them before you switch "
            ++ "branches")), s)
        | .ok false =>
          match applyTree F targetTree s with
          | (.error e, s1) => (.error e, s1)
          | (.ok (), s1) =>
            if F.write HeadPath then (.error (.os ("write " ++ HeadPath)), s1)
            else (.ok (), { s1 with head := some ("ref: refs/heads/" ++ name) })

/-- The bytes that the tree of the commit HEAD points to records for a path: the
blob of the entry of the path in the tree of `GetHeadCommit()`. -/
def headBlob (L : Lib) (s : Repo) (path : String) : Except Err String :=
  match GetHeadCommit L s with
  | .error e => .error e
  | .ok commit =>
    match ParseTree s commit.TreeHash with
    | .error e => .error e
    | .ok tree =>
      match tree.lookup path with
      | none => .error (.msg "file not found in the commit of HEAD")
      | some blobHash => ReadObject s blobHash

/-! ## Ignore patterns -/

/-- Modelled from the spec: the type `core.IgnorePattern`, whose declaration is not
among the sources; the fields are those the tests of `ShouldIgnore` fill in. -/
structure IgnorePattern where
  Pattern : String
  Original : String
  IsDirectory : Bool
deriving DecidableEq, Repr

/-- The suffixes of a list, the list itself first. -/
def suffixes {α : Type} : List α → List (List α)
  | [] => [[]]
  | a :: as => (a :: as) :: suffixes as

/-- Match one path component against one pattern component: `*` is any run of
characters and `?` is one character (a component holds no `/`). -/
def globComponent : List Char → List Char → Bool
  | [], text => text.isEmpty
  | '*' :: pat, text => (suffixes text).any (globComponent pat)
  | '?' :: pat, _ :: text => globComponent pat text
  | '?' :: _, [] => false
  | c :: pat, d :: text => c = d && globComponent pat text
  | _ :: _, [] => false

/-- Match a path against a pattern, component by component: the pattern component
`**` stands for any number of path components, possibly none. -/
def globPath : List (List Char) → List (List Char) → Bool
  | [], path => path.isEmpty
  | pat :: pats, path =>
    if pat = ['*', '*'] then (suffixes path).any (globPath pats)
    else
      match path with
      | [] => false
      | comp :: rest => globComponent pat comp && globPath pats rest

/-- Modelled from the spec: the glob of the ignore matcher, with `*`, `?` and `**`.
A pattern without `/` is also tried on the last component of the path, as the
tests of `ShouldIgnore` require (`*.log` ignores `logs/error.log`). -/
def globMatch (pattern path : String) : Bool :=
  let pats := splitFields '/' pattern.data
  let comps := splitFields '/' path.data
  globPath pats comps ||
    (pats.length = 1 && match comps.getLast? with
      | some base => globPath pats [base]
      | none => false)

/-- Whether one pattern matches a path: literal equality, a directory pattern on
the directory itself or on a path below it, else the glob. -/
def IgnorePattern.matches (pat : IgnorePattern) (path : String) : Bool :=
  path = pat.Pattern ||
    (pat.IsDirectory && HasPrefix path (pat.Pattern ++ "/")) ||
    (!pat.IsDirectory && globMatch pat.Pattern path)

/-- Modelled from the spec: `core.ShouldIgnore`, whose source is missing. A path in
the index is never ignored; otherwise the path is ignored when a pattern
matches it. -/
def ShouldIgnore (path : String) (patterns : List IgnorePattern) (index : StrMap) : Bool :=
  if path ∈ index then false else patterns.any fun pat => pat.matches path

/-- One line of `.kitkatignore` as a pattern: blank lines and comments give none,
a trailing `/` marks a directory pattern. -/
def parseIgnoreLine (line : String) : Option IgnorePattern :=
  let text := TrimSpace line
  if text = "" ∨ HasPrefix text "#" then none
  else if text.data.getLast? = some '/' then
    some { Pattern := ⟨text.data.dropLast⟩, Original := text, IsDirectory := true }
  else some { Pattern := text, Original := text, IsDirectory := false }

/-- Modelled from the spec: `core.LoadIgnorePatterns`, whose source is missing; the
patterns are the lines of `.kitkatignore` in the working root, none when the file
is absent. -/
def LoadIgnorePatterns (s : Repo) : List IgnorePattern :=
  match s.work.lookup ".kitkatignore" with
  | none => []
  | some content => (splitFields '\n' content.data).filterMap fun l => parseIgnoreLine ⟨l⟩

/-- The dirty test as the specification words it: a staged change (the index
differs from the tree of HEAD on some path), an unstaged change (a tracked file
differs from its index entry) or an untracked file outside `.kitkat` that the
ignore patterns do not match. -/
def dirtyBySpec (L : Lib) (headTree index : StrMap) (patterns : List IgnorePattern)
    (work : StrMap) : Bool :=
  (headTree.keys ++ index.keys).any (IsWorkDirDirty.staged headTree index) ||
    work.entries.any fun e =>
      !(HasPrefix e.1 (RepoDir ++ "/") || e.1 = RepoDir) &&
        match index.lookup e.1 with
        | some indexHash => L.sha1 e.2 ≠ indexHash
        | none => !ShouldIgnore e.1 patterns index

/-! ## Staging and moving files (`internal/core/add.go`, `internal/core/move.go`)

The calls of package `os` on a path of the working tree resolve the path by its
clean form, which is the key of the file in `Repo.work`; a directory is there
when a file lies below it. The files below `.kitkat` are not in `Repo.work`, so
these calls do not see them. -/

/-- Whether the file `key` is the path `path` or lies in the directory `path`. -/
def under (path key : String) : Bool :=
  key = path || HasPrefix key (path ++ "/")

/-- Whether `os.Stat(path)` finds a file or a directory. -/
def pathExists (s : Repo) (path : String) : Bool :=
  s.work.keys.any (under (Clean path))

/-- `os.Stat(path)`, reduced to its error. -/
def Stat (s : Repo) (path : String) : Except Err Unit :=
  if pathExists s path then .ok () else .error (.notExist path)

/-- The test `endsWithDot` of `os.RemoveAll`. -/
def endsWithDot (path : String) : Bool :=
  path = "." || path.data.reverse.take 2 = ['.', '/']

/-- The working tree without the file `path` or the files of the directory `path`. -/
def RemoveAll.drop (cleanPath : String) : List String → StrMap → StrMap
  | [], w => w
  | k :: ks, w => RemoveAll.drop cleanPath ks (if under cleanPath k then w.erase k else w)

/-- `os.RemoveAll(path)`: the empty path is left alone, a path that ends in a
dot is refused, and what is at the path is removed with all it holds; a path
with nothing at it is no error. -/
def RemoveAll (path : String) (s : Repo) : Except Err Unit × Repo :=
  if path = "" then (.ok (), s)
  else if endsWithDot path then (.error (.os ("RemoveAll " ++ path ++ ": invalid argument")), s)
  else (.ok (), { s with work := RemoveAll.drop (Clean path) s.work.keys s.work })

/-- The working tree after the file `oldClean`, or the files of the directory
`oldClean`, moved to `newClean`. -/
def Rename.moveKeys (oldClean newClean : String) :
    List (Sigma fun _ : String => String) → StrMap → StrMap
  | [], w => w
  | e :: es, w =>
    Rename.moveKeys oldClean newClean es
      (if under oldClean e.1 then
        (w.erase e.1).insert (newClean ++ ⟨e.1.data.drop oldClean.data.length⟩) e.2
      else w)

/-- `os.Rename(oldpath, newpath)` where nothing is at `newpath` (as `MoveFile`
has made sure) and the directory of `newpath` exists. -/
def Rename (oldpath newpath : String) (s : Repo) : Except Err Unit × Repo :=
  if pathExists s oldpath then
    (.ok (), { s with work := Rename.moveKeys (Clean oldpath) (Clean newpath) s.work.entries s.work })
  else (.error (.notExist oldpath), s)

/-- Modelled from the spec: `storage.HashAndStoreFile`, whose source is missing;
`put(bytes)` on the bytes of the file computes the SHA-1, writes the object if
it is absent and returns the hex hash. -/
def HashAndStoreFile (L : Lib) (F : Faults) (path : String) (s : Repo) : Except Err String × Repo :=
  match s.work.lookup (Clean path) with
  | none => (.error (.notExist path), s)
  | some bytes =>
    let hash := L.sha1 bytes
    if hash ∈ s.blobs then (.ok hash, s)
    else if F.write (".kitkat/objects/" ++ hash) then
      (.error (.os ("write .kitkat/objects/" ++ hash)), s)
    else (.ok hash, { s with blobs := s.blobs.insert hash bytes })

/-- `AddFile(path)`. -/
def AddFile (L : Lib) (F : Faults) (path : String) (s : Repo) : Except Err Unit × Repo :=
  if IsSafePath path = false then (.error (.msg ("unsafe path detected: " ++ path)), s)
  else if s.repoDir = false then
    (.error (.msg "not a kitkat repository (run `kitkat init`)"), s)
  else
    match HashAndStoreFile L F path s with
    | (.error e, s1) => (.error e, s1)
    | (.ok hash, s1) =>
      match LoadIndex s1 with
      | .error e => (.error e, s1)
      | .ok index =>
        if index.lookup path = some hash then (.ok (), s1)
        else WriteIndex F (index.insert path hash) s1

/-- The first step of `MoveFile`: with `force` the destination is removed,
without it the destination must not exist. -/
def MoveFile.clear (newPath : String) (force : Bool) (s : Repo) : Except Err Unit × Repo :=
  if force then
    match RemoveAll newPath s with
    | (.error e, s1) => if e.IsNotExist then (.ok (), s1) else (.error e, s1)
    | (.ok (), s1) => (.ok (), s1)
  else
    match Stat s newPath with
    | .ok () => (.error (.msg "destination path already exists"), s)
    | .error e => if e.IsNotExist then (.ok (), s) else (.error e, s)

/-- `MoveFile(oldPath, newPath, force)`. -/
def MoveFile (L : Lib) (F : Faults) (oldPath newPath : String) (force : Bool) (s : Repo) :
    Except Err Unit × Repo :=
  if oldPath = newPath then (.error (.msg "source and destination paths are the same"), s)
  else
    match MoveFile.clear newPath force s with
    | (.error e, s1) => (.error e, s1)
    | (.ok (), s1) =>
      match Rename oldPath newPath s1 with
      | (.error e, s2) => (.error e, s2)
      | (.ok (), s2) =>
        match AddFile L F newPath s2 with
        | (.error e, s3) => (.error e, s3)
        | (.ok (), s3) =>
          match LoadIndex s3 with
          | .error e => (.error e, s3)
          | .ok idx => WriteIndex F (idx.erase oldPath) s3

/-- Whether an error of `Commit` is one of those raised after the record was
appended: HEAD cannot be read, HEAD is detached, the directory of the branch
file cannot be made, the branch file cannot be written. -/
def Commit.afterAppend : Err → Bool
  | .wrap text _ =>
    text = "could not read HEAD: " || text = "could not create refs directory: "
      || text = "failed to update branch pointer: "
  | .msg text => text = "cannot commit in detached HEAD state"
  | _ => false

/-! ## Cleaning the working tree (`internal/core/clean.go`, `cmd/main.go`) -/

/-- The callback that `core.Clean` hands to `filepath.Walk`, at the file `clean`:
the state and the lines printed so far, before and after. `os.Remove` of a
file that is there is taken to succeed. -/
def core.Clean.visit (dryRun includeIgnored : Bool) (index : StrMap)
    (ignorePatterns : List IgnorePattern) (clean : String) (st : Repo × List String) :
    Repo × List String :=
  if clean = RepoDir || HasPrefix clean (RepoDir ++ "/") then st
  else if clean = "." then st
  else
    match index.lookup clean with
    | some _ => st
    | none =>
      let isIgnored := ShouldIgnore clean ignorePatterns index
      if isIgnored && !includeIgnored then st
      else if dryRun then
        (st.1, st.2 ++ [if isIgnored then "Would remove (ignored) " ++ clean
          else "Would remove " ++ clean])
      else ({ st.1 with work := st.1.work.erase clean }, st.2 ++ ["Removing " ++ clean])

/-- `Clean(dryRun, includeIgnored)` of package `core`, with the lines it prints. -/
def core.Clean (dryRun includeIgnored : Bool) (s : Repo) : Except Err Unit × Repo × List String :=
  if s.repoDir = false then
    (.error (.msg "not a kitkat repository (run `kitkat init`)"), s, [])
  else
    match LoadIndex s with
    | .error e => (.error e, s, [])
    | .ok index =>
      let st := (walkFiles s).foldl
        (fun st e => core.Clean.visit dryRun includeIgnored index (LoadIgnorePatterns s) e.1 st)
        (s, [])
      (.ok (), st.1, st.2)

/-- The handler of the command `clean`: the exit code, the state and the lines
printed. -/
def commands.clean (args : List String) (s : Repo) : Nat × Repo × List String :=
  let force := args.foldl (fun force arg => if arg = "-f" then true else force) false
  let includeIgnored :=
    args.foldl (fun includeIgnored arg => if arg = "-x" then true else includeIgnored) false
  if !force then
    (0, s, ["This will delete untracked files. Run 'kitkat clean -f' to proceed."])
  else
    match core.Clean true includeIgnored s with
    | (.error e, s1, out) => (1, s1, out ++ ["Error: " ++ e.Error])
    | (.ok (), s1, out) => (0, s1, out)

/-! ## Staging everything (`AddAll` in `internal/core/add.go`) -/

/-- The state of the walk of `AddAll`: the map `index`, the keys of the map
`filesInWorkDir`, and the repository (the object store grows). -/
structure AddAll.State where
  index : StrMap
  filesInWorkDir : List String
  repo : Repo

/-- The callback that `AddAll` hands to `filepath.Walk`, at the file `cleanPath`.
A file that cannot be hashed is marked as seen and the walk goes on. -/
def AddAll.visit (L : Lib) (F : Faults) (ignorePatterns : List IgnorePattern)
    (cleanPath : String) (st : AddAll.State) : AddAll.State :=
  if IsSafePath cleanPath = false then st
  else if HasPrefix cleanPath (RepoDir ++ "/") || cleanPath = RepoDir then st
  else if ShouldIgnore cleanPath ignorePatterns st.index then st
  else
    match HashAndStoreFile L F cleanPath st.repo with
    | (.error _, s1) =>
      { st with filesInWorkDir := cleanPath :: st.filesInWorkDir, repo := s1 }
    | (.ok hash, s1) =>
      { index := st.index.insert cleanPath hash
        filesInWorkDir := cleanPath :: st.filesInWorkDir
        repo := s1 }

/-- The last loop of `AddAll`: every path of the index that was not seen in the
walk is deleted from the map. -/
def AddAll.prune (filesInWorkDir : List String) : List String → StrMap → StrMap
  | [], index => index
  | pathInIndex :: rest, index =>
    AddAll.prune filesInWorkDir rest
      (if pathInIndex ∈ filesInWorkDir then index else index.erase pathInIndex)

/-- `AddAll()`. -/
def AddAll (L : Lib) (F : Faults) (s : Repo) : Except Err Unit × Repo :=
  match LoadIndex s with
  | .error e => (.error e, s)
  | .ok index =>
    let st := (walkFiles s).foldl
      (fun st e => AddAll.visit L F (LoadIgnorePatterns s) e.1 st)
      { index := index, filesInWorkDir := [], repo := s }
    WriteIndex F (AddAll.prune st.filesInWorkDir st.index.keys st.index) st.repo

/-- `CommitAll(message)`. -/
def CommitAll (L : Lib) (F : Faults) (userName userEmail : String) (now : Int)
    (message : String) (s : Repo) : Except Err models.Commit × Repo :=
  match AddAll L F s with
  | (.error e, s1) => (.error (.wrap "failed to stage changes before committing: " e), s1)
  | (.ok (), s1) => Commit L F userName userEmail now message s1

/-- Whether a clean path is the directory `.kitkat` or lies in it: the test by
which the walks skip the repository directory. -/
def inRepoDir (cleanPath : String) : Bool :=
  HasPrefix cleanPath (RepoDir ++ "/") || cleanPath = RepoDir

/-- Whether the object for `content` can be stored: it is in the object store
already, or the write of its file does not fail. -/
def canStore (L : Lib) (F : Faults) (s : Repo) (content : String) : Prop :=
  L.sha1 content ∈ s.blobs ∨ F.write (".kitkat/objects/" ++ L.sha1 content) = false

/-- What holds of the state of the walk of `AddAll` when the files `visited` have
been visited, in a repository `s` whose index was `index` at the start. -/
def AddAll.Inv (L : Lib) (F : Faults) (s : Repo) (index : StrMap)
    (visited : List (Sigma fun _ : String => String)) (st : AddAll.State) : Prop :=
  st.repo.work = s.work ∧
  (∀ h, h ∈ s.blobs → h ∈ st.repo.blobs) ∧
  (∀ p, p ∈ st.filesInWorkDir → p ∈ visited.map Sigma.fst ∧ inRepoDir p = false) ∧
  (∀ p, p ∉ visited.map Sigma.fst → st.index.lookup p = index.lookup p) ∧
  (∀ e, e ∈ visited → IsSafePath e.1 = true → inRepoDir e.1 = false →
    ShouldIgnore e.1 (LoadIgnorePatterns s) index = false → canStore L F s e.2 →
    st.index.lookup e.1 = some (L.sha1 e.2) ∧ e.1 ∈ st.filesInWorkDir)

/-! ## The dispatcher (`cmd/main.go`): the exit codes of `add` and `commit`

A handler is given by the exit code the process ends with and the state it
leaves. The lines it prints are left out; the ID of a commit is a digest of
forty characters, so the slices `ID[:7]` of the printed lines stay in range. -/

/-- `strings.Join(elems, " ")`. -/
def joinWords : List String → String
  | [] => ""
  | [w] => w
  | w :: v :: rest => w ++ " " ++ joinWords (v :: rest)

/-- The handler of the command `add`. -/
def commands.add (L : Lib) (F : Faults) (args : List String) (s : Repo) : Nat × Repo :=
  if args.length < 1 then (2, s)
  else if args.head? = some "-A" || args.head? = some "--all" then
    match AddAll L F s with
    | (.error _, s1) => (1, s1)
    | (.ok (), s1) => (0, s1)
  else
    args.foldl
      (fun (acc : Nat × Repo) path =>
        match AddFile L F path acc.2 with
        | (.error _, s1) => (1, s1)
        | (.ok (), s1) => (acc.1, s1))
      (0, s)

/-- The handler of the command `commit`. -/
def commands.commit (L : Lib) (F : Faults) (userName userEmail : String) (now : Int)
    (args : List String) (s : Repo) : Nat × Repo :=
  if s.repoDir = false then (1, s)
  else if args.length < 2 then (2, s)
  else if args.head? = some "--amend" then
    if args.length < 3 || (args.drop 1).head? ≠ some "-m" then (2, s)
    else
      match AmendCommit L F (joinWords (args.drop 2)) s with
      | (.error _, s1) => (1, s1)
      | (.ok _, s1) => (0, s1)
  else if args.head? = some "-am" then
    match CommitAll L F userName userEmail now (joinWords (args.drop 1)) s with
    | (.error err, s1) =>
      if err.Error = "nothing to commit, working tree clean" then (1, s1) else (2, s1)
    | (.ok _, s1) => (0, s1)
  else if args.head? = some "-m" then
    match Commit L F userName userEmail now (joinWords (args.drop 1)) s with
    | (.error err, s1) =>
      if err.Error = "nothing to commit, working tree clean" then (1, s1) else (1, s1)
    | (.ok _, s1) => (0, s1)
  else (2, s)

/-! ## How HEAD, the branch files and the index are written

The operations below return, next to their result, the journal of the writes
they make to HEAD, to a branch file or to the index, each with the call that
makes it. A failing `os.WriteFile` is taken to leave the file as it was. -/

/-- The call by which a file is written. -/
inductive Writer where
  /-- The atomic writer `SafeWrite`: a temporary file in the directory of the
  destination, then a rename. -/
  | SafeWrite
  /-- The call `storage.WriteIndex`, atomic by the specification. -/
  | WriteIndex
  /-- The call `os.WriteFile`: the file is truncated and written in place. -/
  | WriteFile
  /-- The calls `os.Create` and `file.Write`: the file is truncated and written in
  place. -/
  | Create
deriving DecidableEq, Repr

/-- Whether the writer goes through a temporary file and a rename. -/
def Writer.atomic : Writer → Bool
  | .SafeWrite => true
  | .WriteIndex => true
  | .WriteFile => false
  | .Create => false

/-- One write to a file of `.kitkat`. -/
structure WriteEvent where
  file : String
  writer : Writer
deriving DecidableEq, Repr

/-- The writes of `UpdateWorkspaceAndIndex` to HEAD, the branch files and the
index: the index, through `storage.WriteIndex`, once the files of the tree are
written. -/
def UpdateWorkspaceAndIndex.writes (L : Lib) (F : Faults) (commitHash : String) (s : Repo) :
    List WriteEvent :=
  match FindCommit L s.log commitHash with
  | .error _ => []
  | .ok commit =>
    match ParseTree s commit.TreeHash with
    | .error _ => []
    | .ok targetTree =>
      match writeTree F targetTree.entries
          { s with work := removeStale targetTree (currentIndexOf s).keys s.work } with
      | (.error _, _) => []
      | (.ok (), _) => [{ file := IndexPath, writer := .WriteIndex }]

/-- `CheckoutCommit(commitHash)`, with its journal. -/
def CheckoutCommit (L : Lib) (F : Faults) (commitHash : String) (s : Repo) :
    Except Err Unit × Repo × List WriteEvent :=
  match FindCommit L s.log commitHash with
  | .error _ => (.error (.msg ("commit '" ++ commitHash ++ "' not found")), s, [])
  | .ok _ =>
    match UpdateWorkspaceAndIndex L F commitHash s with
    | (.error e, s1) => (.error e, s1, UpdateWorkspaceAndIndex.writes L F commitHash s)
    | (.ok (), s1) =>
      let journal := UpdateWorkspaceAndIndex.writes L F commitHash s
        ++ [{ file := HeadPath, writer := .WriteFile }]
      if F.write HeadPath then (.error (.os ("write " ++ HeadPath)), s1, journal)
      else (.ok (), { s1 with head := some commitHash }, journal)

/-- `readHEAD()` of `branch.go`: the reference path HEAD names. -/
def readHEAD (s : Repo) : Except Err String :=
  match s.head with
  | none => .error (.notExist HeadPath)
  | some headData =>
    let ref := TrimSpace headData
    if !HasPrefix ref "ref: " then .error (.msg "invalid HEAD format")
    else .ok (TrimPrefix ref "ref: ")

/-- `readCommitHash(referencePath)`. -/
def readCommitHash (s : Repo) (referencePath : String) : Except Err String :=
  match s.refs.lookup referencePath with
  | none => .error (.notExist (branchFile referencePath))
  | some commitHash => .ok (TrimSpace commitHash)

/-- `IsBranch(name)`. -/
def IsBranch (s : Repo) (name : String) : Bool :=
  (s.refs.lookup (branchKey name)).isSome

/-- `CreateBranch(name)`, with its journal. -/
def CreateBranch (L : Lib) (F : Faults) (name : String) (s : Repo) :
    Except Err Unit × Repo × List WriteEvent :=
  if IsBranch s name then (.error (.msg ("branch '" ++ name ++ "' already exists")), s, [])
  else
    match readHEAD s with
    | .error e => (.error e, s, [])
    | .ok head =>
      let commitHashOrErr : Except Err String :=
        match readCommitHash s head with
        | .ok commitHash => .ok commitHash
        | .error _ =>
          match GetLastCommit L s with
          | .error _ => .error (.msg "cannot create branch: no commits yet")
          | .ok lastCommit => .ok lastCommit.ID
      match commitHashOrErr with
      | .error e => (.error e, s, [])
      | .ok commitHash =>
        if F.mkdir (branchFile (branchKey name)) then
          (.error (.os "mkdir .kitkat/refs/heads"), s, [])
        else
          let journal : List WriteEvent :=
            [{ file := branchFile (branchKey name), writer := .WriteFile }]
          if F.write (branchFile (branchKey name)) then
            (.error (.os ("write " ++ branchFile (branchKey name))), s, journal)
          else
            (.ok (), { s with refs := s.refs.insert (branchKey name) (TrimSpace commitHash) },
              journal)

/-- `RenameCurrentBranch(newName)`, with its journal; the branch file itself is
moved by `os.Rename`. -/
def RenameCurrentBranch (F : Faults) (newName : String) (s : Repo) :
    Except Err Unit × Repo × List WriteEvent :=
  match s.head with
  | none => (.error (.notExist HeadPath), s, [])
  | some headContent =>
    let headStr := TrimSpace headContent
    if !HasPrefix headStr "ref: refs/heads/" then
      (.error (.msg "HEAD is not pointing to a branch"), s, [])
    else
      let oldName := TrimPrefix headStr "ref: refs/heads/"
      if (s.refs.lookup (branchKey newName)).isSome then
        (.error (.msg ("branch '" ++ newName ++ "' already exists")), s, [])
      else
        match s.refs.lookup (branchKey oldName) with
        | none => (.error (.notExist (branchFile (branchKey oldName))), s, [])
        | some commitHash =>
          let refs1 : StrMap := (s.refs.erase (branchKey oldName)).insert (branchKey newName) commitHash
          let s1 : Repo := { s with refs := refs1 }
          let journal : List WriteEvent := [{ file := HeadPath, writer := .WriteFile }]
          if F.write HeadPath then (.error (.os ("write " ++ HeadPath)), s1, journal)
          else
            (.ok (), { s1 with head := some ("ref: refs/heads/" ++ newName ++ "\n") }, journal)

/-! ## The index file of package `core` (`internal/core/index.go`) -/

/-- The type `IndexEntry`. -/
structure IndexEntry where
  Path : String
  Hash : String
deriving DecidableEq, Repr

/-- The functions `json.Marshal` and `json.Unmarshal` of the standard library on a
`map[string]string`. -/
structure Json where
  marshal : StrMap → String
  unmarshal : String → Option StrMap

/-- `LoadIndex()` of package `core` on the content of `.kitkat/index` (`none` when
the file is absent). The entries come in the order in which `range` visits the
decoded map. -/
def core.LoadIndex (J : Json) (file : Option String) : Except Err (List IndexEntry) :=
  match file with
  | none => .ok []
  | some data =>
    if data = "" then .ok []
    else
      match J.unmarshal data with
      | none => .error (.msg "index file corrupted")
      | some entryMap => .ok (entryMap.entries.map fun e => { Path := e.1, Hash := e.2 })

/-- The map `entryMap` that `SaveIndex` builds from the entries: a later entry
replaces an earlier one with the same path. -/
def core.entryMap (entries : List IndexEntry) : StrMap :=
  entries.foldl (fun entryMap entry => entryMap.insert entry.Path entry.Hash) ∅

/-- `SaveIndex(entries)` of package `core` on the content of `.kitkat/index`.
`os.Create` truncates the file, so a failing `file.Write` leaves it empty;
`createFails` and `writeFails` say whether the two calls fail. -/
def core.SaveIndex (J : Json) (createFails writeFails : Bool) (entries : List IndexEntry)
    (file : Option String) : Except Err Unit × Option String :=
  if createFails then (.error (.os "open .kitkat/index"), file)
  else if writeFails then (.error (.msg "unable to write to index"), some "")
  else (.ok (), some (J.marshal (core.entryMap entries)))

/-! ## The Myers diff (package `diff`)

The package is not among the sources; only its test and its callers are. -/

/-- Modelled from the spec: the tag of a run, `EQUAL | INSERT | DELETE`. -/
inductive Operation where
  | EQUAL
  | INSERT
  | DELETE
deriving DecidableEq, Repr

/-- Modelled from the spec: the type `diff.Diff[T]`, a run of elements with its
tag; the fields are those the test and the callers read. -/
structure Diff (T : Type) where
  Operation : Operation
  Text : List T
deriving DecidableEq, Repr

/-- The left input as the runs give it: the `Text` of the `EQUAL` and `DELETE`
runs in order. -/
def leftOf {T : Type} : List (Diff T) → List T
  | [] => []
  | d :: rest => if d.Operation = .INSERT then leftOf rest else d.Text ++ leftOf rest

/-- The right input as the runs give it: the `Text` of the `EQUAL` and `INSERT`
runs in order. -/
def rightOf {T : Type} : List (Diff T) → List T
  | [] => []
  | d :: rest => if d.Operation = .DELETE then rightOf rest else d.Text ++ rightOf rest

/-- A path of the edit graph from the origin: what is left of the two inputs
where the path ends, and the edits along the path, the newest first. -/
structure Myers.Path (T : Type) where
  restA : List T
  restB : List T
  edits : List (Operation × T)

/-- The snake: follow the diagonal while the next elements of the two inputs are
equal. -/
def Myers.snake {T : Type} [DecidableEq T] :
    List T → List T → List (Operation × T) → Myers.Path T
  | u :: restA, v :: restB, edits =>
    if u = v then Myers.snake restA restB ((.EQUAL, u) :: edits)
    else { restA := u :: restA, restB := v :: restB, edits := edits }
  | restA, restB, edits => { restA := restA, restB := restB, edits := edits }

/-- The move to the right from the path on the diagonal `k - 1`: the next element
of the left input is deleted, then the snake. -/
def Myers.right {T : Type} [DecidableEq T] : Option (Myers.Path T) → Option (Myers.Path T)
  | some { restA := u :: restA, restB := restB, edits := edits } =>
    some (Myers.snake restA restB ((.DELETE, u) :: edits))
  | _ => none

/-- The move down from the path on the diagonal `k + 1`: the next element of the
right input is inserted, then the snake. -/
def Myers.down {T : Type} [DecidableEq T] : Option (Myers.Path T) → Option (Myers.Path T)
  | some { restA := restA, restB := v :: restB, edits := edits } =>
    some (Myers.snake restA restB ((.INSERT, v) :: edits))
  | _ => none

/-- How much of the left input a path has left, zero for no path. -/
def Myers.left {T : Type} : Option (Myers.Path T) → Nat
  | some p => p.restA.length
  | none => 0

/-- The furthest path with one more edit on the diagonal `k`, from the paths
`below` on `k - 1` and `above` on `k + 1` of the round before: down when the
path above is further along the left input (`V[k-1] < V[k+1]`), else right; a
move that would leave the grid is not made. -/
def Myers.step {T : Type} [DecidableEq T] (below above : Option (Myers.Path T)) :
    Option (Myers.Path T) :=
  match Myers.right below, Myers.down above with
  | none, none => none
  | some r, none => some r
  | none, some d => some d
  | some r, some d => if Myers.left above < Myers.left below then some d else some r

/-- The paths of the next round, one for each diagonal from the lowest to the
highest, from the paths of this round. -/
def Myers.next {T : Type} [DecidableEq T] (below : Option (Myers.Path T)) :
    List (Option (Myers.Path T)) → List (Option (Myers.Path T))
  | [] => [Myers.step below none]
  | above :: rest => Myers.step below above :: Myers.next above rest

/-- The edit script of a path that has reached the end of both inputs. -/
def Myers.done {T : Type} : Option (Myers.Path T) → Option (List (Operation × T))
  | some { restA := [], restB := [], edits := edits } => some edits.reverse
  | _ => none

/-- The rounds of the search: the first path of the round that has reached the
end gives the script; otherwise one more round, at most `rounds` of them. -/
def Myers.search {T : Type} [DecidableEq T] :
    Nat → List (Option (Myers.Path T)) → Option (List (Operation × T))
  | 0, frontier => frontier.findSome? Myers.done
  | rounds + 1, frontier =>
    match frontier.findSome? Myers.done with
    | some script => some script
    | none => Myers.search rounds (Myers.next none frontier)

/-- The shortest edit script by the greedy algorithm of Myers: round `d` holds the
furthest path with `d` insertions and deletions on each diagonal, and `N + M`
rounds are enough. -/
def Myers.script {T : Type} [DecidableEq T] (a b : List T) : Option (List (Operation × T)) :=
  Myers.search (a.length + b.length) [some (Myers.snake a b [])]

/-- Adjacent edits with the same tag are coalesced into one run. -/
def coalesce {T : Type} : List (Operation × T) → List (Diff T)
  | [] => []
  | (op, t) :: rest =>
    match coalesce rest with
    | [] => [{ Operation := op, Text := [t] }]
    | run :: runs =>
      if op = run.Operation then { Operation := op, Text := t :: run.Text } :: runs
      else { Operation := op, Text := [t] } :: run :: runs

/-- Modelled from the spec: the value `diff.NewMyersDiff(a, b)` returns, which
holds the two inputs. -/
structure MyersDiff (T : Type) where
  text1 : List T
  text2 : List T

/-- Modelled from the spec: `diff.NewMyersDiff`, whose source is missing. -/
def NewMyersDiff {T : Type} (a b : List T) : MyersDiff T :=
  { text1 := a, text2 := b }

/-- Modelled from the spec: `Diffs()` of package `diff`, whose source is missing;
the runs of the shortest edit script of Myers, tagged `EQUAL | INSERT | DELETE`,
adjacent runs with the same tag coalesced. -/
def MyersDiff.Diffs {T : Type} [DecidableEq T] (d : MyersDiff T) : List (Diff T) :=
  coalesce ((Myers.script d.text1 d.text2).getD [])

/-- The left input as an edit script gives it: the elements kept or deleted. -/
def Myers.lefts {T : Type} : List (Operation × T) → List T
  | [] => []
  | (op, t) :: rest => if op = .INSERT then Myers.lefts rest else t :: Myers.lefts rest

/-- The right input as an edit script gives it: the elements kept or inserted. -/
def Myers.rights {T : Type} : List (Operation × T) → List T
  | [] => []
  | (op, t) :: rest => if op = .DELETE then Myers.rights rest else t :: Myers.rights rest

/-- A path is sound for the inputs `a` and `b`, with at most `n` elements left:
its edits turn the part of `a` it has passed into the part of `b` it has passed. -/
def Myers.Sound {T : Type} (a b : List T) (n : Nat) (p : Myers.Path T) : Prop :=
  Myers.lefts p.edits.reverse ++ p.restA = a ∧ Myers.rights p.edits.reverse ++ p.restB = b ∧
    p.restA.length + p.restB.length ≤ n

/-- The first seven characters of a hash (the short form `id[0..7]`). -/
def first7 (s : String) : String := ⟨s.data.take 7⟩

/-! ## Parent chains -/

/-- The hash a parent-following loop goes to after `current`: the `Parent` of the
commit `FindCommit` returns; `none` when the loop ends there (empty hash or
failed lookup). -/
def parentOf (L : Lib) (log : Option (List String)) (current : String) : Option String :=
  if current = "" then none
  else
    match FindCommit L log current with
    | .ok c => some c.Parent
    | .error _ => none

/-- The hash reached after `n` parent steps. -/
def iterParent (L : Lib) (log : Option (List String)) : Nat → String → Option String
  | 0, h => some h
  | n + 1, h => (parentOf L log h).bind (iterParent L log n)

/-- The parent chains of a log are acyclic: no hash comes back to itself after one
or more parent steps. -/
def Acyclic (L : Lib) (log : Option (List String)) : Prop :=
  ∀ (h : String) (n : Nat), iterParent L log (n + 1) h ≠ some h

/-- The walk along the parent pointers from `h`: `Chain L log h xs r` says that
the loop visits the non-empty hashes `xs` in this order and then ends, at the
root (`r = none`) or with the error `e` of the lookup of the last hash
(`r = some e`). -/
inductive Chain (L : Lib) (log : Option (List String)) : String → List String → Option Err → Prop
  | root : Chain L log "" [] none
  | fail (h : String) (e : Err) : h ≠ "" → FindCommit L log h = .error e →
      Chain L log h [h] (some e)
  | step (h : String) (c : models.Commit) (xs : List String) (r : Option Err) : h ≠ "" →
      FindCommit L log h = .ok c → Chain L log c.Parent xs r → Chain L log h (h :: xs) r

/-- The walk of `Chain`, computed with fuel. -/
def chainOf (L : Lib) (log : Option (List String)) : Nat → String → Option (List String × Option Err)
  | 0, h => if h = "" then some ([], none) else none
  | n + 1, h =>
    if h = "" then some ([], none)
    else
      match FindCommit L log h with
      | .error e => some ([h], some e)
      | .ok c => (chainOf L log n c.Parent).map fun p => (h :: p.1, p.2)

/-- The parent chain of a full commit ID: `ParentChain L log a xs` says that `xs`
starts at `a`, that each member is the non-empty ID of the record the log
holds for it, that each member is followed by the `Parent` of its record, and
that the record of the last member has no parent. -/
inductive ParentChain (L : Lib) (log : Option (List String)) : String → List String → Prop
  | root (a : String) (c : models.Commit) : a ≠ "" → FindCommit L log a = .ok c → c.ID = a →
      c.Parent = "" → ParentChain L log a [a]
  | step (a : String) (c : models.Commit) (xs : List String) : a ≠ "" →
      FindCommit L log a = .ok c → c.ID = a → ParentChain L log c.Parent xs →
      ParentChain L log a (a :: xs)

/-- What the first loop of `FindMergeBase` returns on a walk that visits `xs` and
ends with `r`, started with the set `seen`. -/
def collectResult (xs seen : List String) (r : Option Err) : Except Err (List String) :=
  match r with
  | none => .ok (xs.reverse ++ seen)
  | some e => .error e

/-- What the second loop of `FindMergeBase` returns on a walk that visits `xs` and
ends with `r`: the first member of `xs` in `seen`, else the error. -/
def searchResult (xs seen : List String) (r : Option Err) : Except Err String :=
  match xs.find? (fun x => decide (x ∈ seen)) with
  | some m => .ok m
  | none =>
    match r with
    | none => .error .noCommonAncestor
    | some e => .error e

/-- What `FindMergeBase(X, Y)` returns for `X ≠ Y` when the walk from `X` visits
`xs` and ends with `rx` and the walk from `Y` visits `ys` and ends with `ry`. -/
def mergeResult (xs ys : List String) (rx ry : Option Err) : Except Err String :=
  match rx with
  | some e => .error e
  | none => searchResult ys xs ry

/-- Two results agree up to the kind of error: both are errors or both are the
same hash. -/
def sameOutcome (r1 r2 : Except Err String) : Prop :=
  (∃ e1 e2, r1 = .error e1 ∧ r2 = .error e2) ∨ (∃ m, r1 = .ok m ∧ r2 = .ok m)

/-! ## A small instance for the examples -/

/-- A stand-in for the standard library at the concrete inputs below: a record is
written as the line `ID|Parent|TreeHash|Message|AuthorName|AuthorEmail` (the
examples keep the timestamp at 0), and the digest keeps the letters and digits
of its input. -/
def demoLib : Lib where
  sha1 := fun s => ⟨s.data.filter fun c => c.isAlphanum⟩
  formatTime := fun _ => "T"
  marshal := fun c =>
    c.ID ++ "|" ++ c.Parent ++ "|" ++ c.TreeHash ++ "|" ++ c.Message ++ "|" ++ c.AuthorName
      ++ "|" ++ c.AuthorEmail
  unmarshal := fun line =>
    match splitFields '|' line.data with
    | [id, parent, tree, message, name, email] =>
      some { ID := ⟨id⟩, Parent := ⟨parent⟩, TreeHash := ⟨tree⟩, Message := ⟨message⟩,
             Timestamp := 0, AuthorName := ⟨name⟩, AuthorEmail := ⟨email⟩ }
    | _ => none

/-- No failures. -/
def noFaults : Faults where
  mkdir := fun _ => false
  write := fun _ => false
  append := false

/-- A log with a root commit and two children of it, and a line that is not a record. -/
def demoLog : List String :=
  ["base0001||helloatxt|first|ann|ann@x", "not a record",
   "aaaa0002|base0001|helloatxtxbtxt|second|ann|ann@x",
   "bbbb0003|base0001|byeatxt|third|bob|bob@x"]

/-- A repository with the log `demoLog`: HEAD is on `main` at the root commit, the
branches `feat` and `fix` are at its two children, and the working tree is clean. -/
def demoRepo : Repo where
  repoDir := true
  head := some "ref: refs/heads/main\n"
  refs := (((∅ : StrMap).insert "refs/heads/fix" "bbbb0003\n").insert "refs/heads/feat"
    "aaaa0002\n").insert "refs/heads/main" "base0001\n"
  log := some demoLog
  index := .valid ((∅ : StrMap).insert "a.txt" "hello")
  trees := (((∅ : AList fun _ : String => StrMap).insert "byeatxt"
      ((∅ : StrMap).insert "a.txt" "bye")).insert "helloatxtxbtxt"
      (((∅ : StrMap).insert "b.txt" "x").insert "a.txt" "hello")).insert "helloatxt"
      ((∅ : StrMap).insert "a.txt" "hello")
  blobs := (((∅ : StrMap).insert "bye" "bye\n").insert "x" "x").insert "hello" "hello\n"
  work := (∅ : StrMap).insert "a.txt" "hello\n"

/-- A repository right after `init` and `add a.txt`: HEAD names the branch `main`,
which has no commit yet, and the index holds one file. -/
def demoFresh : Repo where
  repoDir := true
  head := some "ref: refs/heads/main\n"
  refs := ∅
  log := none
  index := .valid ((∅ : StrMap).insert "a.txt" "hello")
  trees := ∅
  blobs := (∅ : StrMap).insert "hello" "hello\n"
  work := (∅ : StrMap).insert "a.txt" "hello\n"

/-- The commit that `Commit` makes of `demoFresh` with the message `first`. -/
def demoFirst : models.Commit :=
  { ID := "helloatxtfirstT", Parent := "", Message := "first", Timestamp := 0,
    TreeHash := "helloatxt", AuthorName := "ann", AuthorEmail := "ann@x" }

/-- The write of the index fails, every other write succeeds. -/
def indexFault : Faults where
  mkdir := fun _ => false
  write := fun path => decide (path = ".kitkat/index")
  append := false

/-- The second record of `demoLog`. -/
def demoSecond : models.Commit :=
  { ID := "aaaa0002", Parent := "base0001", Message := "second", Timestamp := 0,
    TreeHash := "helloatxtxbtxt", AuthorName := "ann", AuthorEmail := "ann@x" }

/-- The tree of `demoSecond`. -/
def demoSecondTree : StrMap :=
  ((∅ : StrMap).insert "b.txt" "x").insert "a.txt" "hello"

/-- The repository `demoRepo` with HEAD on the branch `feat` and its tree checked
out. -/
def demoOnFeat : Repo :=
  { demoRepo with
    head := some "ref: refs/heads/feat\n"
    index := .valid demoSecondTree
    work := ((∅ : StrMap).insert "b.txt" "x").insert "a.txt" "hello\n" }

/-- The commit that `AmendCommit` makes of `demoRepo` with the message `amended`. -/
def demoAmended : models.Commit :=
  { ID := "byeatxtbase0001amendedT", Parent := "base0001", Message := "amended", Timestamp := 0,
    TreeHash := "byeatxt", AuthorName := "bob", AuthorEmail := "bob@x" }

/-- The repository `demoRepo` after `a.txt` was edited and not staged. -/
def demoEdited : Repo :=
  { demoRepo with work := (∅ : StrMap).insert "a.txt" "edited\n" }

/-- The repository `demoRepo` with an ignore file that ignores `debug.log` and
itself, and with the untracked file `debug.log`. -/
def demoIgnoring : Repo :=
  { demoRepo with
    work := (((∅ : StrMap).insert "debug.log" "trace\n").insert ".kitkatignore"
      "# local files\ndebug.log\n.kitkatignore\n").insert "a.txt" "hello\n" }

/-- The repository `demoRepo` next to a file `out.txt` in the directory above the
repository root. -/
def demoOutside : Repo :=
  { demoRepo with
    work := ((∅ : StrMap).insert "../out.txt" "precious\n").insert "a.txt" "hello\n" }

/-- The repository `demoRepo` with a new file `b.txt` in the working tree. -/
def demoUnstaged : Repo :=
  { demoRepo with
    work := ((∅ : StrMap).insert "b.txt" "x").insert "a.txt" "hello\n" }

/-- The write of the branch file of `main` fails, every other write succeeds. -/
def pointerFault : Faults where
  mkdir := fun _ => false
  write := fun path => decide (path = ".kitkat/refs/heads/main")
  append := false

/-- The repository `demoRepo` with a detached HEAD at `base0001` and the new file
`b.txt` staged. -/
def demoDetached : Repo :=
  { demoRepo with
    head := some "base0001"
    index := .valid demoSecondTree
    work := ((∅ : StrMap).insert "b.txt" "x").insert "a.txt" "hello\n" }

/-- The repository `demoRepo` with the untracked file `junk.txt`. -/
def demoUntracked : Repo :=
  { demoRepo with
    work := ((∅ : StrMap).insert "junk.txt" "tmp\n").insert "a.txt" "hello\n" }

/-- The repository `demoRepo` with the tracked file `a.txt` edited, the tracked
file `gone.txt` deleted from disk, and the untracked files `new.txt`, `notes..txt`
and `debug.log`, the last of them ignored. -/
def demoMixed : Repo :=
  { demoRepo with
    index := .valid (((∅ : StrMap).insert "gone.txt" "x").insert "a.txt" "hello")
    work := (((((∅ : StrMap).insert "debug.log" "trace\n").insert ".kitkatignore"
      "debug.log\n").insert "notes..txt" "memo\n").insert "new.txt" "fresh\n").insert
      "a.txt" "edited\n" }

/-- A stand-in for `encoding/json` at the concrete inputs below, on paths and
hashes without quotes, commas and colons: the object `{"p":"h","q":"k"}`. -/
def demoJson : Json where
  marshal := fun m =>
    "\x7b" ++ String.intercalate "," (m.entries.map fun e => "\"" ++ e.1 ++ "\":\"" ++ e.2 ++ "\"")
      ++ "\x7d"
  unmarshal := fun data =>
    match data.data with
    | '{' :: rest =>
      if rest.getLast? ≠ some '}' then none
      else if rest.dropLast = [] then some ∅
      else
        (splitFields ',' rest.dropLast).foldr
          (fun field acc =>
            match acc, splitFields ':' field with
            | some m, [key, value] =>
              if key.head? = some '"' ∧ key.getLast? = some '"' ∧ value.head? = some '"'
                  ∧ value.getLast? = some '"' then
                some (m.insert ⟨key.tail.dropLast⟩ ⟨value.tail.dropLast⟩)
              else none
            | _, _ => none)
          (some ∅)
    | _ => none

/-- The index of the test `TestIndexWriteSanity`. -/
def demoEntries : List IndexEntry :=
  [{ Path := "test_file.txt", Hash := "da39a3ee5e6b4b0d3255bfef95601890afd80709" },
   { Path := "README.md", Hash := "8843d7f92416211de9ebb963ff4ce28125932878" }]

/-! ## Lookup: the scan agrees with the reference definition -/

theorem FindCommit.scan_nil (L : Lib) (hash : String) (found : List models.Commit) :
    FindCommit.scan L hash [] found = FindCommit.finish hash found := rfl

theorem records_cons_none (L : Lib) (line : String) (rest : List String)
    (h : L.unmarshal line = none) : records L (line :: rest) = records L rest := by
  simp [records, h]

theorem records_cons_some (L : Lib) (line : String) (rest : List String) (c : models.Commit)
    (h : L.unmarshal line = some c) : records L (line :: rest) = c :: records L rest := by
  simp [records, h]

theorem FindCommit.scan_eq (L : Lib) (hash : String) (lines : List String) (found : List models.Commit) :
    FindCommit.scan L hash lines found =
      match (records L lines).find? (fun c => decide (c.ID = hash)) with
      | some c => .ok c
      | none => FindCommit.finish hash
          (found ++ (records L lines).filter (fun c => HasPrefix c.ID hash)) := by
  induction lines generalizing found with
  | nil => simp [records, FindCommit.scan_nil]
  | cons line rest ih =>
    unfold FindCommit.scan
    cases hu : L.unmarshal line with
    | none =>
      rw [records_cons_none L line rest hu]
      exact ih found
    | some commit =>
      rw [records_cons_some L line rest commit hu]
      by_cases hid : commit.ID = hash
      · simp [hid]
      · by_cases hp : HasPrefix commit.ID hash = true
        · simp [hid, hp, ih]
        · simp [hid, hp, ih]

theorem FindCommit.finish_eq (hash : String) (found : List models.Commit) :
    FindCommit.finish hash found =
      match found with
      | [] => .error (.notFound hash)
      | [c] => .ok c
      | c :: d :: r => .error (.ambiguous hash (c :: d :: r).length) := by
  cases found with
  | nil => rfl
  | cons c t => cases t <;> rfl

/-- C1: on every commit log, `FindCommit(h)` equals the reference definition applied
to the records of the log: the first record whose ID is exactly `h` if there is
one, otherwise the single record whose ID starts with `h`, a not-found error when
there is none and an ambiguous-hash error when there are several. The result
depends on the lines only through the records they parse to, so malformed lines
never affect it. -/
theorem FindCommit_eq_reference (L : Lib) (lines : List String) (h : String) :
    FindCommit L (some lines) h = FindCommitRef (records L lines) h := by
  show FindCommit.scan L h lines [] = _
  unfold FindCommitRef
  rw [FindCommit.scan_eq]
  cases (records L lines).find? (fun c => decide (c.ID = h)) with
  | some c => rfl
  | none => simp only [List.nil_append, FindCommit.finish_eq]

/-! ## Ancestry: a commit is its own ancestor -/

/-- C4 (as stated, refuted at the empty hash): `IsAncestor("", "")` returns false,
by the guard at the head of the function. -/
theorem IsAncestor_empty_self :
    IsAncestor demoLib (some demoLog) 3 "" "" = some (.ok false) := by
  decide

/-- C4 (amended): for every non-empty hash X, `IsAncestor(X, X)` returns true,
whatever the log holds and with any fuel (the loop is not entered). -/
theorem IsAncestor_self (L : Lib) (log : Option (List String)) (fuel : Nat) (X : String)
    (hX : X ≠ "") : IsAncestor L log fuel X X = some (.ok true) := by
  simp [IsAncestor, hX]

theorem IsAncestor_self_witness :
    ("aaaa0002" : String) ≠ "" ∧
      IsAncestor demoLib (some demoLog) 0 "aaaa0002" "aaaa0002" = some (.ok true) :=
  ⟨by decide, IsAncestor_self demoLib (some demoLog) 0 "aaaa0002" (by decide)⟩

/-! ## The walk along the parent pointers -/

theorem Chain.det {L : Lib} {log : Option (List String)} {h : String} {xs ys : List String}
    {r r' : Option Err} (h1 : Chain L log h xs r) (h2 : Chain L log h ys r') :
    xs = ys ∧ r = r' := by
  induction h1 generalizing ys r' with
  | root =>
    cases h2 with
    | root => exact ⟨rfl, rfl⟩
    | fail _ _ hne _ => exact absurd rfl hne
    | step _ _ _ _ hne _ _ => exact absurd rfl hne
  | fail h e hne hf =>
    cases h2 with
    | root => exact absurd rfl hne
    | fail _ e' _ hf' =>
      rw [hf] at hf'
      cases hf'
      exact ⟨rfl, rfl⟩
    | step _ c _ _ _ hf' _ =>
      rw [hf] at hf'
      cases hf'
  | step h c xs r hne hf _ ih =>
    cases h2 with
    | root => exact absurd rfl hne
    | fail _ e' _ hf' =>
      rw [hf] at hf'
      cases hf'
    | step _ c' ys' _ _ hf' hc' =>
      rw [hf] at hf'
      cases hf'
      obtain ⟨hxs, hr⟩ := ih hc'
      exact ⟨by rw [hxs], hr⟩

theorem Chain.not_mem_empty {L : Lib} {log : Option (List String)} {h : String}
    {xs : List String} {r : Option Err} (hc : Chain L log h xs r) : "" ∉ xs := by
  induction hc with
  | root => simp
  | fail h e hne _ =>
    simp only [List.mem_singleton]
    exact fun hh => hne hh.symm
  | step h c xs r hne _ _ ih =>
    simp only [List.mem_cons, not_or]
    exact ⟨fun hh => hne hh.symm, ih⟩

/-- The part of a walk from one of its members on is the walk from that member. -/
theorem Chain.from_member {L : Lib} {log : Option (List String)} {h : String}
    {xs : List String} {r : Option Err} (hc : Chain L log h xs r) {x : String} (hx : x ∈ xs) :
    ∃ pre suf, xs = pre ++ x :: suf ∧ Chain L log x (x :: suf) r := by
  induction hc with
  | root => simp at hx
  | fail h e hne hf =>
    simp only [List.mem_singleton] at hx
    subst hx
    exact ⟨[], [], rfl, Chain.fail x e hne hf⟩
  | step h c xs r hne hf hc ih =>
    by_cases hxh : x = h
    · subst hxh
      exact ⟨[], xs, rfl, Chain.step x c xs r hne hf hc⟩
    · have hx' : x ∈ xs := by
        rcases List.mem_cons.mp hx with hh | hh
        · exact absurd hh hxh
        · exact hh
      obtain ⟨pre, suf, hxs, hch⟩ := ih hx'
      exact ⟨h :: pre, suf, by rw [hxs]; rfl, hch⟩

theorem FindMergeBase.collect_of_chain {L : Lib} {log : Option (List String)} {h : String}
    {xs : List String} {r : Option Err} (hc : Chain L log h xs r) (fuel : Nat)
    (seen : List String) (hfuel : xs.length ≤ fuel) :
    FindMergeBase.collect L log fuel h seen = some (collectResult xs seen r) := by
  induction hc generalizing fuel seen with
  | root => cases fuel <;> simp [FindMergeBase.collect, collectResult]
  | fail h e hne hf =>
    cases fuel with
    | zero => simp at hfuel
    | succ n => simp [FindMergeBase.collect, hne, hf, collectResult]
  | step h c xs r hne hf _ ih =>
    cases fuel with
    | zero => simp at hfuel
    | succ n =>
      have hn : xs.length ≤ n := by simpa using hfuel
      simp only [FindMergeBase.collect, hne, if_false, hf]
      rw [ih n (h :: seen) hn]
      cases r <;> simp [collectResult]

theorem FindMergeBase.search_of_chain {L : Lib} {log : Option (List String)} {h : String}
    {xs : List String} {r : Option Err} (hc : Chain L log h xs r) (seen : List String)
    (fuel : Nat) (hfuel : xs.length ≤ fuel) :
    FindMergeBase.search L log seen fuel h = some (searchResult xs seen r) := by
  induction hc generalizing fuel with
  | root => cases fuel <;> simp [FindMergeBase.search, searchResult]
  | fail h e hne hf =>
    cases fuel with
    | zero => simp at hfuel
    | succ n =>
      by_cases hm : h ∈ seen
      · simp [FindMergeBase.search, hne, hm, searchResult]
      · simp [FindMergeBase.search, hne, hm, hf, searchResult]
  | step h c xs r hne hf _ ih =>
    cases fuel with
    | zero => simp at hfuel
    | succ n =>
      have hn : xs.length ≤ n := by simpa using hfuel
      by_cases hm : h ∈ seen
      · simp [FindMergeBase.search, hne, hm, searchResult]
      · simp only [FindMergeBase.search, hne, hm, if_false, hf, searchResult, List.find?_cons,
          decide_False]
        exact ih n hn

theorem Chain.drop {L : Lib} {log : Option (List String)} {h : String} {l : List String}
    {r : Option Err} (hc : Chain L log h l r) :
    ∀ (p : List String) (x : String) (t : List String), l = p ++ x :: t →
      Chain L log x (x :: t) r := by
  induction hc with
  | root =>
    intro p x t hl
    simp at hl
  | fail h e hne hf =>
    intro p x t hl
    cases p with
    | nil =>
      simp only [List.nil_append, List.cons.injEq] at hl
      obtain ⟨hh, ht⟩ := hl
      subst hh
      rw [← ht]
      exact Chain.fail h e hne hf
    | cons a p' => simp at hl
  | step h c xs r hne hf hc ih =>
    intro p x t hl
    cases p with
    | nil =>
      simp only [List.nil_append, List.cons.injEq] at hl
      obtain ⟨hh, ht⟩ := hl
      subst hh
      rw [← ht]
      exact Chain.step h c xs r hne hf hc
    | cons a p' =>
      simp only [List.cons_append, List.cons.injEq] at hl
      exact ih p' x t hl.2

theorem searchResult_congr (ys s s' : List String) (r : Option Err)
    (h : ∀ x, x ∈ s ↔ x ∈ s') : searchResult ys s r = searchResult ys s' r := by
  have hp : (fun x => decide (x ∈ s)) = (fun x => decide (x ∈ s')) := by
    funext x
    exact decide_eq_decide.mpr (h x)
  unfold searchResult
  rw [hp]

theorem FindMergeBase_of_chains {L : Lib} {log : Option (List String)} {X Y : String}
    {xs ys : List String} {rx ry : Option Err} (hne : X ≠ Y) (hx : Chain L log X xs rx)
    (hy : Chain L log Y ys ry) (fuel : Nat) (hfx : xs.length ≤ fuel) (hfy : ys.length ≤ fuel) :
    FindMergeBase L log fuel X Y = some (mergeResult xs ys rx ry) := by
  unfold FindMergeBase
  rw [if_neg hne, FindMergeBase.collect_of_chain hx fuel [] hfx]
  cases rx with
  | some e => rfl
  | none =>
    simp only [collectResult, mergeResult]
    rw [FindMergeBase.search_of_chain hy _ fuel hfy]
    congr 1
    exact searchResult_congr ys _ _ ry (by intro x; simp)

/-- A hash on both walks makes them end alike. -/
theorem Chain.common_end {L : Lib} {log : Option (List String)} {X Y : String}
    {xs ys : List String} {rx ry : Option Err} (hx : Chain L log X xs rx)
    (hy : Chain L log Y ys ry) {z : String} (hzx : z ∈ xs) (hzy : z ∈ ys) : rx = ry := by
  obtain ⟨_, _, _, h1⟩ := hx.from_member hzx
  obtain ⟨_, _, _, h2⟩ := hy.from_member hzy
  exact (h1.det h2).2

/-- The first hash of one walk that lies on the other is no later, on the other
walk, than the first hash of the other walk that lies on the one. -/
theorem Chain.first_common_le {L : Lib} {log : Option (List String)} {X Y : String}
    {xs ys : List String} {r : Option Err} (hx : Chain L log X xs r) (hy : Chain L log Y ys r)
    {p t q u : List String} {x y : String} (hxs : xs = p ++ x :: t) (hys : ys = q ++ y :: u)
    (hp : ∀ z ∈ p, z ∉ ys) (hyx : y ∈ xs) :
    (y :: u).length ≤ (x :: t).length := by
  have hcx : Chain L log x (x :: t) r := hx.drop p x t hxs
  have hcy : Chain L log y (y :: u) r := hy.drop q y u hys
  have hyt : y ∈ x :: t := by
    rw [hxs] at hyx
    rcases List.mem_append.mp hyx with h1 | h1
    · exact absurd (by rw [hys]; simp) (hp y h1)
    · exact h1
  obtain ⟨pre, suf, hsplit, hch⟩ := hcx.from_member hyt
  have hsuf : y :: suf = y :: u := (hch.det hcy).1
  rw [hsplit, hsuf]
  simp

theorem mergeResult_symm {L : Lib} {log : Option (List String)} {X Y : String}
    {xs ys : List String} {rx ry : Option Err} (hx : Chain L log X xs rx)
    (hy : Chain L log Y ys ry) :
    sameOutcome (mergeResult xs ys rx ry) (mergeResult ys xs ry rx) := by
  have hno : rx ≠ ry → ∀ z, z ∈ xs → z ∉ ys := fun hr z h1 h2 => hr (hx.common_end hy h1 h2)
  cases hfy : ys.find? (fun y => decide (y ∈ xs)) with
  | none =>
    have hnone : ∀ z, z ∈ xs → z ∉ ys := by
      intro z h1 h2
      have := List.find?_eq_none.mp hfy z h2
      simp [h1] at this
    have hfx : xs.find? (fun x => decide (x ∈ ys)) = none := by
      apply List.find?_eq_none.mpr
      intro z hz
      simp [hnone z hz]
    left
    cases rx <;> cases ry <;> simp [mergeResult, searchResult, hfx, hfy]
  | some y =>
    have hyx : y ∈ xs := by simpa using List.find?_some hfy
    have hyy : y ∈ ys := List.mem_of_find?_eq_some hfy
    have hr : rx = ry := hx.common_end hy hyx hyy
    subst hr
    cases hfx : xs.find? (fun x => decide (x ∈ ys)) with
    | none =>
      have := List.find?_eq_none.mp hfx y hyx
      simp [hyy] at this
    | some x =>
      have hxy : x ∈ ys := by simpa using List.find?_some hfx
      have hxx : x ∈ xs := List.mem_of_find?_eq_some hfx
      cases rx with
      | some e =>
        left
        exact ⟨e, e, by simp [mergeResult], by simp [mergeResult]⟩
      | none =>
        right
        obtain ⟨_, q, u, hys, hq⟩ := List.find?_eq_some.mp hfy
        obtain ⟨_, p, t, hxs, hp⟩ := List.find?_eq_some.mp hfx
        have hp' : ∀ z ∈ p, z ∉ ys := by
          intro z hz
          simpa using hp z hz
        have hq' : ∀ z ∈ q, z ∉ xs := by
          intro z hz
          simpa using hq z hz
        have h1 := Chain.first_common_le hx hy hxs hys hp' hyx
        have h2 := Chain.first_common_le hy hx hys hxs hq' hxy
        have hcx : Chain L log x (x :: t) none := hx.drop p x t hxs
        have hcy : Chain L log y (y :: u) none := hy.drop q y u hys
        have hyt : y ∈ x :: t := by
          rw [hxs] at hyx
          rcases List.mem_append.mp hyx with h3 | h3
          · exact absurd hyy (hp' y h3)
          · exact h3
        obtain ⟨pre, suf, hsplit, hch⟩ := hcx.from_member hyt
        have hsuf : y :: suf = y :: u := (hch.det hcy).1
        rw [hsuf] at hsplit
        have hpre : pre = [] := by
          have hl := congrArg List.length hsplit
          simp only [List.length_append, List.length_cons] at hl h1 h2
          exact List.length_eq_zero.mp (by omega)
        rw [hpre] at hsplit
        have hxy' : x = y := by
          simp only [List.nil_append, List.cons.injEq] at hsplit
          exact hsplit.1
        exact ⟨y, by simp [mergeResult, searchResult, hfy],
          by simp [mergeResult, searchResult, hfx, hxy']⟩

/-! ## Acyclic logs: every walk ends within the length of the log -/

theorem FindCommit.mem_records {L : Lib} {lines : List String} {h : String} {c : models.Commit}
    (hf : FindCommit L (some lines) h = .ok c) : c ∈ records L lines := by
  have hs : FindCommit.scan L h lines [] = .ok c := hf
  rw [FindCommit.scan_eq] at hs
  cases hfind : (records L lines).find? (fun c => decide (c.ID = h)) with
  | some d =>
    rw [hfind] at hs
    simp only [Except.ok.injEq] at hs
    rw [← hs]
    exact List.mem_of_find?_eq_some hfind
  | none =>
    rw [hfind] at hs
    simp only [List.nil_append, FindCommit.finish_eq] at hs
    cases hfl : (records L lines).filter (fun c => HasPrefix c.ID h) with
    | nil => rw [hfl] at hs; simp at hs
    | cons d t =>
      cases t with
      | nil =>
        rw [hfl] at hs
        simp only [Except.ok.injEq] at hs
        have hd : d ∈ (records L lines).filter (fun c => HasPrefix c.ID h) := by
          rw [hfl]; simp
        rw [← hs]
        exact (List.mem_filter.mp hd).1
      | cons d' t' => rw [hfl] at hs; simp at hs

theorem parentOf_mem {L : Lib} {log : Option (List String)} {h p : String}
    (hp : parentOf L log h = some p) :
    p ∈ (records L (log.getD [])).map (fun c => c.Parent) := by
  unfold parentOf at hp
  by_cases hh : h = ""
  · simp [hh] at hp
  · rw [if_neg hh] at hp
    cases log with
    | none => simp [FindCommit] at hp
    | some lines =>
      cases hf : FindCommit L (some lines) h with
      | error e => rw [hf] at hp; simp at hp
      | ok c =>
        rw [hf] at hp
        simp only [Option.some.injEq] at hp
        exact List.mem_map.mpr ⟨c, FindCommit.mem_records hf, hp⟩

theorem iterParent_add (L : Lib) (log : Option (List String)) (a b : Nat) (h : String) :
    iterParent L log (a + b) h = (iterParent L log a h).bind (iterParent L log b) := by
  induction a generalizing h with
  | zero => simp [iterParent]
  | succ n ih =>
    rw [Nat.succ_add]
    simp only [iterParent]
    cases parentOf L log h with
    | none => rfl
    | some p => simpa using ih p

theorem iterParent_prefix {L : Lib} {log : Option (List String)} {a b : Nat} {h z : String}
    (hz : iterParent L log (a + b) h = some z) :
    ∃ y, iterParent L log a h = some y ∧ iterParent L log b y = some z := by
  rw [iterParent_add] at hz
  cases hy : iterParent L log a h with
  | none => rw [hy] at hz; simp at hz
  | some y =>
    rw [hy] at hz
    exact ⟨y, rfl, by simpa using hz⟩

theorem iterParent_succ_mem {L : Lib} {log : Option (List String)} {k : Nat} {h z : String}
    (hz : iterParent L log (k + 1) h = some z) :
    z ∈ (records L (log.getD [])).map (fun c => c.Parent) := by
  obtain ⟨y, _, hy⟩ := iterParent_prefix hz
  simp only [iterParent] at hy
  cases hp : parentOf L log y with
  | none => rw [hp] at hy; simp at hy
  | some p =>
    rw [hp] at hy
    simp only [Option.some_bind, Option.some.injEq] at hy
    rw [← hy]
    exact parentOf_mem hp

theorem chainOf_none {L : Lib} {log : Option (List String)} {fuel : Nat} {h : String}
    (hn : chainOf L log fuel h = none) : ∃ z, iterParent L log fuel h = some z := by
  induction fuel generalizing h with
  | zero => exact ⟨h, rfl⟩
  | succ n ih =>
    unfold chainOf at hn
    by_cases hh : h = ""
    · simp [hh] at hn
    · rw [if_neg hh] at hn
      cases hf : FindCommit L log h with
      | error e => rw [hf] at hn; simp at hn
      | ok c =>
        rw [hf] at hn
        simp only [Option.map_eq_none'] at hn
        obtain ⟨z, hz⟩ := ih hn
        exact ⟨z, by simp [iterParent, parentOf, hh, hf, hz]⟩

theorem chainOf_some {L : Lib} {log : Option (List String)} {fuel : Nat} {h : String}
    {xs : List String} {r : Option Err} (hs : chainOf L log fuel h = some (xs, r)) :
    Chain L log h xs r ∧ xs.length ≤ fuel := by
  induction fuel generalizing h xs r with
  | zero =>
    unfold chainOf at hs
    by_cases hh : h = ""
    · simp only [hh, if_true, Option.some.injEq, Prod.mk.injEq] at hs
      obtain ⟨h1, h2⟩ := hs
      subst h1 h2 hh
      exact ⟨Chain.root, Nat.le_refl _⟩
    · simp [hh] at hs
  | succ n ih =>
    unfold chainOf at hs
    by_cases hh : h = ""
    · simp only [hh, if_true, Option.some.injEq, Prod.mk.injEq] at hs
      obtain ⟨h1, h2⟩ := hs
      subst h1 h2 hh
      exact ⟨Chain.root, Nat.zero_le _⟩
    · rw [if_neg hh] at hs
      cases hf : FindCommit L log h with
      | error e =>
        rw [hf] at hs
        simp only [Option.some.injEq, Prod.mk.injEq] at hs
        obtain ⟨h1, h2⟩ := hs
        subst h1 h2
        exact ⟨Chain.fail h e hh hf, by simp⟩
      | ok c =>
        rw [hf] at hs
        dsimp only at hs
        cases hrec : chainOf L log n c.Parent with
        | none => rw [hrec] at hs; simp at hs
        | some pr =>
          obtain ⟨ys, r'⟩ := pr
          rw [hrec] at hs
          simp only [Option.map_some', Option.some.injEq, Prod.mk.injEq] at hs
          obtain ⟨h1, h2⟩ := hs
          subst h1 h2
          obtain ⟨hch, hlen⟩ := ih hrec
          exact ⟨Chain.step h c ys r' hh hf hch, by simpa using hlen⟩

/-- In an acyclic log two different numbers of steps never lead to one hash. -/
theorem Acyclic.no_repeat {L : Lib} {log : Option (List String)} (hac : Acyclic L log)
    {h y : String} {i j : Nat} (hij : i < j) (hi : iterParent L log (i + 1) h = some y)
    (hjy : iterParent L log (j + 1) h = some y) : False := by
  have hsplit : j + 1 = (i + 1) + ((j - i - 1) + 1) := by omega
  rw [hsplit] at hjy
  obtain ⟨y', hy', hloop⟩ := iterParent_prefix hjy
  rw [hi] at hy'
  simp only [Option.some.injEq] at hy'
  subst hy'
  exact hac y (j - i - 1) hloop

/-- In an acyclic log no walk takes more steps than the log has records. -/
theorem Acyclic.iterParent_none {L : Lib} {log : Option (List String)} (hac : Acyclic L log)
    (h : String) : iterParent L log ((records L (log.getD [])).length + 1) h = none := by
  cases hz : iterParent L log ((records L (log.getD [])).length + 1) h with
  | none => rfl
  | some z =>
    exfalso
    let N := (records L (log.getD [])).length
    let parents := (records L (log.getD [])).map (fun c => c.Parent)
    have hdef : ∀ k, k ≤ N → ∃ y, iterParent L log (k + 1) h = some y := by
      intro k hk
      have hsplit : N + 1 = (k + 1) + (N - k) := by omega
      have hz' : iterParent L log ((k + 1) + (N - k)) h = some z := by
        rw [← hsplit]; exact hz
      obtain ⟨y, hy, _⟩ := iterParent_prefix hz'
      exact ⟨y, hy⟩
    let f : Nat → String := fun k => (iterParent L log (k + 1) h).getD ""
    have hmaps : ∀ k ∈ Finset.range (N + 1), f k ∈ parents.toFinset := by
      intro k hk
      obtain ⟨y, hy⟩ := hdef k (by simpa [Nat.lt_succ_iff] using hk)
      have hfy : f k = y := by simp [f, hy]
      rw [hfy, List.mem_toFinset]
      exact iterParent_succ_mem hy
    have hcard : parents.toFinset.card < (Finset.range (N + 1)).card := by
      have h1 : parents.toFinset.card ≤ parents.length := List.toFinset_card_le parents
      have h2 : parents.length = N := by simp [parents, N]
      simp only [Finset.card_range]
      omega
    obtain ⟨i, hi, j, hj, hne, hfij⟩ :=
      Finset.exists_ne_map_eq_of_card_lt_of_maps_to hcard hmaps
    have hiN : i ≤ N := by simpa [Nat.lt_succ_iff] using hi
    have hjN : j ≤ N := by simpa [Nat.lt_succ_iff] using hj
    obtain ⟨yi, hyi⟩ := hdef i hiN
    obtain ⟨yj, hyj⟩ := hdef j hjN
    have hyy : yi = yj := by
      have h1 : f i = yi := by simp [f, hyi]
      have h2 : f j = yj := by simp [f, hyj]
      rw [← h1, ← h2]; exact hfij
    subst hyy
    rcases Nat.lt_or_gt_of_ne hne with hlt | hgt
    · exact hac.no_repeat hlt hyi hyj
    · exact hac.no_repeat hgt hyj hyi

/-- In an acyclic log the walk from every hash ends, after at most one step more
than the log has lines. -/
theorem Acyclic.exists_chain {L : Lib} {log : Option (List String)} (hac : Acyclic L log)
    (h : String) :
    ∃ xs r, Chain L log h xs r ∧ xs.length ≤ (log.getD []).length + 1 := by
  cases hc : chainOf L log ((records L (log.getD [])).length + 1) h with
  | none =>
    obtain ⟨z, hz⟩ := chainOf_none hc
    rw [hac.iterParent_none h] at hz
    cases hz
  | some pr =>
    obtain ⟨xs, r⟩ := pr
    obtain ⟨hch, hlen⟩ := chainOf_some hc
    have hrec : (records L (log.getD [])).length ≤ (log.getD []).length :=
      List.length_filterMap_le _ _
    exact ⟨xs, r, hch, by omega⟩

theorem iterParent_cycle {L : Lib} {log : Option (List String)} {h : String} {n : Nat}
    (hc : iterParent L log (n + 1) h = some h) (m : Nat) :
    iterParent L log (m * (n + 1)) h = some h := by
  induction m with
  | zero => simp [iterParent]
  | succ k ih =>
    rw [Nat.succ_mul, iterParent_add, ih]
    simpa using hc

/-- A log is acyclic when the walk from the parent of each of its records ends
within `K` steps. -/
theorem acyclic_of_records (L : Lib) (log : Option (List String)) (K : Nat)
    (hK : ∀ c ∈ records L (log.getD []), iterParent L log K c.Parent = none) :
    Acyclic L log := by
  intro h n hc
  have hbig := iterParent_cycle hc (K + 1)
  have hsplit : (K + 1) * (n + 1) = 1 + (K + ((K + 1) * (n + 1) - 1 - K)) := by
    have : K + 1 ≤ (K + 1) * (n + 1) := Nat.le_mul_of_pos_right _ (Nat.succ_pos n)
    omega
  rw [hsplit] at hbig
  obtain ⟨p, hp, hrest⟩ := iterParent_prefix hbig
  obtain ⟨y, hy, _⟩ := iterParent_prefix hrest
  have hmem := iterParent_succ_mem (k := 0) (by simpa using hp)
  obtain ⟨c, hcm, hcp⟩ := List.mem_map.mp hmem
  have := hK c hcm
  rw [hcp, hy] at this
  cases this

theorem demoLog_acyclic : Acyclic demoLib (some demoLog) :=
  acyclic_of_records demoLib (some demoLog) 3 (by decide)

/-! ## The merge base is symmetric -/

/-- C3: on every commit log whose parent chains are acyclic, and for every pair of
hashes X and Y, `FindMergeBase(X, Y)` and `FindMergeBase(Y, X)` both return
(any fuel beyond the length of the log is enough) and either both return an
error or both return the same hash. -/
theorem FindMergeBase_symmetric (L : Lib) (log : Option (List String)) (hac : Acyclic L log)
    (X Y : String) (fuel : Nat) (hfuel : (log.getD []).length + 1 ≤ fuel) :
    ∃ r1 r2, FindMergeBase L log fuel X Y = some r1 ∧ FindMergeBase L log fuel Y X = some r2 ∧
      sameOutcome r1 r2 := by
  by_cases hXY : X = Y
  · subst hXY
    exact ⟨.ok X, .ok X, by simp [FindMergeBase], by simp [FindMergeBase], Or.inr ⟨X, rfl, rfl⟩⟩
  · obtain ⟨xs, rx, hx, hlx⟩ := hac.exists_chain X
    obtain ⟨ys, ry, hy, hly⟩ := hac.exists_chain Y
    exact ⟨mergeResult xs ys rx ry, mergeResult ys xs ry rx,
      FindMergeBase_of_chains hXY hx hy fuel (by omega) (by omega),
      FindMergeBase_of_chains (fun h => hXY h.symm) hy hx fuel (by omega) (by omega),
      mergeResult_symm hx hy⟩

theorem FindMergeBase_symmetric_witness :
    Acyclic demoLib (some demoLog) ∧ ((some demoLog).getD []).length + 1 ≤ 5 ∧
      ∃ r1 r2, FindMergeBase demoLib (some demoLog) 5 "aaaa0002" "bbbb0003" = some r1 ∧
        FindMergeBase demoLib (some demoLog) 5 "bbbb0003" "aaaa0002" = some r2 ∧
        sameOutcome r1 r2 :=
  ⟨demoLog_acyclic, by decide,
    FindMergeBase_symmetric demoLib (some demoLog) demoLog_acyclic "aaaa0002" "bbbb0003" 5
      (by decide)⟩

/-! ## The merge base is the nearest common ancestor -/

theorem ParentChain.chain {L : Lib} {log : Option (List String)} {a : String}
    {xs : List String} (h : ParentChain L log a xs) : Chain L log a xs none := by
  induction h with
  | root a c hne hf _ hp =>
    have hroot : Chain L log c.Parent [] none := by rw [hp]; exact Chain.root
    exact Chain.step a c [] none hne hf hroot
  | step a c xs hne hf _ _ ih => exact Chain.step a c xs none hne hf ih

theorem ParentChain.head_mem {L : Lib} {log : Option (List String)} {a : String}
    {xs : List String} (h : ParentChain L log a xs) : ∃ t, xs = a :: t := by
  cases h with
  | root => exact ⟨[], rfl⟩
  | step _ _ ys => exact ⟨ys, rfl⟩

theorem ParentChain.ne_empty {L : Lib} {log : Option (List String)} {a : String}
    {xs : List String} (h : ParentChain L log a xs) : a ≠ "" := by
  cases h with
  | root _ _ hne => exact hne
  | step _ _ _ hne => exact hne

/-- The loop of `IsAncestor` finds every member of the parent chain it walks. -/
theorem IsAncestor.walk_of_chain {L : Lib} {log : Option (List String)} {a : String}
    {xs : List String} (h : ParentChain L log a xs) (m : String) (hm : m ∈ xs) (fuel : Nat)
    (hfuel : xs.length ≤ fuel) : IsAncestor.walk L log m fuel a = some (.ok true) := by
  induction h generalizing fuel with
  | root a c hne hf hid hp =>
    cases fuel with
    | zero => simp at hfuel
    | succ n =>
      have hma : m = a := by simpa using hm
      simp [IsAncestor.walk, hne, hf, hid, hma]
  | step a c xs hne hf hid _ ih =>
    cases fuel with
    | zero => simp at hfuel
    | succ n =>
      have hn : xs.length ≤ n := by simpa using hfuel
      by_cases hma : a = m
      · subst hma
        simp [IsAncestor.walk, hne, hf, hid]
      · have hm' : m ∈ xs := by
          rcases List.mem_cons.mp hm with h1 | h1
          · exact absurd h1.symm hma
          · exact h1
        simp only [IsAncestor.walk, hne, if_false, hf, hid, hma]
        exact ih hm' n hn

theorem IsAncestor_of_chain {L : Lib} {log : Option (List String)} {a : String}
    {xs : List String} (h : ParentChain L log a xs) (m : String) (hm : m ∈ xs) (fuel : Nat)
    (hfuel : xs.length ≤ fuel) : IsAncestor L log fuel m a = some (.ok true) := by
  have hme : m ≠ "" := fun he => h.chain.not_mem_empty (he ▸ hm)
  unfold IsAncestor
  rw [if_neg (by simp [hme, h.ne_empty])]
  by_cases hma : m = a
  · rw [if_pos hma]
  · rw [if_neg hma]
    exact IsAncestor.walk_of_chain h m hm fuel hfuel

/-- C5: for full commit IDs `a` and `b` whose parent chains in the log are `xs` and
`ys`, `FindMergeBase(a, b)` returns the first member of `ys` (the chain of `b`,
starting at `b`) that lies on `xs` (the chain of `a`, starting at `a`), that hash
is an ancestor of both `a` and `b` according to `IsAncestor`, and when no member of
`ys` lies on `xs` the call fails with the no-common-ancestor error. -/
theorem FindMergeBase_nearest (L : Lib) (log : Option (List String)) (a b : String)
    (xs ys : List String) (ha : ParentChain L log a xs) (hb : ParentChain L log b ys)
    (fuel : Nat) (hfa : xs.length ≤ fuel) (hfb : ys.length ≤ fuel) :
    (∀ m, ys.find? (fun y => decide (y ∈ xs)) = some m →
        FindMergeBase L log fuel a b = some (.ok m) ∧
        IsAncestor L log fuel m a = some (.ok true) ∧
        IsAncestor L log fuel m b = some (.ok true)) ∧
    (ys.find? (fun y => decide (y ∈ xs)) = none →
        FindMergeBase L log fuel a b = some (.error .noCommonAncestor)) := by
  have hres : FindMergeBase L log fuel a b = some (searchResult ys xs none) := by
    by_cases hab : a = b
    · subst hab
      have hxy : xs = ys := (ha.chain.det hb.chain).1
      subst hxy
      obtain ⟨t, ht⟩ := ha.head_mem
      simp [FindMergeBase, searchResult, ht]
    · exact FindMergeBase_of_chains hab ha.chain hb.chain fuel hfa hfb
  constructor
  · intro m hm
    have hmx : m ∈ xs := by simpa using List.find?_some hm
    have hmy : m ∈ ys := List.mem_of_find?_eq_some hm
    exact ⟨by rw [hres]; simp [searchResult, hm], IsAncestor_of_chain ha m hmx fuel hfa,
      IsAncestor_of_chain hb m hmy fuel hfb⟩
  · intro hn
    rw [hres]
    simp [searchResult, hn]

theorem demoLog_chain_a : ParentChain demoLib (some demoLog) "aaaa0002" ["aaaa0002", "base0001"] :=
  ParentChain.step "aaaa0002"
    { ID := "aaaa0002", Parent := "base0001", TreeHash := "helloatxtxbtxt", Message := "second",
      Timestamp := 0, AuthorName := "ann", AuthorEmail := "ann@x" } ["base0001"]
    (by decide) (by decide) rfl
    (ParentChain.root "base0001"
      { ID := "base0001", Parent := "", TreeHash := "helloatxt", Message := "first",
        Timestamp := 0, AuthorName := "ann", AuthorEmail := "ann@x" }
      (by decide) (by decide) rfl rfl)

theorem demoLog_chain_b : ParentChain demoLib (some demoLog) "bbbb0003" ["bbbb0003", "base0001"] :=
  ParentChain.step "bbbb0003"
    { ID := "bbbb0003", Parent := "base0001", TreeHash := "byeatxt", Message := "third",
      Timestamp := 0, AuthorName := "bob", AuthorEmail := "bob@x" } ["base0001"]
    (by decide) (by decide) rfl
    (ParentChain.root "base0001"
      { ID := "base0001", Parent := "", TreeHash := "helloatxt", Message := "first",
        Timestamp := 0, AuthorName := "ann", AuthorEmail := "ann@x" }
      (by decide) (by decide) rfl rfl)

theorem FindMergeBase_nearest_witness :
    FindMergeBase demoLib (some demoLog) 4 "aaaa0002" "bbbb0003" = some (.ok "base0001") ∧
      IsAncestor demoLib (some demoLog) 4 "base0001" "aaaa0002" = some (.ok true) ∧
      IsAncestor demoLib (some demoLog) 4 "base0001" "bbbb0003" = some (.ok true) :=
  (FindMergeBase_nearest demoLib (some demoLog) "aaaa0002" "bbbb0003" ["aaaa0002", "base0001"]
    ["bbbb0003", "base0001"] demoLog_chain_a demoLog_chain_b 4 (by decide) (by decide)).1
    "base0001" (by decide)

/-! ## A commit can be looked up after it was made -/

theorem CreateTree_log (L : Lib) (F : Faults) (s : Repo) : (CreateTree L F s).2.log = s.log := by
  unfold CreateTree
  cases LoadIndex s with
  | error e => rfl
  | ok index =>
    dsimp only
    split_ifs <;> rfl

theorem Commit.movePointer_ok {F : Faults} {commit C : models.Commit} {s : Repo}
    (h : (Commit.movePointer F commit s).1 = .ok C) :
    C = commit ∧ (Commit.movePointer F commit s).2.log = s.log := by
  unfold Commit.movePointer at h ⊢
  cases hr : Commit.refPath F s with
  | error e => rw [hr] at h; simp at h
  | ok refPath =>
    rw [hr] at h
    dsimp only at h ⊢
    by_cases hw : F.write (branchFile refPath) = true
    · simp [hw] at h
    · simp only [hw, Bool.false_eq_true, if_false, Except.ok.injEq] at h ⊢
      exact ⟨h.symm, trivial⟩

/-- A successful `Commit` leaves the log it found with one more line, the line
of the commit it returns. -/
theorem Commit_ok_log {L : Lib} {F : Faults} {userName userEmail : String} {now : Int}
    {message : String} {s : Repo} {C : models.Commit}
    (h : (Commit L F userName userEmail now message s).1 = .ok C) :
    (Commit L F userName userEmail now message s).2.log =
      some (s.log.getD [] ++ [L.marshal C]) := by
  have hlog := CreateTree_log L F s
  unfold Commit at h ⊢
  cases hct : CreateTree L F s with
  | mk r s1 =>
    rw [hct] at hlog h
    simp only at hlog
    cases r with
    | error e => simp at h
    | ok treeHash =>
      dsimp only at h ⊢
      generalize (match GetHeadCommit L s1 with
        | .ok parentCommit => (parentCommit.ID, parentCommit.TreeHash)
        | .error _ => (("", "") : String × String)) = parent at h ⊢
      by_cases hne : treeHash = parent.2
      · simp [hne] at h
      · simp only [hne, if_false] at h ⊢
        generalize Commit.newCommit L parent.1 message now treeHash
          (if userName = "" then "Unknown" else userName)
          (if userEmail = "" then "unknown@example.com" else userEmail) = commit at h ⊢
        unfold AppendCommit at h ⊢
        by_cases hap : F.append = true
        · simp [hap] at h
        · simp only [hap, Bool.false_eq_true, if_false] at h ⊢
          obtain ⟨hC, hl⟩ := Commit.movePointer_ok h
          rw [hl, hC, hlog]

theorem HasPrefix_self (s : String) : HasPrefix s s = true := by
  simp [HasPrefix]

theorem HasPrefix_first7 (s : String) : HasPrefix s (first7 s) = true := by
  simp only [HasPrefix, first7, List.isPrefixOf_iff_prefix]
  exact List.take_prefix 7 s.data

theorem records_append (L : Lib) (l1 l2 : List String) :
    records L (l1 ++ l2) = records L l1 ++ records L l2 := by
  simp [records]

/-- The lookup in a log whose last line is the record `C`, for an argument `h`
that `C.ID` starts with: `C` is returned unless an earlier record decides. -/
theorem FindCommit_last {L : Lib} {old : List String} {C : models.Commit} {h : String}
    (hjson : L.unmarshal (L.marshal C) = some C) (hpre : HasPrefix C.ID h = true)
    (hexact : ∀ r ∈ records L old, r.ID = h → r = C)
    (hother : C.ID ≠ h → ∀ r ∈ records L old, HasPrefix r.ID h = false) :
    FindCommit L (some (old ++ [L.marshal C])) h = .ok C := by
  show FindCommit.scan L h (old ++ [L.marshal C]) [] = .ok C
  rw [FindCommit.scan_eq, records_append, records_cons_some L _ [] C hjson]
  simp only [records, List.filterMap_nil, List.find?_append, List.nil_append]
  cases hfind : List.find? (fun c => decide (c.ID = h)) (List.filterMap L.unmarshal old) with
  | some r =>
    have hr : r.ID = h := by simpa using List.find?_some hfind
    have := hexact r (List.mem_of_find?_eq_some hfind) hr
    simp [this]
  | none =>
    by_cases hCh : C.ID = h
    · simp [hCh]
    · have hnone : List.filter (fun c => HasPrefix c.ID h) (List.filterMap L.unmarshal old) = [] := by
        apply List.filter_eq_nil_iff.mpr
        intro r hr
        simp [hother hCh r hr]
      simp [hCh, hnone, hpre, FindCommit.finish]

/-- C2: after `Commit` succeeded and returned the commit `C`, `FindCommit(C.ID)`
returns `C` with all its fields, and so does `FindCommit` of the first seven
characters of `C.ID` unless a record that was in the log before has an ID with
that prefix. The line of `C` is assumed to survive the JSON round trip, and for
the full ID the ID is assumed to identify the record (the ID leaves out the
author fields and the spec takes collisions to be infeasible). -/
theorem Commit_then_FindCommit (L : Lib) (F : Faults) (userName userEmail : String) (now : Int)
    (message : String) (s : Repo) (C : models.Commit)
    (hC : (Commit L F userName userEmail now message s).1 = .ok C)
    (hjson : L.unmarshal (L.marshal C) = some C) :
    ((∀ r ∈ records L (s.log.getD []), r.ID = C.ID → r = C) →
      FindCommit L (Commit L F userName userEmail now message s).2.log C.ID = .ok C) ∧
    ((∀ r ∈ records L (s.log.getD []), HasPrefix r.ID (first7 C.ID) = false) →
      FindCommit L (Commit L F userName userEmail now message s).2.log (first7 C.ID) = .ok C) := by
  rw [Commit_ok_log hC]
  constructor
  · intro hid
    exact FindCommit_last hjson (HasPrefix_self _) hid (fun hne => absurd rfl hne)
  · intro hno
    refine FindCommit_last hjson (HasPrefix_first7 _) ?_ (fun _ => hno)
    intro r hr hrid
    have := hno r hr
    rw [hrid, HasPrefix_self] at this
    cases this

theorem Commit_then_FindCommit_witness :
    FindCommit demoLib (Commit demoLib noFaults "ann" "ann@x" 0 "first" demoFresh).2.log
        "helloatxtfirstT" = .ok demoFirst ∧
      FindCommit demoLib (Commit demoLib noFaults "ann" "ann@x" 0 "first" demoFresh).2.log
        "helloat" = .ok demoFirst :=
  ⟨(Commit_then_FindCommit demoLib noFaults "ann" "ann@x" 0 "first" demoFresh demoFirst
      (by decide) (by decide)).1 (by decide),
   (Commit_then_FindCommit demoLib noFaults "ann" "ann@x" 0 "first" demoFresh demoFirst
      (by decide) (by decide)).2 (by decide)⟩

/-! ## Reset with a short hash -/

/-- C6 (the code at the failing input): `ResetHard("aaaa000")`, where `aaaa000` is the
unique seven-character prefix of the commit `aaaa0002`, succeeds, and afterwards
`readHead()` returns the prefix `aaaa000` that was passed, not the ID `aaaa0002`
of the commit it resolves to. -/
theorem ResetHard_prefix_readHead :
    (FindCommit demoLib demoRepo.log "aaaa000").map (fun c => c.ID) = .ok "aaaa0002" ∧
      (ResetHard demoLib noFaults "aaaa000" demoRepo).1 = .ok ∧
      readHead (ResetHard demoLib noFaults "aaaa000" demoRepo).2 = .ok "aaaa000" := by
  decide

/-! ## Applying a tree to the working directory and the index -/

theorem removeStale_none (M : StrMap) (keys : List String) (work : StrMap) (p : String)
    (h : work.lookup p = none) : (removeStale M keys work).lookup p = none := by
  induction keys generalizing work with
  | nil => exact h
  | cons k rest ih =>
    unfold removeStale
    split_ifs
    · exact ih work h
    · apply ih
      by_cases hpk : p = k
      · rw [hpk]; exact AList.lookup_erase k work
      · rw [AList.lookup_erase_ne hpk]; exact h

theorem removeStale_stale (M : StrMap) (keys : List String) (work : StrMap) (p : String)
    (hp : p ∈ keys) (hM : p ∉ M) : (removeStale M keys work).lookup p = none := by
  induction keys generalizing work with
  | nil => simp at hp
  | cons k rest ih =>
    unfold removeStale
    by_cases hpk : p = k
    · subst hpk
      rw [if_neg hM]
      exact removeStale_none M rest _ p (AList.lookup_erase p work)
    · have hp' : p ∈ rest := by
        rcases List.mem_cons.mp hp with h1 | h1
        · exact absurd h1 hpk
        · exact h1
      split_ifs
      · exact ih work hp'
      · exact ih _ hp'

/-- The second loop leaves everything but the working tree as it was. -/
theorem writeTree_frame (F : Faults) (entries : List (Sigma fun _ : String => String)) (s : Repo) :
    (writeTree F entries s).2 = { s with work := (writeTree F entries s).2.work } := by
  induction entries generalizing s with
  | nil => rfl
  | cons e rest ih =>
    obtain ⟨path, hash⟩ := e
    unfold writeTree
    cases hr : ReadObject s hash with
    | error e => rfl
    | ok content =>
      dsimp only
      by_cases hm : F.mkdir path = true
      · simp [hm]
      · simp only [hm, Bool.false_eq_true, if_false]
        unfold SafeWrite
        by_cases hw : F.write path = true
        · simp [hw]
        · simp only [hw, Bool.false_eq_true, if_false]
          rw [ih]

/-- The second loop leaves a path alone that is not among its entries. -/
theorem writeTree_other (F : Faults) (entries : List (Sigma fun _ : String => String)) (s : Repo)
    (p : String) (hp : p ∉ entries.keys) :
    (writeTree F entries s).2.work.lookup p = s.work.lookup p := by
  induction entries generalizing s with
  | nil => rfl
  | cons e rest ih =>
    obtain ⟨path, hash⟩ := e
    have hne : p ≠ path := fun h => hp (by simp [List.keys, h])
    have hrest : p ∉ rest.keys := fun h => hp (by simp [List.keys] at h ⊢; exact Or.inr h)
    unfold writeTree
    cases hr : ReadObject s hash with
    | error e => rfl
    | ok content =>
      dsimp only
      by_cases hm : F.mkdir path = true
      · simp [hm]
      · simp only [hm, Bool.false_eq_true, if_false]
        unfold SafeWrite
        by_cases hw : F.write path = true
        · simp [hw]
        · simp only [hw, Bool.false_eq_true, if_false]
          rw [ih _ hrest]
          exact AList.lookup_insert_ne hne

/-- When the second loop runs to its end, every entry is on disk with the bytes
of its blob. -/
theorem writeTree_written (F : Faults) (entries : List (Sigma fun _ : String => String))
    (s : Repo) (hnd : entries.NodupKeys) (hok : (writeTree F entries s).1 = .ok ())
    (p h : String) (hmem : (⟨p, h⟩ : Sigma fun _ : String => String) ∈ entries) :
    ∃ bytes, s.blobs.lookup h = some bytes ∧
      (writeTree F entries s).2.work.lookup p = some bytes := by
  induction entries generalizing s with
  | nil => simp at hmem
  | cons e rest ih =>
    obtain ⟨path, hash⟩ := e
    obtain ⟨hhead, hnd'⟩ := List.nodupKeys_cons.mp hnd
    unfold writeTree at hok ⊢
    cases hr : ReadObject s hash with
    | error e => rw [hr] at hok; simp at hok
    | ok content =>
      rw [hr] at hok
      dsimp only at hok ⊢
      by_cases hm : F.mkdir path = true
      · simp [hm] at hok
      · simp only [hm, Bool.false_eq_true, if_false] at hok ⊢
        unfold SafeWrite at hok ⊢
        by_cases hw : F.write path = true
        · simp [hw] at hok
        · simp only [hw, Bool.false_eq_true, if_false] at hok ⊢
          rcases List.mem_cons.mp hmem with heq | hin
          · have hp : p = path := congrArg Sigma.fst heq
            have hh : h = hash := by cases heq; rfl
            subst hp hh
            refine ⟨content, ?_, ?_⟩
            · unfold ReadObject at hr
              cases hb : s.blobs.lookup h with
              | none => rw [hb] at hr; simp at hr
              | some b =>
                rw [hb] at hr
                simp only [Except.ok.injEq] at hr
                rw [hr]
            · rw [writeTree_other F rest _ p hhead]
              exact AList.lookup_insert s.work
          · exact ih _ hnd' hok hin

/-- What a successful `UpdateWorkspaceAndIndex` leaves, with `M` the tree of the
commit: the index is `M`, each path of `M` holds its blob, each path of the old
index outside `M` is gone, and HEAD, the refs and the log are untouched. -/
theorem UpdateWorkspaceAndIndex_ok_state {L : Lib} {F : Faults} {c : String} {s : Repo}
    {commit : models.Commit} {M : StrMap} (hfind : FindCommit L s.log c = .ok commit)
    (htree : ParseTree s commit.TreeHash = .ok M)
    (hok : (UpdateWorkspaceAndIndex L F c s).1 = .ok ()) :
    (UpdateWorkspaceAndIndex L F c s).2.index = .valid M ∧
    (∀ p h, M.lookup p = some h → ∃ bytes, ReadObject s h = .ok bytes ∧
      (UpdateWorkspaceAndIndex L F c s).2.work.lookup p = some bytes) ∧
    (∀ old, LoadIndex s = .ok old → ∀ p, p ∈ old → p ∉ M →
      (UpdateWorkspaceAndIndex L F c s).2.work.lookup p = none) := by
  unfold UpdateWorkspaceAndIndex at hok ⊢
  rw [hfind] at hok ⊢
  dsimp only at hok ⊢
  rw [htree] at hok ⊢
  dsimp only at hok ⊢
  unfold applyTree at hok ⊢
  generalize hs1 : ({ s with work := removeStale M (currentIndexOf s).keys s.work } : Repo) = s1
    at hok ⊢
  have hblobs : s1.blobs = s.blobs := by rw [← hs1]
  have hframe := writeTree_frame F M.entries s1
  cases hw : writeTree F M.entries s1 with
  | mk r s2 =>
    rw [hw] at hok hframe
    cases r with
    | error e => simp at hok
    | ok u =>
      dsimp only at hok hframe ⊢
      unfold WriteIndex at hok ⊢
      by_cases hwi : F.write IndexPath = true
      · simp [hwi] at hok
      · simp only [hwi, Bool.false_eq_true, if_false]
        have hwok : (writeTree F M.entries s1).1 = .ok () := by rw [hw]
        have hs2 : s2.work = (writeTree F M.entries s1).2.work := by rw [hw]
        refine ⟨trivial, ?_, ?_⟩
        · intro p h hl
          have hmem : (⟨p, h⟩ : Sigma fun _ : String => String) ∈ M.entries :=
            AList.mem_lookup_iff.mp hl
          obtain ⟨bytes, hb, hwk⟩ := writeTree_written F M.entries s1 M.nodupKeys hwok p h hmem
          refine ⟨bytes, ?_, ?_⟩
          · unfold ReadObject
            rw [← hblobs, hb]
          · show s2.work.lookup p = some bytes
            rw [hs2]; exact hwk
        · intro old hold p hp hM
          show s2.work.lookup p = none
          rw [hs2, writeTree_other F M.entries s1 p (fun h => hM (AList.mem_keys.mpr h)), ← hs1]
          have hcur : currentIndexOf s = old := by simp [currentIndexOf, hold]
          rw [hcur]
          exact removeStale_stale M old.keys s.work p (AList.mem_keys.mp hp) hM

/-- C7: after `UpdateWorkspaceAndIndex(c)` succeeded, with `M` the path-to-hash map
of the tree of commit `c`: the index equals `M`, every path of `M` is on disk
with exactly the bytes of its blob, and every path that was in the index before
the call and is not in `M` is absent from disk. -/
theorem UpdateWorkspaceAndIndex_applies_tree (L : Lib) (F : Faults) (c : String) (s : Repo)
    (commit : models.Commit) (M : StrMap) (hfind : FindCommit L s.log c = .ok commit)
    (htree : ParseTree s commit.TreeHash = .ok M)
    (hok : (UpdateWorkspaceAndIndex L F c s).1 = .ok ()) :
    LoadIndex (UpdateWorkspaceAndIndex L F c s).2 = .ok M ∧
    (∀ p h, M.lookup p = some h → ∃ bytes, ReadObject s h = .ok bytes ∧
      (UpdateWorkspaceAndIndex L F c s).2.work.lookup p = some bytes) ∧
    (∀ old, LoadIndex s = .ok old → ∀ p, p ∈ old → p ∉ M →
      (UpdateWorkspaceAndIndex L F c s).2.work.lookup p = none) := by
  obtain ⟨h1, h2, h3⟩ := UpdateWorkspaceAndIndex_ok_state hfind htree hok
  exact ⟨by simp [LoadIndex, h1], h2, h3⟩

theorem UpdateWorkspaceAndIndex_applies_tree_witness :
    LoadIndex (UpdateWorkspaceAndIndex demoLib noFaults "aaaa0002" demoRepo).2 = .ok demoSecondTree ∧
    (∀ p h, demoSecondTree.lookup p = some h → ∃ bytes, ReadObject demoRepo h = .ok bytes ∧
      (UpdateWorkspaceAndIndex demoLib noFaults "aaaa0002" demoRepo).2.work.lookup p = some bytes) ∧
    (∀ old, LoadIndex demoRepo = .ok old → ∀ p, p ∈ old → p ∉ demoSecondTree →
      (UpdateWorkspaceAndIndex demoLib noFaults "aaaa0002" demoRepo).2.work.lookup p = none) :=
  UpdateWorkspaceAndIndex_applies_tree demoLib noFaults "aaaa0002" demoRepo demoSecond
    demoSecondTree (by decide) rfl (by decide)

/-! ## Trimming is idempotent -/

theorem trimRight_idem (l : List Char) : trimRight (trimRight l) = trimRight l := by
  induction l with
  | nil => rfl
  | cons c cs ih =>
    cases h : trimRight cs with
    | nil =>
      by_cases hc : isSpace c = true
      · simp [trimRight, h, hc]
      · simp [trimRight, h, hc]
    | cons d ds =>
      rw [h] at ih
      have h1 : trimRight (c :: cs) = c :: d :: ds := by simp [trimRight, h]
      rw [h1]
      show (match trimRight (d :: ds) with
        | [] => if isSpace c then [] else [c]
        | r => c :: r) = c :: d :: ds
      rw [ih]

theorem trimRight_cons (c : Char) (cs : List Char) (hc : isSpace c = false) :
    ∃ t, trimRight (c :: cs) = c :: t := by
  cases h : trimRight cs with
  | nil => exact ⟨[], by simp [trimRight, h, hc]⟩
  | cons d ds => exact ⟨d :: ds, by simp [trimRight, h]⟩

theorem dropWhile_isSpace_head (cs : List Char) :
    cs.dropWhile isSpace = [] ∨ ∃ c t, cs.dropWhile isSpace = c :: t ∧ isSpace c = false := by
  induction cs with
  | nil => exact Or.inl rfl
  | cons c cs ih =>
    by_cases hc : isSpace c = true
    · simpa [List.dropWhile, hc] using ih
    · right
      exact ⟨c, cs, by simp [List.dropWhile, hc], by simpa using hc⟩

theorem TrimSpace_idem (s : String) : TrimSpace (TrimSpace s) = TrimSpace s := by
  unfold TrimSpace
  congr 1
  show trimRight ((trimRight (s.data.dropWhile isSpace)).dropWhile isSpace) = _
  rcases dropWhile_isSpace_head s.data with h | ⟨c, t, h, hc⟩
  · rw [h]; rfl
  · rw [h]
    obtain ⟨t', ht'⟩ := trimRight_cons c t hc
    have hd : (trimRight (c :: t)).dropWhile isSpace = trimRight (c :: t) := by
      rw [ht']; simp [List.dropWhile, hc]
    rw [hd, trimRight_idem]

/-! ## The pointer and the rollback of a reset -/

theorem applyTree_frame (F : Faults) (M : StrMap) (s : Repo) :
    (applyTree F M s).2.head = s.head ∧ (applyTree F M s).2.refs = s.refs ∧
      (applyTree F M s).2.log = s.log ∧ (applyTree F M s).2.trees = s.trees ∧
      (applyTree F M s).2.blobs = s.blobs ∧ (applyTree F M s).2.repoDir = s.repoDir := by
  unfold applyTree
  generalize hs1 :
    ({ s with work := removeStale M (currentIndexOf s).keys s.work } : Repo) = s1
  have hframe := writeTree_frame F M.entries s1
  cases hw : writeTree F M.entries s1 with
  | mk r s2 =>
    rw [hw] at hframe
    dsimp only at hframe
    have h2 : s2.head = s.head ∧ s2.refs = s.refs ∧ s2.log = s.log ∧ s2.trees = s.trees ∧
        s2.blobs = s.blobs ∧ s2.repoDir = s.repoDir := by
      rw [hframe, ← hs1]
      exact ⟨rfl, rfl, rfl, rfl, rfl, rfl⟩
    cases r with
    | error e => exact h2
    | ok u =>
      dsimp only
      unfold WriteIndex
      split_ifs
      · exact h2
      · exact h2

/-- `UpdateWorkspaceAndIndex` writes the working tree and the index only. -/
theorem UpdateWorkspaceAndIndex_frame (L : Lib) (F : Faults) (c : String) (s : Repo) :
    (UpdateWorkspaceAndIndex L F c s).2.head = s.head ∧
      (UpdateWorkspaceAndIndex L F c s).2.refs = s.refs ∧
      (UpdateWorkspaceAndIndex L F c s).2.log = s.log ∧
      (UpdateWorkspaceAndIndex L F c s).2.trees = s.trees ∧
      (UpdateWorkspaceAndIndex L F c s).2.blobs = s.blobs ∧
      (UpdateWorkspaceAndIndex L F c s).2.repoDir = s.repoDir := by
  unfold UpdateWorkspaceAndIndex
  cases FindCommit L s.log c with
  | error e => exact ⟨rfl, rfl, rfl, rfl, rfl, rfl⟩
  | ok commit =>
    dsimp only
    cases ParseTree s commit.TreeHash with
    | error e => exact ⟨rfl, rfl, rfl, rfl, rfl, rfl⟩
    | ok M => exact applyTree_frame F M s

/-- With HEAD on a branch whose file exists and can be written,
`UpdateBranchPointer` puts the hash into that file. -/
theorem UpdateBranchPointer_attached {F : Faults} {c headData x : String} {s : Repo}
    (hh : s.head = some headData) (ha : HasPrefix (TrimSpace headData) "ref: " = true)
    (hx : s.refs.lookup (TrimPrefix (TrimSpace headData) "ref: ") = some x)
    (hw : F.write (branchFile (TrimPrefix (TrimSpace headData) "ref: ")) = false) :
    UpdateBranchPointer F c s =
      (.ok (), { s with refs := s.refs.insert (TrimPrefix (TrimSpace headData) "ref: ") c }) := by
  unfold UpdateBranchPointer
  rw [hh]
  simp only [ha, if_true, hx, hw, Bool.false_eq_true, if_false]

/-- With a detached HEAD that can be written, `UpdateBranchPointer` puts the hash
into HEAD. -/
theorem UpdateBranchPointer_detached {F : Faults} {c headData : String} {s : Repo}
    (hh : s.head = some headData) (ha : HasPrefix (TrimSpace headData) "ref: " = false)
    (hw : F.write HeadPath = false) :
    UpdateBranchPointer F c s = (.ok (), { s with head := some c }) := by
  unfold UpdateBranchPointer
  rw [hh]
  simp only [ha, hw, Bool.false_eq_true, if_false]

/-- A failed `UpdateBranchPointer` changes nothing. -/
theorem UpdateBranchPointer_error {F : Faults} {c : String} {s : Repo} {e : Err}
    (h : (UpdateBranchPointer F c s).1 = .error e) : (UpdateBranchPointer F c s).2 = s := by
  unfold UpdateBranchPointer at h ⊢
  cases hh : s.head with
  | none => rfl
  | some headData =>
    rw [hh] at h
    dsimp only at h ⊢
    by_cases ha : HasPrefix (TrimSpace headData) "ref: " = true
    · simp only [ha, if_true] at h ⊢
      cases hl : s.refs.lookup (TrimPrefix (TrimSpace headData) "ref: ") with
      | none => rfl
      | some x =>
        rw [hl] at h
        dsimp only at h ⊢
        by_cases hw : F.write (branchFile (TrimPrefix (TrimSpace headData) "ref: ")) = true
        · simp only [hw, if_true]
        · simp [hw] at h
    · simp only [ha, Bool.false_eq_true, if_false] at h ⊢
      by_cases hw : F.write HeadPath = true
      · simp only [hw, if_true]
      · simp [hw] at h

/-- What `readHead` returned when HEAD is on a branch: the trimmed content of the
branch file. -/
theorem readHead_attached_inv {s : Repo} {headData old : String} (hh : s.head = some headData)
    (ha : HasPrefix (TrimSpace headData) "ref: " = true) (hold : readHead s = .ok old) :
    ∃ content, s.refs.lookup (TrimPrefix (TrimSpace headData) "ref: ") = some content ∧
      old = TrimSpace content := by
  unfold readHead at hold
  rw [hh] at hold
  simp only [ha, if_true] at hold
  cases hl : s.refs.lookup (TrimPrefix (TrimSpace headData) "ref: ") with
  | none => rw [hl] at hold; simp at hold
  | some content =>
    rw [hl] at hold
    simp only [Except.ok.injEq] at hold
    exact ⟨content, rfl, hold.symm⟩

/-- What `readHead` returned when HEAD is detached: the trimmed content of HEAD. -/
theorem readHead_detached_inv {s : Repo} {headData old : String} (hh : s.head = some headData)
    (ha : HasPrefix (TrimSpace headData) "ref: " = false) (hold : readHead s = .ok old) :
    old = TrimSpace headData := by
  unfold readHead at hold
  rw [hh] at hold
  simp only [ha, Bool.false_eq_true, if_false, Except.ok.injEq] at hold
  exact hold.symm

/-- After the pointer was moved to `c` and something else changed neither HEAD
nor the refs, moving the pointer back to the hash `old` that `readHead` gave
before makes `readHead` give `old` again. -/
theorem rollback_restores_head {F : Faults} {c old : String} {s s2 : Repo}
    (hold : readHead s = .ok old) (hc : HasPrefix (TrimSpace c) "ref: " = false)
    (hw : F.write (pointerFile s) = false)
    (hhead : s2.head = (UpdateBranchPointer F c s).2.head)
    (hrefs : s2.refs = (UpdateBranchPointer F c s).2.refs) :
    (UpdateBranchPointer F old s2).1 = .ok () ∧
      readHead (UpdateBranchPointer F old s2).2 = .ok old := by
  cases hh : s.head with
  | none => simp [readHead, hh] at hold
  | some headData =>
    by_cases ha : HasPrefix (TrimSpace headData) "ref: " = true
    · obtain ⟨content, hl, hcontent⟩ := readHead_attached_inv hh ha hold
      have hw' : F.write (branchFile (TrimPrefix (TrimSpace headData) "ref: ")) = false := by
        simpa [pointerFile, hh, ha] using hw
      rw [UpdateBranchPointer_attached hh ha hl hw'] at hhead hrefs
      simp only at hhead hrefs
      have hh2 : s2.head = some headData := by rw [hhead, hh]
      have hl2 : s2.refs.lookup (TrimPrefix (TrimSpace headData) "ref: ") = some c := by
        rw [hrefs]; exact AList.lookup_insert s.refs
      rw [UpdateBranchPointer_attached hh2 ha hl2 hw']
      refine ⟨rfl, ?_⟩
      unfold readHead
      simp only [hh2, ha, if_true, AList.lookup_insert]
      rw [hcontent, TrimSpace_idem]
    · have ha' : HasPrefix (TrimSpace headData) "ref: " = false := by simpa using ha
      have hold' := readHead_detached_inv hh ha' hold
      have hw' : F.write HeadPath = false := by
        simpa [pointerFile, hh, ha'] using hw
      rw [UpdateBranchPointer_detached hh ha' hw'] at hhead
      simp only at hhead
      rw [UpdateBranchPointer_detached hhead hc hw']
      refine ⟨rfl, ?_⟩
      unfold readHead
      simp only
      rw [hold', TrimSpace_idem, ha']
      simp

/-- C8: `ResetHard` rolls back on failure. If `readHead()` gave `old` before the
call, the pointer was moved, applying the target tree then failed (whatever the
cause: a blob that cannot be read, a file or the index that cannot be written)
and the pointer file can be written, then `ResetHard` returns an error and
`readHead()` gives `old` again, with HEAD on a branch as well as detached. The
argument is a hash: it does not read as a symbolic reference. -/
theorem ResetHard_rolls_back (L : Lib) (F : Faults) (h : String) (s : Repo) (old : String)
    (hold : readHead s = .ok old) (hhash : HasPrefix (TrimSpace h) "ref: " = false)
    (hmoved : (UpdateBranchPointer F h s).1 = .ok ())
    (hfail : ∃ e, (UpdateWorkspaceAndIndex L F h (UpdateBranchPointer F h s).2).1 = .error e)
    (hrefs : F.write (pointerFile s) = false) :
    (∃ e, (ResetHard L F h s).1 = .error e) ∧ readHead (ResetHard L F h s).2 = .ok old := by
  unfold ResetHard
  cases hf : FindCommit L s.log h with
  | error e => exact ⟨⟨_, rfl⟩, hold⟩
  | ok commit =>
    dsimp only
    rw [hold]
    dsimp only
    obtain ⟨e, he⟩ := hfail
    have hframe := UpdateWorkspaceAndIndex_frame L F h (UpdateBranchPointer F h s).2
    cases hubp : UpdateBranchPointer F h s with
    | mk r s1 =>
      rw [hubp] at hmoved he hframe
      dsimp only at hmoved he hframe
      subst hmoved
      dsimp only
      cases huwi : UpdateWorkspaceAndIndex L F h s1 with
      | mk r2 s2 =>
        rw [huwi] at he hframe
        dsimp only at he hframe
        subst he
        dsimp only
        have hs1h : s2.head = (UpdateBranchPointer F h s).2.head := by rw [hubp]; exact hframe.1
        have hs1r : s2.refs = (UpdateBranchPointer F h s).2.refs := by rw [hubp]; exact hframe.2.1
        exact ⟨⟨_, rfl⟩, (rollback_restores_head hold hhash hrefs hs1h hs1r).2⟩

theorem ResetHard_rolls_back_witness :
    (∃ e, (ResetHard demoLib indexFault "aaaa0002" demoRepo).1 = .error e) ∧
      readHead (ResetHard demoLib indexFault "aaaa0002" demoRepo).2 = .ok "base0001" :=
  ResetHard_rolls_back demoLib indexFault "aaaa0002" demoRepo "base0001" (by decide) (by decide)
    (by decide) ⟨.os "write .kitkat/index", by decide⟩ (by decide)

/-! ## Merge: refusal when the branches have diverged -/

/-- C10: when the merge base of the HEAD commit and the commit of the other branch
is neither of the two, or `FindMergeBase` returns an error (no common ancestor
among them), `Merge` returns an error and the repository (HEAD, every branch
pointer, the index, the working tree) is exactly as before the call. -/
theorem Merge_refuses_diverged (L : Lib) (F : Faults) (fuel : Nat) (other : String) (s : Repo)
    (cur featBytes : String) (r : Except Err String) (hcur : readHead s = .ok cur)
    (hfeat : s.refs.lookup (branchKey other) = some featBytes)
    (hbase : FindMergeBase L s.log fuel cur (TrimSpace featBytes) = some r)
    (hdiv : ∀ m, r = .ok m → m ≠ cur ∧ m ≠ TrimSpace featBytes) :
    ∃ e, Merge L F fuel other s = some (.error e, s) := by
  unfold Merge
  by_cases hrepo : s.repoDir = true
  · simp only [hrepo, Bool.not_true, Bool.false_eq_true, if_false]
    cases hd : IsWorkDirDirty L s with
    | error e => exact ⟨_, rfl⟩
    | ok dirty =>
      cases dirty with
      | true => exact ⟨_, rfl⟩
      | false =>
        dsimp only
        rw [hfeat]
        dsimp only
        rw [hcur]
        dsimp only
        rw [hbase]
        cases r with
        | error e => exact ⟨_, rfl⟩
        | ok m =>
          obtain ⟨h1, h2⟩ := hdiv m rfl
          dsimp only
          rw [if_neg h1, if_neg h2]
          exact ⟨_, rfl⟩
  · have hrepo' : s.repoDir = false := by simpa using hrepo
    simp only [hrepo', Bool.not_false, if_true]
    exact ⟨_, rfl⟩

theorem Merge_refuses_diverged_witness :
    ∃ e, Merge demoLib noFaults 5 "fix" demoOnFeat = some (.error e, demoOnFeat) :=
  Merge_refuses_diverged demoLib noFaults 5 "fix" demoOnFeat "aaaa0002" "bbbb0003\n"
    (.ok "base0001") (by decide) (by decide) (by decide)
    (fun m hm => by cases hm; exact ⟨by decide, by decide⟩)

/-! ## Merge: fast-forward -/

/-- A successful `UpdateWorkspaceAndIndex` found the commit and its tree. -/
theorem UpdateWorkspaceAndIndex_ok_exists {L : Lib} {F : Faults} {c : String} {s : Repo}
    (hok : (UpdateWorkspaceAndIndex L F c s).1 = .ok ()) :
    ∃ commit M, FindCommit L s.log c = .ok commit ∧ ParseTree s commit.TreeHash = .ok M := by
  unfold UpdateWorkspaceAndIndex at hok
  cases hf : FindCommit L s.log c with
  | error e => rw [hf] at hok; simp at hok
  | ok commit =>
    rw [hf] at hok
    dsimp only at hok
    cases ht : ParseTree s commit.TreeHash with
    | error e => rw [ht] at hok; simp at hok
    | ok M => exact ⟨commit, M, rfl, ht⟩

/-- A successful `UpdateBranchPointer` could write the pointer file. -/
theorem UpdateBranchPointer_ok_write {F : Faults} {c : String} {s : Repo}
    (h : (UpdateBranchPointer F c s).1 = .ok ()) : F.write (pointerFile s) = false := by
  unfold UpdateBranchPointer at h
  unfold pointerFile
  cases hh : s.head with
  | none => rw [hh] at h; simp at h
  | some headData =>
    rw [hh] at h
    dsimp only at h ⊢
    by_cases ha : HasPrefix (TrimSpace headData) "ref: " = true
    · simp only [ha, if_true] at h ⊢
      cases hl : s.refs.lookup (TrimPrefix (TrimSpace headData) "ref: ") with
      | none => rw [hl] at h; simp at h
      | some x =>
        rw [hl] at h
        dsimp only at h
        by_cases hw : F.write (branchFile (TrimPrefix (TrimSpace headData) "ref: ")) = true
        · simp [hw] at h
        · simpa using hw
    · simp only [ha, Bool.false_eq_true, if_false] at h ⊢
      by_cases hw : F.write HeadPath = true
      · simp [hw] at h
      · simpa using hw

/-- C9: fast-forward. With HEAD on a branch, `cur` the hash `readHead()` gives,
`featBytes` the content of the file of the other branch, and
`FindMergeBase(cur, other)` equal to `cur`: when `Merge(other)` succeeds (which
it does only on a clean working tree), it ends in a state where `readHead()`
gives the hash of the other branch, the index is the tree of that commit, the
pointer of the other branch is the same hash as before and HEAD is the same
symbolic reference as before. -/
theorem Merge_fast_forward (L : Lib) (F : Faults) (fuel : Nat) (other : String) (s : Repo)
    (headData cur featBytes : String) (hhead : s.head = some headData)
    (hatt : HasPrefix (TrimSpace headData) "ref: " = true) (hcur : readHead s = .ok cur)
    (hfeat : s.refs.lookup (branchKey other) = some featBytes)
    (hbase : FindMergeBase L s.log fuel cur (TrimSpace featBytes) = some (.ok cur))
    (hok : (Merge L F fuel other s).map (fun r => r.1) = some .ok) :
    ∃ s', Merge L F fuel other s = some (.ok, s') ∧
      IsWorkDirDirty L s = .ok false ∧
      readHead s' = .ok (TrimSpace featBytes) ∧
      (∃ commit M, FindCommit L s.log (TrimSpace featBytes) = .ok commit ∧
        ParseTree s commit.TreeHash = .ok M ∧ LoadIndex s' = .ok M) ∧
      (s'.refs.lookup (branchKey other)).map TrimSpace = some (TrimSpace featBytes) ∧
      s'.head = s.head := by
  unfold Merge at hok ⊢
  by_cases hrepo : s.repoDir = true
  swap
  · have hrepo' : s.repoDir = false := by simpa using hrepo
    simp [hrepo'] at hok
  simp only [hrepo, Bool.not_true, Bool.false_eq_true, if_false] at hok ⊢
  cases hd : IsWorkDirDirty L s with
  | error e => rw [hd] at hok; simp at hok
  | ok dirty =>
    rw [hd] at hok
    cases dirty with
    | true => simp at hok
    | false =>
      dsimp only at hok ⊢
      rw [hfeat] at hok ⊢
      dsimp only at hok ⊢
      rw [hcur] at hok ⊢
      dsimp only at hok ⊢
      rw [hbase] at hok ⊢
      dsimp only at hok ⊢
      simp only [if_true] at hok ⊢
      by_cases hlen : len cur < 7 ∨ len (TrimSpace featBytes) < 7
      · simp [hlen] at hok
      · simp only [hlen, if_false] at hok ⊢
        obtain ⟨content, hl, _⟩ := readHead_attached_inv hhead hatt hcur
        cases hubp : UpdateBranchPointer F (TrimSpace featBytes) s with
        | mk r1 s1 =>
          rw [hubp] at hok
          cases r1 with
          | error e => simp at hok
          | ok u1 =>
            dsimp only at hok ⊢
            have hw := UpdateBranchPointer_ok_write (c := TrimSpace featBytes) (s := s) (F := F)
              (by rw [hubp])
            have hw' : F.write (branchFile (TrimPrefix (TrimSpace headData) "ref: ")) = false := by
              simpa [pointerFile, hhead, hatt] using hw
            have hs1 := UpdateBranchPointer_attached (c := TrimSpace featBytes) hhead hatt hl hw'
            rw [hubp] at hs1
            have hs1' : s1 = { s with refs := (s.refs.insert
                (TrimPrefix (TrimSpace headData) "ref: ") (TrimSpace featBytes)) } :=
              (Prod.mk.inj hs1).2
            have hframe := UpdateWorkspaceAndIndex_frame L F (TrimSpace featBytes) s1
            cases huwi : UpdateWorkspaceAndIndex L F (TrimSpace featBytes) s1 with
            | mk r2 s2 =>
              rw [huwi] at hok hframe
              cases r2 with
              | error e =>
                dsimp only at hok
                cases hrb : UpdateBranchPointer F cur s2 with
                | mk r3 s3 =>
                  rw [hrb] at hok
                  cases r3 <;> simp at hok
              | ok u2 =>
                dsimp only at hframe ⊢
                have huok : (UpdateWorkspaceAndIndex L F (TrimSpace featBytes) s1).1 = .ok () := by
                  rw [huwi]
                obtain ⟨commit, M, hfc, hpt⟩ := UpdateWorkspaceAndIndex_ok_exists huok
                have hst := (UpdateWorkspaceAndIndex_ok_state hfc hpt huok).1
                rw [huwi] at hst
                dsimp only at hst
                have hlog1 : s1.log = s.log := by rw [hs1']
                have htrees1 : ParseTree s1 commit.TreeHash = ParseTree s commit.TreeHash := by
                  rw [hs1']; rfl
                have h2head : s2.head = some headData := by rw [hframe.1, hs1']; exact hhead
                have h2refs : s2.refs = s.refs.insert (TrimPrefix (TrimSpace headData) "ref: ")
                    (TrimSpace featBytes) := by rw [hframe.2.1, hs1']
                refine ⟨s2, rfl, trivial, ?_, ⟨commit, M, ?_, ?_, ?_⟩, ?_, ?_⟩
                · unfold readHead
                  simp only [h2head, hatt, if_true, h2refs, AList.lookup_insert, TrimSpace_idem]
                · rw [← hlog1]; exact hfc
                · rw [← htrees1]; exact hpt
                · simp [LoadIndex, hst]
                · rw [h2refs]
                  by_cases hkey : branchKey other = TrimPrefix (TrimSpace headData) "ref: "
                  · rw [hkey, AList.lookup_insert]
                    simp [TrimSpace_idem]
                  · rw [AList.lookup_insert_ne hkey, hfeat]
                    rfl
                · rw [h2head, hhead]

theorem Merge_fast_forward_witness :
    ∃ s', Merge demoLib noFaults 5 "feat" demoRepo = some (.ok, s') ∧
      IsWorkDirDirty demoLib demoRepo = .ok false ∧
      readHead s' = .ok (TrimSpace "aaaa0002\n") ∧
      (∃ commit M, FindCommit demoLib demoRepo.log (TrimSpace "aaaa0002\n") = .ok commit ∧
        ParseTree demoRepo commit.TreeHash = .ok M ∧ LoadIndex s' = .ok M) ∧
      (s'.refs.lookup (branchKey "feat")).map TrimSpace = some (TrimSpace "aaaa0002\n") ∧
      s'.head = demoRepo.head :=
  Merge_fast_forward demoLib noFaults 5 "feat" demoRepo "ref: refs/heads/main\n" "base0001"
    "aaaa0002\n" rfl (by decide) (by decide) (by decide) (by decide) (by decide)

/-! ## Commit: nothing to commit, and the successful commit -/

/-- `CreateTree` writes the object store only. -/
theorem CreateTree_frame (L : Lib) (F : Faults) (s : Repo) :
    (CreateTree L F s).2 = { s with trees := (CreateTree L F s).2.trees } := by
  unfold CreateTree
  cases LoadIndex s with
  | error e => rfl
  | ok index =>
    dsimp only
    split_ifs <;> rfl

theorem GetHeadCommit_congr (L : Lib) {s t : Repo} (hh : t.head = s.head) (hr : t.refs = s.refs)
    (hl : t.log = s.log) : GetHeadCommit L t = GetHeadCommit L s := by
  unfold GetHeadCommit readHead
  rw [hh, hr, hl]

theorem CreateTree_GetHeadCommit (L : Lib) (F : Faults) (s : Repo) :
    GetHeadCommit L (CreateTree L F s).2 = GetHeadCommit L s := by
  apply GetHeadCommit_congr <;> rw [CreateTree_frame]

/-- The hash `CreateTree` returns is the digest of the serialised index. -/
theorem CreateTree_ok {L : Lib} {F : Faults} {s : Repo} {treeHash : String}
    (h : (CreateTree L F s).1 = .ok treeHash) :
    ∃ index, LoadIndex s = .ok index ∧ treeHash = L.sha1 (serializeTree index) := by
  unfold CreateTree at h
  cases hl : LoadIndex s with
  | error e => rw [hl] at h; simp at h
  | ok index =>
    rw [hl] at h
    dsimp only at h
    refine ⟨index, rfl, ?_⟩
    by_cases hm : L.sha1 (serializeTree index) ∈ s.trees
    · simp only [hm, if_true, Except.ok.injEq] at h
      exact h.symm
    · by_cases hw : F.write (".kitkat/objects/" ++ L.sha1 (serializeTree index)) = true
      · simp [hm, hw] at h
      · simp only [hm, hw, if_false, Bool.false_eq_true, Except.ok.injEq] at h
        exact h.symm

/-- C11: nothing to commit. If the tree built from the current index has the hash
`treeHash` and HEAD resolves to a commit with that `TreeHash`, `Commit` returns
the error `nothing to commit, working tree clean`, and the commit log, every
branch pointer and HEAD are as before the call. -/
theorem Commit_nothing_to_commit (L : Lib) (F : Faults) (userName userEmail : String)
    (now : Int) (message : String) (s : Repo) (treeHash : String) (c : models.Commit)
    (htree : (CreateTree L F s).1 = .ok treeHash) (hhead : GetHeadCommit L s = .ok c)
    (heq : c.TreeHash = treeHash) :
    (Commit L F userName userEmail now message s).1 =
        .error (.msg "nothing to commit, working tree clean") ∧
      (Commit L F userName userEmail now message s).2.log = s.log ∧
      (Commit L F userName userEmail now message s).2.refs = s.refs ∧
      (Commit L F userName userEmail now message s).2.head = s.head := by
  have hframe := CreateTree_frame L F s
  have hget := CreateTree_GetHeadCommit L F s
  unfold Commit
  cases hct : CreateTree L F s with
  | mk r s1 =>
    rw [hct] at htree hframe hget
    dsimp only at htree hframe hget
    subst htree
    dsimp only
    rw [hget, hhead]
    dsimp only
    rw [if_pos heq.symm]
    refine ⟨rfl, ?_, ?_, ?_⟩ <;> (dsimp only; rw [hframe])

theorem Commit_nothing_to_commit_witness :
    (Commit demoLib noFaults "ann" "ann@x" 7 "again" demoRepo).1 =
        .error (.msg "nothing to commit, working tree clean") ∧
      (Commit demoLib noFaults "ann" "ann@x" 7 "again" demoRepo).2.log = demoRepo.log ∧
      (Commit demoLib noFaults "ann" "ann@x" 7 "again" demoRepo).2.refs = demoRepo.refs ∧
      (Commit demoLib noFaults "ann" "ann@x" 7 "again" demoRepo).2.head = demoRepo.head :=
  Commit_nothing_to_commit demoLib noFaults "ann" "ann@x" 7 "again" demoRepo "helloatxt"
    { ID := "base0001", Parent := "", TreeHash := "helloatxt", Message := "first",
      Timestamp := 0, AuthorName := "ann", AuthorEmail := "ann@x" }
    (by decide) (by decide) rfl

theorem Commit.refPath_ok {F : Faults} {s : Repo} {refPath : String}
    (h : Commit.refPath F s = .ok refPath) :
    ∃ headData, s.head = some headData ∧ HasPrefix (TrimSpace headData) "ref: " = true ∧
      refPath = TrimPrefix (TrimSpace headData) "ref: " := by
  unfold Commit.refPath getCurrentBranchRefPath at h
  cases hh : s.head with
  | none => rw [hh] at h; simp at h
  | some headData =>
    rw [hh] at h
    dsimp only at h
    by_cases ha : HasPrefix (TrimSpace headData) "ref: " = true
    · simp only [ha, Bool.not_true, Bool.false_eq_true, if_false, Except.ok.injEq] at h
      exact ⟨headData, rfl, ha, h.symm⟩
    · simp [ha] at h

theorem Commit.movePointer_ok_state {F : Faults} {commit C : models.Commit} {s : Repo}
    (h : (Commit.movePointer F commit s).1 = .ok C) :
    ∃ headData, s.head = some headData ∧ HasPrefix (TrimSpace headData) "ref: " = true ∧
      (Commit.movePointer F commit s).2.head = s.head ∧
      (Commit.movePointer F commit s).2.refs =
        s.refs.insert (TrimPrefix (TrimSpace headData) "ref: ") commit.ID := by
  unfold Commit.movePointer at h ⊢
  cases hr : Commit.refPath F s with
  | error e => rw [hr] at h; simp at h
  | ok refPath =>
    rw [hr] at h
    dsimp only at h ⊢
    obtain ⟨headData, hh, ha, hrp⟩ := Commit.refPath_ok hr
    by_cases hw : F.write (branchFile refPath) = true
    · simp [hw] at h
    · simp only [hw, Bool.false_eq_true, if_false]
      exact ⟨headData, hh, ha, trivial, by rw [hrp]⟩

/-- What a successful `Commit` did: it built the tree, made the record from the
tree, the parent and the message, and wrote the ID to the branch HEAD names. -/
theorem Commit_ok_inv {L : Lib} {F : Faults} {userName userEmail : String} {now : Int}
    {message : String} {s : Repo} {C : models.Commit}
    (h : (Commit L F userName userEmail now message s).1 = .ok C) :
    ∃ treeHash headData,
      (CreateTree L F s).1 = .ok treeHash ∧
      C = Commit.newCommit L (headParent L s) message now treeHash
        (if userName = "" then "Unknown" else userName)
        (if userEmail = "" then "unknown@example.com" else userEmail) ∧
      s.head = some headData ∧ HasPrefix (TrimSpace headData) "ref: " = true ∧
      (Commit L F userName userEmail now message s).2.head = s.head ∧
      (Commit L F userName userEmail now message s).2.refs =
        s.refs.insert (TrimPrefix (TrimSpace headData) "ref: ") C.ID := by
  have hframe := CreateTree_frame L F s
  have hget := CreateTree_GetHeadCommit L F s
  unfold Commit at h ⊢
  cases hct : CreateTree L F s with
  | mk r s1 =>
    rw [hct] at hframe hget h
    dsimp only at hframe hget
    cases r with
    | error e => simp at h
    | ok treeHash =>
      dsimp only at h ⊢
      have hpar : (match GetHeadCommit L s1 with
          | .ok parentCommit => (parentCommit.ID, parentCommit.TreeHash)
          | .error _ => (("", "") : String × String)).1 = headParent L s := by
        rw [hget]
        unfold headParent
        cases GetHeadCommit L s <;> rfl
      generalize (match GetHeadCommit L s1 with
        | .ok parentCommit => (parentCommit.ID, parentCommit.TreeHash)
        | .error _ => (("", "") : String × String)) = parent at h hpar ⊢
      by_cases hne : treeHash = parent.2
      · simp [hne] at h
      · simp only [hne, if_false] at h ⊢
        rw [hpar] at h ⊢
        generalize hcm : Commit.newCommit L (headParent L s) message now treeHash
          (if userName = "" then "Unknown" else userName)
          (if userEmail = "" then "unknown@example.com" else userEmail) = commit at h ⊢
        unfold AppendCommit at h ⊢
        by_cases hap : F.append = true
        · simp [hap] at h
        · simp only [hap, Bool.false_eq_true, if_false] at h ⊢
          obtain ⟨hC, _⟩ := Commit.movePointer_ok h
          obtain ⟨headData, hh, ha, h2h, h2r⟩ := Commit.movePointer_ok_state h
          have hs1h : s1.head = s.head := by rw [hframe]
          have hs1r : s1.refs = s.refs := by rw [hframe]
          refine ⟨treeHash, headData, rfl, hC.trans hcm.symm, ?_, ha, ?_, ?_⟩
          · rw [← hs1h]; exact hh
          · rw [h2h]; exact hs1h
          · rw [h2r, hC]
            show AList.insert _ _ s1.refs = _
            rw [hs1r]

theorem hashCommit_newCommit (L : Lib) (parentID message : String) (now : Int)
    (treeHash authorName authorEmail : String) :
    (Commit.newCommit L parentID message now treeHash authorName authorEmail).ID =
      hashCommit L (Commit.newCommit L parentID message now treeHash authorName authorEmail) :=
  rfl

/-- C12: the successful commit. When `Commit(m)` succeeds (HEAD is then attached)
and returns `C`: `C.Message` is `m`, `C.TreeHash` is the hash of the tree built
from the index, `C.Parent` is the ID of the commit HEAD resolved to before the
call (empty when it resolved to none), `C.ID` is `hashCommit(C)`, the log is the
log before with the line of `C` appended, so `C` is its last record and the
earlier records are unchanged, and `readHead()` returns `C.ID`. The line of `C`
is assumed to survive the JSON round trip and the ID, a hex digest, to have no
white space around it. -/
theorem Commit_success (L : Lib) (F : Faults) (userName userEmail : String) (now : Int)
    (message : String) (s : Repo) (C : models.Commit)
    (hok : (Commit L F userName userEmail now message s).1 = .ok C)
    (hjson : L.unmarshal (L.marshal C) = some C) (hhex : TrimSpace C.ID = C.ID) :
    (∃ headData, s.head = some headData ∧ HasPrefix (TrimSpace headData) "ref: " = true) ∧
      C.Message = message ∧
      (∃ index, LoadIndex s = .ok index ∧ C.TreeHash = L.sha1 (serializeTree index)) ∧
      C.Parent = headParent L s ∧
      C.ID = hashCommit L C ∧
      (Commit L F userName userEmail now message s).2.log =
        some (s.log.getD [] ++ [L.marshal C]) ∧
      records L ((Commit L F userName userEmail now message s).2.log.getD []) =
        records L (s.log.getD []) ++ [C] ∧
      readHead (Commit L F userName userEmail now message s).2 = .ok C.ID := by
  obtain ⟨treeHash, headData, hct, hC, hh, ha, hhead, hrefs⟩ := Commit_ok_inv hok
  obtain ⟨index, hli, hth⟩ := CreateTree_ok hct
  have hlog := Commit_ok_log hok
  refine ⟨⟨headData, hh, ha⟩, ?_, ⟨index, hli, ?_⟩, ?_, ?_, hlog, ?_, ?_⟩
  · rw [hC]; rfl
  · rw [hC, ← hth]; rfl
  · rw [hC]; rfl
  · rw [hC]; exact hashCommit_newCommit L _ _ _ _ _ _
  · rw [hlog]
    simp only [Option.getD_some]
    rw [records_append, records_cons_some L _ [] C hjson]
    simp [records]
  · unfold readHead
    rw [hhead, hh]
    simp only [ha, if_true, hrefs, AList.lookup_insert, hhex]

theorem Commit_success_witness :
    (∃ headData, demoFresh.head = some headData ∧
        HasPrefix (TrimSpace headData) "ref: " = true) ∧
      demoFirst.Message = "first" ∧
      (∃ index, LoadIndex demoFresh = .ok index ∧
        demoFirst.TreeHash = demoLib.sha1 (serializeTree index)) ∧
      demoFirst.Parent = headParent demoLib demoFresh ∧
      demoFirst.ID = hashCommit demoLib demoFirst ∧
      (Commit demoLib noFaults "ann" "ann@x" 0 "first" demoFresh).2.log =
        some (demoFresh.log.getD [] ++ [demoLib.marshal demoFirst]) ∧
      records demoLib ((Commit demoLib noFaults "ann" "ann@x" 0 "first" demoFresh).2.log.getD []) =
        records demoLib (demoFresh.log.getD []) ++ [demoFirst] ∧
      readHead (Commit demoLib noFaults "ann" "ann@x" 0 "first" demoFresh).2 = .ok demoFirst.ID :=
  Commit_success demoLib noFaults "ann" "ann@x" 0 "first" demoFresh demoFirst (by decide)
    (by decide) (by decide)

/-! ## Amending the last commit -/

theorem getCurrentBranchRefPath_ok {s : Repo} {refPath : String}
    (h : getCurrentBranchRefPath s = .ok refPath) :
    ∃ headData, s.head = some headData ∧ HasPrefix (TrimSpace headData) "ref: " = true ∧
      refPath = TrimPrefix (TrimSpace headData) "ref: " := by
  unfold getCurrentBranchRefPath at h
  cases hh : s.head with
  | none => rw [hh] at h; simp at h
  | some headData =>
    rw [hh] at h
    dsimp only at h
    by_cases ha : HasPrefix (TrimSpace headData) "ref: " = true
    · simp only [ha, Bool.not_true, Bool.false_eq_true, if_false, Except.ok.injEq] at h
      exact ⟨headData, rfl, ha, h.symm⟩
    · simp [ha] at h

theorem GetLastCommit_mem {L : Lib} {s : Repo} {last : models.Commit}
    (h : GetLastCommit L s = .ok last) : last ∈ records L (s.log.getD []) := by
  unfold GetLastCommit ReadCommits at h
  cases hl : s.log with
  | none => rw [hl] at h; simp at h
  | some lines =>
    rw [hl] at h
    dsimp only at h
    cases hg : (records L lines).getLast? with
    | none => rw [hg] at h; simp at h
    | some c =>
      rw [hg] at h
      simp only [Except.ok.injEq] at h
      subst h
      simpa using List.mem_of_getLast?_eq_some hg

/-- C13: when `AmendCommit(m)` succeeds and returns `C`, there is a last record
`last` of the log, `C` has the timestamp, tree, parent and author of `last`, the
message `m` and the ID `hashCommit(C)`; the log afterwards is the log before
with the one line of `C` appended, so `last` is still a record and (given the
JSON round trip of `C`) the records are the old ones followed by `C`; and the
file of the branch HEAD names holds `C.ID`. -/
theorem AmendCommit_appends (L : Lib) (F : Faults) (m : String) (s : Repo) (C : models.Commit)
    (hok : (AmendCommit L F m s).1 = .ok C) :
    ∃ last headData, GetLastCommit L s = .ok last ∧
      C.Timestamp = last.Timestamp ∧ C.TreeHash = last.TreeHash ∧ C.Parent = last.Parent ∧
      C.AuthorName = last.AuthorName ∧ C.AuthorEmail = last.AuthorEmail ∧
      C.Message = m ∧ C.ID = hashCommit L C ∧
      (AmendCommit L F m s).2.log = some (s.log.getD [] ++ [L.marshal C]) ∧
      last ∈ records L ((AmendCommit L F m s).2.log.getD []) ∧
      (L.unmarshal (L.marshal C) = some C →
        records L ((AmendCommit L F m s).2.log.getD []) = records L (s.log.getD []) ++ [C]) ∧
      s.head = some headData ∧ HasPrefix (TrimSpace headData) "ref: " = true ∧
      (AmendCommit L F m s).2.refs.lookup (TrimPrefix (TrimSpace headData) "ref: ") =
        some C.ID := by
  unfold AmendCommit at hok ⊢
  cases hg : GetLastCommit L s with
  | error e =>
    rw [hg] at hok
    dsimp only at hok
    split_ifs at hok
  | ok last =>
    rw [hg] at hok
    dsimp only at hok ⊢
    generalize hcm : Commit.newCommit L last.Parent m last.Timestamp last.TreeHash
      last.AuthorName last.AuthorEmail = commit at hok ⊢
    unfold AppendCommit at hok ⊢
    by_cases hap : F.append = true
    · simp [hap] at hok
    · simp only [hap, Bool.false_eq_true, if_false] at hok ⊢
      cases hr : getCurrentBranchRefPath
          ({ s with repoDir := true, log := some (s.log.getD [] ++ [L.marshal commit]) } : Repo) with
      | error e => rw [hr] at hok; simp at hok
      | ok refPath =>
        rw [hr] at hok
        dsimp only at hok ⊢
        obtain ⟨headData, hh, ha, hrp⟩ := getCurrentBranchRefPath_ok hr
        by_cases hw : F.write (branchFile refPath) = true
        · simp [hw] at hok
        · simp only [hw, Bool.false_eq_true, if_false, Except.ok.injEq] at hok ⊢
          subst hok
          have hmem : last ∈ records L (s.log.getD []) := GetLastCommit_mem hg
          refine ⟨last, headData, rfl, ?_, ?_, ?_, ?_, ?_, ?_, ?_, rfl, ?_, ?_, hh, ha, ?_⟩
          · rw [← hcm]; rfl
          · rw [← hcm]; rfl
          · rw [← hcm]; rfl
          · rw [← hcm]; rfl
          · rw [← hcm]; rfl
          · rw [← hcm]; rfl
          · rw [← hcm]; rfl
          · simp only [Option.getD_some, records_append]
            exact List.mem_append_left _ hmem
          · intro hjson
            simp only [Option.getD_some]
            rw [records_append, records_cons_some L _ [] commit hjson]
            simp [records]
          · rw [hrp]
            exact AList.lookup_insert _

theorem AmendCommit_appends_witness :
    (AmendCommit demoLib noFaults "amended" demoRepo).1 = .ok demoAmended ∧
      (AmendCommit demoLib noFaults "amended" demoRepo).2.log =
        some (demoRepo.log.getD [] ++ [demoLib.marshal demoAmended]) :=
  ⟨by decide,
    match AmendCommit_appends demoLib noFaults "amended" demoRepo demoAmended (by decide) with
    | ⟨_, _, _, _, _, _, _, _, _, _, hlog, _⟩ => hlog⟩

/-! ## Checking out a file -/

/-- C14 (the code at the failing input): in `demoRepo` HEAD is on `main` at the
commit `base0001`, whose tree records the blob `hello\n` for `a.txt`, while the
last record of the log is `bbbb0003`, whose tree records `bye\n`.
`CheckoutFile("a.txt")` succeeds and leaves `bye\n` in the file: it takes the
tree of the last record of the log, not the tree of the commit HEAD points to. -/
theorem CheckoutFile_uses_last_commit :
    headBlob demoLib demoRepo "a.txt" = .ok "hello\n" ∧
      (GetLastCommit demoLib demoRepo).map (fun c => c.ID) = .ok "bbbb0003" ∧
      (CheckoutFile demoLib noFaults "a.txt" demoRepo).1 = .ok () ∧
      (CheckoutFile demoLib noFaults "a.txt" demoRepo).2.work.lookup "a.txt" = some "bye\n" := by
  decide

/-- The safety check fires on a file that is on disk and is untracked or differs
from its index entry. -/
theorem CheckoutFile.guard_fires {L : Lib} {p : String} {s : Repo} {bytes : String}
    {index : StrMap} (hw : s.work.lookup p = some bytes) (hi : LoadIndex s = .ok index)
    (hc : index.lookup p = none ∨ ∃ h, index.lookup p = some h ∧ h ≠ L.sha1 bytes) :
    ∃ e, CheckoutFile.guard L p s = some e := by
  unfold CheckoutFile.guard
  rw [hw]
  dsimp only
  rw [hi]
  dsimp only
  rcases hc with hn | ⟨h, hs, hne⟩
  · rw [hn]
    exact ⟨_, rfl⟩
  · rw [hs]
    dsimp only
    rw [if_pos (fun heq => hne heq.symm)]
    exact ⟨_, rfl⟩

/-- The safety check passes when the file is not on disk or is on disk with the
hash its index entry has. -/
theorem CheckoutFile.guard_passes {L : Lib} {p : String} {s : Repo}
    (hc : s.work.lookup p = none ∨ ∃ bytes index, s.work.lookup p = some bytes ∧
      LoadIndex s = .ok index ∧ index.lookup p = some (L.sha1 bytes)) :
    CheckoutFile.guard L p s = none := by
  unfold CheckoutFile.guard
  rcases hc with hn | ⟨bytes, index, hw, hi, hl⟩
  · rw [hn]
  · rw [hw]
    dsimp only
    rw [hi]
    dsimp only
    rw [hl]
    simp

/-- C15: `CheckoutFile` never overwrites unsaved work. If the file is on disk and
is not in the index, or is in the index with a hash other than the SHA-1 of its
bytes on disk, `CheckoutFile` returns an error and leaves every file as it was.
In every other case (the file is not on disk, or is on disk with the hash of its
index entry) in which the path is in the tree of the commit, the blob can be
read and the file can be written, it succeeds and the file holds the bytes of
the blob. -/
theorem CheckoutFile_keeps_unsaved_work (L : Lib) (F : Faults) (p : String) (s : Repo) :
    (∀ bytes index, s.work.lookup p = some bytes → LoadIndex s = .ok index →
      (index.lookup p = none ∨ ∃ h, index.lookup p = some h ∧ h ≠ L.sha1 bytes) →
      ∃ e, CheckoutFile L F p s = (.error e, s)) ∧
    (∀ last tree blobHash content, GetLastCommit L s = .ok last →
      ParseTree s last.TreeHash = .ok tree → tree.lookup p = some blobHash →
      ReadObject s blobHash = .ok content → F.write p = false →
      (s.work.lookup p = none ∨ ∃ bytes index, s.work.lookup p = some bytes ∧
        LoadIndex s = .ok index ∧ index.lookup p = some (L.sha1 bytes)) →
      (CheckoutFile L F p s).1 = .ok () ∧
        (CheckoutFile L F p s).2.work.lookup p = some content) := by
  constructor
  · intro bytes index hw hi hc
    obtain ⟨e, he⟩ := CheckoutFile.guard_fires hw hi hc
    unfold CheckoutFile
    cases GetLastCommit L s with
    | error e1 => exact ⟨_, rfl⟩
    | ok last =>
      dsimp only
      cases ParseTree s last.TreeHash with
      | error e1 => exact ⟨_, rfl⟩
      | ok tree =>
        dsimp only
        cases tree.lookup p with
        | none => exact ⟨_, rfl⟩
        | some blobHash =>
          dsimp only
          rw [he]
          exact ⟨_, rfl⟩
  · intro last tree blobHash content hg ht hl hr hw hc
    unfold CheckoutFile
    rw [hg]
    dsimp only
    rw [ht]
    dsimp only
    rw [hl]
    dsimp only
    rw [CheckoutFile.guard_passes hc]
    dsimp only
    rw [hr]
    dsimp only
    unfold WriteFile
    simp only [hw, Bool.false_eq_true, if_false, AList.lookup_insert, and_self]

theorem CheckoutFile_keeps_unsaved_work_witness :
    (∃ e, CheckoutFile demoLib noFaults "a.txt" demoEdited = (.error e, demoEdited)) ∧
      (CheckoutFile demoLib noFaults "a.txt" demoRepo).1 = .ok () ∧
      (CheckoutFile demoLib noFaults "a.txt" demoRepo).2.work.lookup "a.txt" = some "bye\n" :=
  ⟨(CheckoutFile_keeps_unsaved_work demoLib noFaults "a.txt" demoEdited).1 "edited\n"
      ((∅ : StrMap).insert "a.txt" "hello") rfl rfl (Or.inr ⟨"hello", rfl, by decide⟩),
   (CheckoutFile_keeps_unsaved_work demoLib noFaults "a.txt" demoRepo).2
      { ID := "bbbb0003", Parent := "base0001", TreeHash := "byeatxt", Message := "third",
        Timestamp := 0, AuthorName := "bob", AuthorEmail := "bob@x" }
      ((∅ : StrMap).insert "a.txt" "bye") "bye" "bye\n" (by decide) rfl rfl rfl rfl
      (Or.inr ⟨"hello\n", (∅ : StrMap).insert "a.txt" "hello", rfl, rfl, rfl⟩)⟩

/-! ## Checking out a branch -/

/-- C16: `CheckoutBranch(name)` fails and leaves the repository (HEAD, the index,
every file of the working tree) as it was when there is no branch file for
`name`, with the branch-not-found error, and when `IsWorkDirDirty` reports
true. -/
theorem CheckoutBranch_refuses (L : Lib) (F : Faults) (name : String) (s : Repo) :
    (s.refs.lookup (branchKey name) = none →
      CheckoutBranch L F name s = (.error (.msg ("branch '" ++ name ++ "' not found")), s)) ∧
    (IsWorkDirDirty L s = .ok true → ∃ e, CheckoutBranch L F name s = (.error e, s)) := by
  constructor
  · intro hn
    unfold CheckoutBranch
    rw [hn]
  · intro hd
    unfold CheckoutBranch
    cases s.refs.lookup (branchKey name) with
    | none => exact ⟨_, rfl⟩
    | some bytes =>
      dsimp only
      cases FindCommit L s.log (TrimSpace bytes) with
      | error e => exact ⟨_, rfl⟩
      | ok commit =>
        dsimp only
        cases ParseTree s commit.TreeHash with
        | error e => exact ⟨_, rfl⟩
        | ok tree =>
          dsimp only
          rw [hd]
          exact ⟨_, rfl⟩

theorem CheckoutBranch_refuses_witness :
    CheckoutBranch demoLib noFaults "nope" demoRepo =
        (.error (.msg ("branch '" ++ "nope" ++ "' not found")), demoRepo) ∧
      ∃ e, CheckoutBranch demoLib noFaults "feat" demoEdited = (.error e, demoEdited) :=
  ⟨(CheckoutBranch_refuses demoLib noFaults "nope" demoRepo).1 (by decide),
   (CheckoutBranch_refuses demoLib noFaults "feat" demoEdited).2 (by decide)⟩

/-! ## The dirty test and the ignore patterns -/

/-- C17 (the code at the failing input): in `demoIgnoring` the index equals the
tree of HEAD, the tracked file `a.txt` has the hash of its index entry, and the
two untracked files `debug.log` and `.kitkatignore` are matched by the ignore
patterns, so the test of the specification says clean; `IsWorkDirDirty` returns
true, because it never consults the ignore patterns. -/
theorem IsWorkDirDirty_ignored_untracked :
    LoadIndex demoIgnoring = .ok ((∅ : StrMap).insert "a.txt" "hello") ∧
      ShouldIgnore "debug.log" (LoadIgnorePatterns demoIgnoring)
        ((∅ : StrMap).insert "a.txt" "hello") = true ∧
      ShouldIgnore ".kitkatignore" (LoadIgnorePatterns demoIgnoring)
        ((∅ : StrMap).insert "a.txt" "hello") = true ∧
      dirtyBySpec demoLib ((∅ : StrMap).insert "a.txt" "hello")
        ((∅ : StrMap).insert "a.txt" "hello") (LoadIgnorePatterns demoIgnoring)
        demoIgnoring.work = false ∧
      IsWorkDirDirty demoLib demoIgnoring = .ok true := by
  refine ⟨rfl, by decide, by decide, by decide, by decide⟩

/-! ## Safe paths -/

/-- C18 (as stated, refuted): `.kitkat/HEAD` is clean, relative and without a `..`
component but lies inside `.kitkat`, so the specification calls it unsafe, and
`IsSafePath` returns true for it; `a..b` is safe by the specification and
`IsSafePath` returns false for it. -/
theorem IsSafePath_differs_from_spec :
    (IsSafePath ".kitkat/HEAD" = true ∧ safeBySpec ".kitkat/HEAD" = false) ∧
      (IsSafePath "a..b" = false ∧ safeBySpec "a..b" = true) := by
  decide

theorem splitFields_head_prefix (sep : Char) (cs f : List Char) (fs : List (List Char))
    (h : splitFields sep cs = f :: fs) : f.isPrefixOf cs = true := by
  induction cs generalizing f fs with
  | nil =>
    simp only [splitFields, List.cons.injEq] at h
    rw [← h.1]
    rfl
  | cons c cs ih =>
    unfold splitFields at h
    by_cases hc : c = sep
    · simp only [hc, if_true, List.cons.injEq] at h
      rw [← h.1]
      rfl
    · simp only [hc, if_false] at h
      cases hs : splitFields sep cs with
      | nil =>
        rw [hs] at h
        simp only [List.cons.injEq] at h
        rw [← h.1]
        simp [List.isPrefixOf]
      | cons g gs =>
        rw [hs] at h
        simp only [List.cons.injEq] at h
        rw [← h.1]
        simp [List.isPrefixOf, ih g gs hs]

/-- Every non-empty field of a text occurs in the text. -/
theorem field_contains (sep : Char) (cs comp : List Char) (hmem : comp ∈ splitFields sep cs)
    (hne : comp ≠ []) : containsChars comp cs = true := by
  induction cs with
  | nil =>
    simp only [splitFields, List.mem_singleton] at hmem
    exact absurd hmem hne
  | cons c cs ih =>
    unfold splitFields at hmem
    unfold containsChars
    by_cases hc : c = sep
    · simp only [hc, if_true, List.mem_cons] at hmem
      rcases hmem with h1 | h1
      · exact absurd h1 hne
      · simp [ih h1]
    · simp only [hc, if_false] at hmem
      cases hs : splitFields sep cs with
      | nil =>
        rw [hs] at hmem
        simp only [List.mem_singleton] at hmem
        rw [hmem]
        simp [List.isPrefixOf]
      | cons g gs =>
        rw [hs] at hmem
        rcases List.mem_cons.mp hmem with h1 | h1
        · rw [h1]
          simp [List.isPrefixOf, splitFields_head_prefix sep cs g gs hs]
        · have : comp ∈ splitFields sep cs := by rw [hs]; exact List.mem_cons_of_mem _ h1
          simp [ih this]

/-- C18 (amended): after normalisation by `filepath.Clean`, `IsSafePath(p)` returns
false when the path is absolute or has a component equal to `..`, and returns
true when the path is relative and holds no `..` anywhere; there is no test
for the `.kitkat` directory. -/
theorem IsSafePath_guard (p : String) :
    ((IsAbs (Clean p) = true ∨ ['.', '.'] ∈ components (Clean p)) → IsSafePath p = false) ∧
    (IsAbs (Clean p) = false → Contains (Clean p) ".." = false → IsSafePath p = true) := by
  constructor
  · intro h
    unfold IsSafePath
    rcases h with h | h
    · simp [h]
    · have hcont : Contains (Clean p) ".." = true :=
        field_contains '/' (Clean p).data ['.', '.'] h (by simp)
      simp [hcont]
  · intro h1 h2
    unfold IsSafePath
    simp [h1, h2]

theorem IsSafePath_guard_witness :
    IsSafePath "docs/../../etc/passwd" = false ∧ IsSafePath ".kitkat/HEAD" = true :=
  ⟨(IsSafePath_guard "docs/../../etc/passwd").1 (Or.inr (by decide)),
   (IsSafePath_guard ".kitkat/HEAD").2 (by decide) (by decide)⟩

/-! ## Moving a file -/

/-- C19 (refuted by evaluation): `MoveFile` removes the destination and renames
the file before `AddFile` tests the new path, and never tests the old path.
With `../out.txt` as destination and `force` the file outside the repository is
replaced and only then the error is returned; with `../out.txt` as source the
call succeeds, the file outside is gone and the index has the new entry. -/
theorem MoveFile_renames_before_check :
    IsSafePath "../out.txt" = false ∧
    (MoveFile demoLib noFaults "a.txt" "../out.txt" true demoOutside).1
      = .error (.msg "unsafe path detected: ../out.txt") ∧
    demoOutside.work.lookup "../out.txt" = some "precious\n" ∧
    (MoveFile demoLib noFaults "a.txt" "../out.txt" true demoOutside).2.work.lookup "../out.txt"
      = some "hello\n" ∧
    (MoveFile demoLib noFaults "a.txt" "../out.txt" true demoOutside).2.work.lookup "a.txt" = none ∧
    (MoveFile demoLib noFaults "../out.txt" "in.txt" false demoOutside).1 = .ok () ∧
    (MoveFile demoLib noFaults "../out.txt" "in.txt" false demoOutside).2.work.lookup "../out.txt"
      = none ∧
    (MoveFile demoLib noFaults "../out.txt" "in.txt" false demoOutside).2.work.lookup "in.txt"
      = some "precious\n" ∧
    (LoadIndex (MoveFile demoLib noFaults "../out.txt" "in.txt" false demoOutside).2).map
      (fun idx => idx.lookup "in.txt") = .ok (some "precious") := by
  decide

/-! ## Staging a file -/

theorem HashAndStoreFile_ok (L : Lib) (F : Faults) (p : String) (s s1 : Repo) (hash : String)
    (h : HashAndStoreFile L F p s = (.ok hash, s1)) :
    ∃ bytes, s.work.lookup (Clean p) = some bytes ∧ hash = L.sha1 bytes ∧ s1.work = s.work ∧
      s1.index = s.index ∧ s1.repoDir = s.repoDir ∧ hash ∈ s1.blobs ∧
      (hash ∉ s.blobs → s1.blobs.lookup hash = some bytes) ∧
      (hash ∈ s.blobs → s1 = s) := by
  unfold HashAndStoreFile at h
  cases hf : s.work.lookup (Clean p) with
  | none => simp [hf] at h
  | some bytes =>
    simp only [hf] at h
    by_cases hm : L.sha1 bytes ∈ s.blobs
    · simp only [hm, if_true, Prod.mk.injEq, Except.ok.injEq] at h
      obtain ⟨h1, h2⟩ := h
      subst h1 h2
      exact ⟨bytes, rfl, rfl, rfl, rfl, rfl, hm, fun hn => absurd hm hn, fun _ => rfl⟩
    · simp only [hm, if_false] at h
      by_cases hw : F.write (".kitkat/objects/" ++ L.sha1 bytes) = true
      · simp [hw] at h
      · simp only [hw, if_false, Prod.mk.injEq, Except.ok.injEq] at h
        obtain ⟨rfl, rfl⟩ := h
        refine ⟨bytes, rfl, rfl, rfl, rfl, rfl, ?_, fun _ => ?_, fun hn => absurd hn hm⟩
        · simp
        · simp

theorem HashAndStoreFile_error (L : Lib) (F : Faults) (p : String) (s s1 : Repo) (e : Err)
    (h : HashAndStoreFile L F p s = (.error e, s1)) : s1 = s := by
  unfold HashAndStoreFile at h
  cases hf : s.work.lookup (Clean p) with
  | none =>
    simp only [hf, Prod.mk.injEq] at h
    exact h.2.symm
  | some bytes =>
    simp only [hf] at h
    by_cases hm : L.sha1 bytes ∈ s.blobs
    · simp [hm] at h
    · simp only [hm, if_false] at h
      by_cases hw : F.write (".kitkat/objects/" ++ L.sha1 bytes) = true
      · simp only [hw, if_true, Prod.mk.injEq] at h
        exact h.2.symm
      · simp [hw] at h

/-- A second `HashAndStoreFile` of the same file finds the object and changes nothing. -/
theorem HashAndStoreFile_again (L : Lib) (F : Faults) (p : String) (s s1 : Repo) (hash : String)
    (h : HashAndStoreFile L F p s = (.ok hash, s1)) (s2 : Repo) (hw : s2.work = s1.work)
    (hb : s2.blobs = s1.blobs) : HashAndStoreFile L F p s2 = (.ok hash, s2) := by
  obtain ⟨bytes, hf, hh, hwork, _, _, hmem, _, _⟩ := HashAndStoreFile_ok L F p s s1 hash h
  unfold HashAndStoreFile
  rw [hw, hwork, hf]
  have : L.sha1 bytes ∈ s2.blobs := by rw [hb, ← hh]; exact hmem
  simp [this, hh]

/-- A state in which the file is stored and staged is left as it is by `AddFile`. -/
theorem AddFile_staged (L : Lib) (F : Faults) (p : String) (s : Repo) (hash : String)
    (index : StrMap) (hsafe : ¬ IsSafePath p = false) (hrepo : ¬ s.repoDir = false)
    (hh : HashAndStoreFile L F p s = (.ok hash, s)) (hl : LoadIndex s = .ok index)
    (hsame : index.lookup p = some hash) : AddFile L F p s = (.ok (), s) := by
  unfold AddFile
  simp [hsafe, hrepo, hh, hl, hsame]

/-- The state after `AddFile` is a fixed point of `AddFile`. -/
theorem AddFile_twice_state (L : Lib) (F : Faults) (p : String) (s : Repo) :
    (AddFile L F p (AddFile L F p s).2).2 = (AddFile L F p s).2 ∧
      ((AddFile L F p s).1 = .ok () → (AddFile L F p (AddFile L F p s).2).1 = .ok ()) := by
  by_cases hsafe : IsSafePath p = false
  · have h1 : AddFile L F p s = (.error (.msg ("unsafe path detected: " ++ p)), s) := by
      unfold AddFile; simp [hsafe]
    rw [h1]
    simp [h1]
  by_cases hrepo : s.repoDir = false
  · have h1 : AddFile L F p s
        = (.error (.msg "not a kitkat repository (run `kitkat init`)"), s) := by
      unfold AddFile; simp [hsafe, hrepo]
    rw [h1]
    simp [h1]
  cases hh : HashAndStoreFile L F p s with
  | mk r s1 =>
    cases r with
    | error e =>
      have hs1 := HashAndStoreFile_error L F p s s1 e hh
      subst hs1
      have h1 : AddFile L F p s1 = (.error e, s1) := by
        unfold AddFile; simp [hsafe, hrepo, hh]
      rw [h1]
      simp [h1]
    | ok hash =>
      obtain ⟨bytes, hf, hhash, hwork, hidx, hrd, hmem, _, _⟩ :=
        HashAndStoreFile_ok L F p s s1 hash hh
      have hrepo1 : ¬ s1.repoDir = false := by rw [hrd]; exact hrepo
      cases hl : LoadIndex s1 with
      | error e =>
        have h1 : AddFile L F p s = (.error e, s1) := by
          unfold AddFile; simp [hsafe, hrepo, hh, hl]
        have h2 : AddFile L F p s1 = (.error e, s1) := by
          unfold AddFile
          simp [hsafe, hrepo1, HashAndStoreFile_again L F p s s1 hash hh s1 rfl rfl, hl]
        rw [h1]
        simp [h2]
      | ok index =>
        by_cases hsame : index.lookup p = some hash
        · have h1 : AddFile L F p s = (.ok (), s1) := by
            unfold AddFile; simp [hsafe, hrepo, hh, hl, hsame]
          have h2 : AddFile L F p s1 = (.ok (), s1) := by
            unfold AddFile
            simp [hsafe, hrepo1, HashAndStoreFile_again L F p s s1 hash hh s1 rfl rfl, hl, hsame]
          rw [h1]
          simp [h2]
        · by_cases hw : F.write IndexPath = true
          · have h1 : AddFile L F p s = (.error (.os "write .kitkat/index"), s1) := by
              unfold AddFile; simp [hsafe, hrepo, hh, hl, hsame, WriteIndex, hw]
            have h2 : AddFile L F p s1 = (.error (.os "write .kitkat/index"), s1) := by
              unfold AddFile
              simp [hsafe, hrepo1, HashAndStoreFile_again L F p s s1 hash hh s1 rfl rfl, hl,
                hsame, WriteIndex, hw]
            rw [h1]
            simp [h2]
          · have h1 : AddFile L F p s
                = (.ok (), { s1 with index := .valid (index.insert p hash) }) := by
              unfold AddFile; simp [hsafe, hrepo, hh, hl, hsame, WriteIndex, hw]
            have h2 : AddFile L F p { s1 with index := .valid (index.insert p hash) }
                = (.ok (), { s1 with index := .valid (index.insert p hash) }) :=
              AddFile_staged L F p _ hash (index.insert p hash) hsafe hrepo1
                (HashAndStoreFile_again L F p s s1 hash hh _ rfl rfl) rfl (by simp)
            rw [h1]
            simp [h2]

theorem HashAndStoreFile_present (L : Lib) (F : Faults) (p : String) (s : Repo) (bytes : String)
    (hf : s.work.lookup (Clean p) = some bytes)
    (hblob : L.sha1 bytes ∈ s.blobs ∨ F.write (".kitkat/objects/" ++ L.sha1 bytes) = false) :
    ∃ s1, HashAndStoreFile L F p s = (.ok (L.sha1 bytes), s1) := by
  unfold HashAndStoreFile
  simp only [hf]
  by_cases hm : L.sha1 bytes ∈ s.blobs
  · exact ⟨s, by simp [hm]⟩
  · rcases hblob with h | h
    · exact absurd h hm
    · exact ⟨{ s with blobs := s.blobs.insert (L.sha1 bytes) bytes }, by simp [hm, h]⟩

theorem LoadIndex_congr (s s1 : Repo) (h : s1.index = s.index) : LoadIndex s1 = LoadIndex s := by
  unfold LoadIndex
  rw [h]

/-- C20: `AddFile(p)` fails and changes nothing when `p` is unsafe. When `p` is
safe, the repository is initialised, the file is there, the index loads and the
writes that are needed succeed, it succeeds, the index maps `p` to the SHA-1 of
the file's bytes and agrees with the old index elsewhere, the blob is in the
object store, and an index that had the entry already is not rewritten. A
second call right after the first leaves the state of the first. -/
theorem AddFile_stages (L : Lib) (F : Faults) (p : String) (s : Repo) :
    (IsSafePath p = false → (AddFile L F p s).2 = s ∧ ∃ e, (AddFile L F p s).1 = .error e) ∧
    (∀ bytes index, IsSafePath p = true → s.repoDir = true →
      s.work.lookup (Clean p) = some bytes → LoadIndex s = .ok index →
      (L.sha1 bytes ∈ s.blobs ∨ F.write (".kitkat/objects/" ++ L.sha1 bytes) = false) →
      (index.lookup p = some (L.sha1 bytes) ∨ F.write IndexPath = false) →
      (AddFile L F p s).1 = .ok () ∧
      (∃ index', LoadIndex (AddFile L F p s).2 = .ok index' ∧
        index'.lookup p = some (L.sha1 bytes) ∧
        ∀ q, q ≠ p → index'.lookup q = index.lookup q) ∧
      L.sha1 bytes ∈ (AddFile L F p s).2.blobs ∧
      (L.sha1 bytes ∉ s.blobs →
        (AddFile L F p s).2.blobs.lookup (L.sha1 bytes) = some bytes) ∧
      (index.lookup p = some (L.sha1 bytes) → (AddFile L F p s).2.index = s.index) ∧
      (AddFile L F p s).2.work = s.work) ∧
    ((AddFile L F p (AddFile L F p s).2).2 = (AddFile L F p s).2 ∧
      ((AddFile L F p s).1 = .ok () → (AddFile L F p (AddFile L F p s).2).1 = .ok ())) := by
  refine ⟨?_, ?_, AddFile_twice_state L F p s⟩
  · intro hsafe
    unfold AddFile
    simp [hsafe]
  · intro bytes index hsafe hrepo hf hl hblob hidx
    obtain ⟨s1, hh⟩ := HashAndStoreFile_present L F p s bytes hf hblob
    obtain ⟨bytes1, hf1, _, hwork, hindex, _, hmem, hnew, _⟩ :=
      HashAndStoreFile_ok L F p s s1 (L.sha1 bytes) hh
    have hb : bytes1 = bytes := by
      rw [hf] at hf1
      exact (Option.some.inj hf1).symm
    subst hb
    have hl1 : LoadIndex s1 = .ok index := (LoadIndex_congr s s1 hindex).trans hl
    by_cases hsame : index.lookup p = some (L.sha1 bytes1)
    · have h1 : AddFile L F p s = (.ok (), s1) := by
        unfold AddFile
        simp [hsafe, hrepo, hh, hl1, hsame]
      rw [h1]
      exact ⟨rfl, ⟨index, hl1, hsame, fun _ _ => rfl⟩, hmem, hnew, fun _ => hindex, hwork⟩
    · have hw : F.write IndexPath = false := by
        rcases hidx with h | h
        · exact absurd h hsame
        · exact h
      have h1 : AddFile L F p s
          = (.ok (), { s1 with index := .valid (index.insert p (L.sha1 bytes1)) }) := by
        unfold AddFile
        simp [hsafe, hrepo, hh, hl1, hsame, WriteIndex, hw]
      rw [h1]
      refine ⟨rfl, ⟨index.insert p (L.sha1 bytes1), rfl, by simp, fun q hq => ?_⟩, hmem, hnew,
        fun h => absurd h hsame, hwork⟩
      exact AList.lookup_insert_ne hq

theorem AddFile_stages_witness :
    (IsSafePath "b.txt" = true ∧ demoUnstaged.repoDir = true ∧
      demoUnstaged.work.lookup (Clean "b.txt") = some "x" ∧
      (AddFile demoLib noFaults "b.txt" demoUnstaged).1 = .ok () ∧
      (AddFile demoLib noFaults "b.txt" demoUnstaged).2.work = demoUnstaged.work) ∧
    (IsSafePath "../b.txt" = false ∧
      (AddFile demoLib noFaults "../b.txt" demoUnstaged).2 = demoUnstaged) :=
  ⟨⟨by decide, by decide, by decide,
    ((AddFile_stages demoLib noFaults "b.txt" demoUnstaged).2.1 "x"
      ((∅ : StrMap).insert "a.txt" "hello") (by decide) (by decide) (by decide) rfl
      (Or.inl (by decide)) (Or.inr (by decide))).1,
    ((AddFile_stages demoLib noFaults "b.txt" demoUnstaged).2.1 "x"
      ((∅ : StrMap).insert "a.txt" "hello") (by decide) (by decide) (by decide) rfl
      (Or.inl (by decide)) (Or.inr (by decide))).2.2.2.2.2⟩,
   by decide, ((AddFile_stages demoLib noFaults "../b.txt" demoUnstaged).1 (by decide)).1⟩

/-! ## Amending after the log has moved on -/

/-- C29 (the code at the failing input): in `demoRepo` HEAD is on `main` at the
commit `base0001`, a root commit with the tree `helloatxt`, while the last
record of the log is `bbbb0003` on the branch `fix`. `AmendCommit` succeeds and
returns a commit with the tree `byeatxt` and the parent `base0001`, those of
`bbbb0003`, and moves `main` to it: it amends the last record of the log, not
the commit HEAD points to. -/
theorem AmendCommit_uses_last_commit :
    (GetHeadCommit demoLib demoRepo).map (fun c => (c.ID, c.TreeHash, c.Parent))
        = .ok ("base0001", "helloatxt", "") ∧
      (GetLastCommit demoLib demoRepo).map (fun c => c.ID) = .ok "bbbb0003" ∧
      (AmendCommit demoLib noFaults "amended" demoRepo).1.map
        (fun c => (c.TreeHash, c.Parent)) = .ok ("byeatxt", "base0001") ∧
      readHead (AmendCommit demoLib noFaults "amended" demoRepo).2
        = .ok "byeatxtbase0001amendedT" := by
  decide

/-! ## Reset with a prefix shorter than seven characters -/

/-- C30 (the code at the failing input): `aaaa` is a unique prefix, so
`FindCommit` resolves it to `aaaa0002`; `ResetHard("aaaa")` moves the branch
pointer, rewrites the working tree and the index, and then panics at the slice
`commitHash[:7]`. -/
theorem ResetHard_short_prefix_panics :
    (FindCommit demoLib demoRepo.log "aaaa").map (fun c => c.ID) = .ok "aaaa0002" ∧
      (ResetHard demoLib noFaults "aaaa" demoRepo).1 = .panic ∧
      demoRepo.refs.lookup "refs/heads/main" = some "base0001\n" ∧
      (ResetHard demoLib noFaults "aaaa" demoRepo).2.refs.lookup "refs/heads/main"
        = some "aaaa" ∧
      demoRepo.work.lookup "b.txt" = none ∧
      (ResetHard demoLib noFaults "aaaa" demoRepo).2.work.lookup "b.txt" = some "x" ∧
      (LoadIndex (ResetHard demoLib noFaults "aaaa" demoRepo).2).map
        (fun idx => idx.lookup "b.txt") = .ok (some "x") := by
  decide

/-! ## Tracked files are never ignored -/

/-- C27: tracked override. A path that is a key of the index is not ignored,
whatever the patterns are. -/
theorem ShouldIgnore_tracked (p : String) (patterns : List IgnorePattern) (index : StrMap)
    (h : p ∈ index) : ShouldIgnore p patterns index = false := by
  unfold ShouldIgnore
  rw [if_pos h]

theorem ShouldIgnore_tracked_witness :
    ShouldIgnore "ignored.txt"
      [{ Pattern := "ignored.txt", Original := "ignored.txt", IsDirectory := false }]
      ((∅ : StrMap).insert "ignored.txt" "hash") = false :=
  ShouldIgnore_tracked "ignored.txt" _ _ (by decide)

/-! ## The commit log when `Commit` fails -/

/-- C28 (as stated, refuted): `Commit` appends the record before it looks for the
branch file. When the write of the branch file fails, and when HEAD is detached,
`Commit` returns the error and the log has one record more than before. -/
theorem Commit_error_after_append :
    ((Commit demoLib pointerFault "ann" "ann@x" 0 "first" demoFresh).1
        = .error (.wrap "failed to update branch pointer: "
            (.os "write .kitkat/refs/heads/main")) ∧
      demoFresh.log = none ∧
      (Commit demoLib pointerFault "ann" "ann@x" 0 "first" demoFresh).2.log
        = some ["helloatxtfirstT||helloatxt|first|ann|ann@x"]) ∧
    ((Commit demoLib noFaults "ann" "ann@x" 0 "more" demoDetached).1
        = .error (.msg "cannot commit in detached HEAD state") ∧
      (Commit demoLib noFaults "ann" "ann@x" 0 "more" demoDetached).2.log
        = some (demoLog ++ ["helloatxtxbtxtbase0001moreT|base0001|helloatxtxbtxt|more|ann|ann@x"])) := by
  decide

theorem CreateTree_error_before {L : Lib} {F : Faults} {s : Repo} {e : Err}
    (h : (CreateTree L F s).1 = .error e) : Commit.afterAppend e = false := by
  unfold CreateTree at h
  cases hl : LoadIndex s with
  | error e1 =>
    rw [hl] at h
    simp only [Except.error.injEq] at h
    subst h
    unfold LoadIndex at hl
    cases hi : s.index with
    | absent => rw [hi] at hl; simp at hl
    | corrupt =>
      rw [hi] at hl
      simp only [Except.error.injEq] at hl
      rw [← hl]; rfl
    | valid m => rw [hi] at hl; simp at hl
  | ok index =>
    rw [hl] at h
    dsimp only at h
    by_cases hm : L.sha1 (serializeTree index) ∈ s.trees
    · rw [if_pos hm] at h
      simp at h
    · rw [if_neg hm] at h
      by_cases hw : F.write (".kitkat/objects/" ++ L.sha1 (serializeTree index)) = true
      · rw [if_pos hw] at h
        simp only [Except.error.injEq] at h
        rw [← h]; rfl
      · rw [if_neg hw] at h
        simp at h

theorem Commit.movePointer_error {F : Faults} {commit : models.Commit} {s : Repo} {e : Err}
    (h : (Commit.movePointer F commit s).1 = .error e) :
    Commit.afterAppend e = true ∧ (Commit.movePointer F commit s).2 = s := by
  unfold Commit.movePointer at h ⊢
  cases hr : Commit.refPath F s with
  | error e1 =>
    rw [hr] at h
    simp only [Except.error.injEq] at h
    subst h
    refine ⟨?_, rfl⟩
    unfold Commit.refPath at hr
    cases hg : getCurrentBranchRefPath s with
    | ok refPath => rw [hg] at hr; simp at hr
    | error e2 =>
      rw [hg] at hr
      cases hh : s.head with
      | none =>
        simp only [hh, Except.error.injEq] at hr
        rw [← hr]; rfl
      | some headData =>
        simp only [hh] at hr
        split_ifs at hr
        · simp only [Except.error.injEq] at hr
          rw [← hr]; rfl
        · simp only [Except.error.injEq] at hr
          rw [← hr]; rfl
  | ok refPath =>
    rw [hr] at h
    dsimp only at h ⊢
    split_ifs at h ⊢ with hw
    · simp only [Except.error.injEq] at h
      rw [← h]
      exact ⟨rfl, rfl⟩

/-- C28 (amended): when `Commit` returns an error raised before the record is
appended or by the append itself (the tree cannot be built, nothing to commit,
the append fails), the commit log is as before the call. When it returns one of
the errors raised after the append (HEAD cannot be read, HEAD is detached, the
directory of the branch file cannot be made, the branch file cannot be
written), the log is the log before the call with the one new record appended. -/
theorem Commit_error_log (L : Lib) (F : Faults) (userName userEmail : String) (now : Int)
    (message : String) (s : Repo) (e : Err)
    (herr : (Commit L F userName userEmail now message s).1 = .error e) :
    (Commit.afterAppend e = false →
      (Commit L F userName userEmail now message s).2.log = s.log) ∧
    (Commit.afterAppend e = true →
      ∃ c : models.Commit, c.Message = message ∧ c.Parent = headParent L s ∧
        c.ID = hashCommit L c ∧
        (Commit L F userName userEmail now message s).2.log
          = some (s.log.getD [] ++ [L.marshal c])) := by
  have hlog := CreateTree_log L F s
  have hget := CreateTree_GetHeadCommit L F s
  unfold Commit at herr ⊢
  cases hct : CreateTree L F s with
  | mk r s1 =>
    rw [hct] at hlog hget
    dsimp only at hlog hget
    cases r with
    | error e1 =>
      rw [hct] at herr
      simp only [Except.error.injEq] at herr
      subst herr
      have hb : Commit.afterAppend e1 = false := CreateTree_error_before (by rw [hct])
      simp only [hb]
      exact ⟨fun _ => hlog, fun h => absurd h (by simp)⟩
    | ok treeHash =>
      rw [hct] at herr
      dsimp only at herr ⊢
      by_cases hclean : treeHash = (match GetHeadCommit L s1 with
          | .ok parentCommit => (parentCommit.ID, parentCommit.TreeHash)
          | .error _ => ("", "")).2
      · rw [if_pos hclean] at herr ⊢
        simp only [Except.error.injEq] at herr
        subst herr
        exact ⟨fun _ => hlog, fun h => absurd h (by decide)⟩
      · rw [if_neg hclean] at herr ⊢
        unfold AppendCommit at herr ⊢
        by_cases ha : F.append = true
        · rw [if_pos ha] at herr ⊢
          dsimp only at herr ⊢
          simp only [Except.error.injEq] at herr
          subst herr
          exact ⟨fun _ => hlog, fun h => absurd h (by decide)⟩
        · rw [if_neg ha] at herr ⊢
          dsimp only at herr ⊢
          obtain ⟨hafter, hstate⟩ := Commit.movePointer_error herr
          rw [hstate]
          refine ⟨fun h => absurd hafter (by simp [h]), fun _ =>
            ⟨Commit.newCommit L
              (match GetHeadCommit L s1 with
                | .ok parentCommit => (parentCommit.ID, parentCommit.TreeHash)
                | .error _ => ("", "")).1
              message now treeHash (if userName = "" then "Unknown" else userName)
              (if userEmail = "" then "unknown@example.com" else userEmail), ?_, ?_, ?_, ?_⟩⟩
          · rfl
          · unfold headParent
            rw [← hget]
            cases GetHeadCommit L s1 <;> rfl
          · exact hashCommit_newCommit L _ _ _ _ _ _
          · simp only [hlog]

theorem Commit_error_log_witness :
    ((Commit demoLib noFaults "ann" "ann@x" 0 "again" demoRepo).1
        = .error (.msg "nothing to commit, working tree clean") ∧
      (Commit demoLib noFaults "ann" "ann@x" 0 "again" demoRepo).2.log = demoRepo.log) ∧
    ((Commit demoLib pointerFault "ann" "ann@x" 0 "first" demoFresh).1
        = .error (.wrap "failed to update branch pointer: "
            (.os "write .kitkat/refs/heads/main")) ∧
      ∃ c : models.Commit, c.Message = "first" ∧ c.Parent = headParent demoLib demoFresh ∧
        c.ID = hashCommit demoLib c ∧
        (Commit demoLib pointerFault "ann" "ann@x" 0 "first" demoFresh).2.log
          = some (demoFresh.log.getD [] ++ [demoLib.marshal c])) :=
  ⟨⟨by decide, (Commit_error_log demoLib noFaults "ann" "ann@x" 0 "again" demoRepo
      (.msg "nothing to commit, working tree clean") (by decide)).1 (by decide)⟩,
   by decide, (Commit_error_log demoLib pointerFault "ann" "ann@x" 0 "first" demoFresh
      (.wrap "failed to update branch pointer: " (.os "write .kitkat/refs/heads/main"))
      (by decide)).2 (by decide)⟩

/-! ## The command `clean` -/

/-- C22 (the code at the failing input): in `demoUntracked` the file `junk.txt` is
untracked and not ignored. The command `clean -f`, also with `-x`, prints
`Would remove junk.txt`, exits with 0 and leaves the file where it is, because
the handler passes `true` for `dryRun`; `core.Clean` with `dryRun` false
removes the file. -/
theorem clean_force_removes_nothing :
    demoUntracked.work.lookup "junk.txt" = some "tmp\n" ∧
      (LoadIndex demoUntracked).map (fun idx => idx.lookup "junk.txt") = .ok none ∧
      ShouldIgnore "junk.txt" (LoadIgnorePatterns demoUntracked)
        ((∅ : StrMap).insert "a.txt" "hello") = false ∧
      (commands.clean ["-f"] demoUntracked).1 = 0 ∧
      (commands.clean ["-f"] demoUntracked).2.1.work.lookup "junk.txt" = some "tmp\n" ∧
      (commands.clean ["-f"] demoUntracked).2.2 = ["Would remove junk.txt"] ∧
      (commands.clean ["-f", "-x"] demoUntracked).2.1.work.lookup "junk.txt" = some "tmp\n" ∧
      (core.Clean false false demoUntracked).2.1.work.lookup "junk.txt" = none ∧
      (core.Clean false false demoUntracked).2.1.work.lookup "a.txt" = some "hello\n" := by
  decide

/-! ## Staging everything -/

/-- C21 (the code at the failing input): in `demoMixed` the file `notes..txt` is on
disk outside `.kitkat`, is not matched by the ignore patterns and can be hashed;
its path is relative and has no `..` component. `AddAll` succeeds and the file
is not in the index: the walk skips it, because `IsSafePath` looks for `..` as
a piece of text and finds it inside the name. -/
theorem AddAll_skips_unsafe_names :
    demoMixed.work.lookup "notes..txt" = some "memo\n" ∧
      safeBySpec "notes..txt" = true ∧
      ShouldIgnore "notes..txt" (LoadIgnorePatterns demoMixed)
        (((∅ : StrMap).insert "gone.txt" "x").insert "a.txt" "hello") = false ∧
      IsSafePath "notes..txt" = false ∧
      (AddAll demoLib noFaults demoMixed).1 = .ok () ∧
      (LoadIndex (AddAll demoLib noFaults demoMixed).2).map
        (fun idx => (idx.lookup "notes..txt", idx.lookup "a.txt", idx.lookup "new.txt",
          idx.lookup "gone.txt", idx.lookup "debug.log"))
        = .ok (none, some "edited", some "fresh", none, none) := by
  decide

theorem AddAll.prune_lookup (seen : List String) (p : String) (ks : List String) (m : StrMap) :
    (AddAll.prune seen ks m).lookup p = if p ∈ ks ∧ p ∉ seen then none else m.lookup p := by
  induction ks generalizing m with
  | nil => simp [AddAll.prune]
  | cons k rest ih =>
    unfold AddAll.prune
    rw [ih]
    by_cases hk : k ∈ seen
    · rw [if_pos hk]
      by_cases hp : p ∈ rest ∧ p ∉ seen
      · rw [if_pos hp, if_pos ⟨List.mem_cons_of_mem _ hp.1, hp.2⟩]
      · rw [if_neg hp]
        by_cases hpk : p = k
        · subst hpk
          rw [if_neg (fun h => h.2 hk)]
        · rw [if_neg]
          rintro ⟨h1, h2⟩
          rcases List.mem_cons.mp h1 with h | h
          · exact hpk h
          · exact hp ⟨h, h2⟩
    · rw [if_neg hk]
      by_cases hp : p ∈ rest ∧ p ∉ seen
      · rw [if_pos hp, if_pos ⟨List.mem_cons_of_mem _ hp.1, hp.2⟩]
      · rw [if_neg hp]
        by_cases hpk : p = k
        · subst hpk
          rw [if_pos ⟨List.mem_cons_self _ _, hk⟩]
          simp
        · rw [if_neg, AList.lookup_erase_ne hpk]
          rintro ⟨h1, h2⟩
          rcases List.mem_cons.mp h1 with h | h
          · exact hpk h
          · exact hp ⟨h, h2⟩

theorem HashAndStoreFile_keeps (L : Lib) (F : Faults) (p : String) (s : Repo) :
    (HashAndStoreFile L F p s).2.work = s.work ∧
      ∀ h, h ∈ s.blobs → h ∈ (HashAndStoreFile L F p s).2.blobs := by
  unfold HashAndStoreFile
  cases s.work.lookup (Clean p) with
  | none => exact ⟨rfl, fun _ h => h⟩
  | some bytes =>
    dsimp only
    by_cases hm : L.sha1 bytes ∈ s.blobs
    · rw [if_pos hm]
      exact ⟨rfl, fun _ h => h⟩
    · rw [if_neg hm]
      by_cases hw : F.write (".kitkat/objects/" ++ L.sha1 bytes) = true
      · rw [if_pos hw]
        exact ⟨rfl, fun _ h => h⟩
      · rw [if_neg hw]
        refine ⟨rfl, fun h hh => ?_⟩
        simp only [AList.mem_insert]
        exact Or.inr hh

theorem ShouldIgnore_congr (p : String) (patterns : List IgnorePattern) (m1 m2 : StrMap)
    (h : m1.lookup p = m2.lookup p) : ShouldIgnore p patterns m1 = ShouldIgnore p patterns m2 := by
  unfold ShouldIgnore
  have : p ∈ m1 ↔ p ∈ m2 := by
    rw [← AList.lookup_isSome, ← AList.lookup_isSome, h]
  by_cases h1 : p ∈ m1
  · rw [if_pos h1, if_pos (this.mp h1)]
  · rw [if_neg h1, if_neg (fun h2 => h1 (this.mpr h2))]

theorem AddAll.inv_step (L : Lib) (F : Faults) (s : Repo) (index : StrMap)
    (visited : List (Sigma fun _ : String => String)) (st : AddAll.State)
    (e : Sigma fun _ : String => String) (hinv : AddAll.Inv L F s index visited st)
    (hnew : e.1 ∉ visited.map Sigma.fst) (hfile : s.work.lookup (Clean e.1) = some e.2) :
    AddAll.Inv L F s index (visited ++ [e])
      (AddAll.visit L F (LoadIgnorePatterns s) e.1 st) := by
  obtain ⟨hwork, hblobs, hseen, hrest, hdone⟩ := hinv
  have hkeys : ∀ p, p ∈ visited.map Sigma.fst → p ∈ (visited ++ [e]).map Sigma.fst := by
    intro p hp
    simp only [List.map_append, List.mem_append]
    exact Or.inl hp
  have hother : ∀ p, p ∉ (visited ++ [e]).map Sigma.fst → p ∉ visited.map Sigma.fst ∧ p ≠ e.1 := by
    intro p hp
    simp only [List.map_append, List.mem_append, List.map_cons, List.map_nil,
      List.mem_singleton, not_or] at hp
    exact hp
  have hmem : ∀ e1, e1 ∈ visited ++ [e] → e1 ∈ visited ∨ e1 = e := by
    intro e1 h1
    simpa using h1
  have hne : ∀ e1, e1 ∈ visited → e1.1 ≠ e.1 := by
    intro e1 h1 heq
    exact hnew (heq ▸ List.mem_map_of_mem Sigma.fst h1)
  have hself : e.1 ∈ (visited ++ [e]).map Sigma.fst := by simp
  -- the state is left as it is
  have hskip : (IsSafePath e.1 = false ∨ inRepoDir e.1 = true ∨
      ShouldIgnore e.1 (LoadIgnorePatterns s) index = true) →
      AddAll.Inv L F s index (visited ++ [e]) st := by
    intro hwhy
    refine ⟨hwork, hblobs, fun p hp => ⟨hkeys p (hseen p hp).1, (hseen p hp).2⟩,
      fun p hp => hrest p (hother p hp).1, fun e1 h1 hs hr hi hc => ?_⟩
    rcases hmem e1 h1 with h | h
    · exact hdone e1 h hs hr hi hc
    · subst h
      rcases hwhy with h | h | h
      · rw [h] at hs; exact absurd hs (by decide)
      · rw [h] at hr; exact absurd hr (by decide)
      · rw [h] at hi; exact absurd hi (by decide)
  unfold AddAll.visit
  by_cases hsafe : IsSafePath e.1 = false
  · rw [if_pos hsafe]
    exact hskip (Or.inl hsafe)
  rw [if_neg hsafe]
  by_cases hrepo : (HasPrefix e.1 (RepoDir ++ "/") || e.1 = RepoDir) = true
  · rw [if_pos hrepo]
    exact hskip (Or.inr (Or.inl hrepo))
  rw [if_neg hrepo]
  have hign : ShouldIgnore e.1 (LoadIgnorePatterns s) st.index
      = ShouldIgnore e.1 (LoadIgnorePatterns s) index :=
    ShouldIgnore_congr _ _ _ _ (hrest e.1 hnew)
  by_cases hi : ShouldIgnore e.1 (LoadIgnorePatterns s) st.index = true
  · rw [if_pos hi]
    exact hskip (Or.inr (Or.inr (hign ▸ hi)))
  rw [if_neg hi]
  have hkeep := HashAndStoreFile_keeps L F e.1 st.repo
  have hrepo1 : inRepoDir e.1 = false := by
    unfold inRepoDir
    simpa using hrepo
  cases hh : HashAndStoreFile L F e.1 st.repo with
  | mk r s1 =>
    rw [hh] at hkeep
    dsimp only at hkeep
    cases r with
    | error err =>
      dsimp only
      refine ⟨hkeep.1.trans hwork, fun h hm => hkeep.2 h (hblobs h hm), fun p hp => ?_,
        fun p hp => hrest p (hother p hp).1, fun e1 h1 hs hr hig hc => ?_⟩
      · rcases List.mem_cons.mp hp with h | h
        · rw [h]; exact ⟨hself, hrepo1⟩
        · exact ⟨hkeys p (hseen p h).1, (hseen p h).2⟩
      · rcases hmem e1 h1 with h | h
        · exact ⟨(hdone e1 h hs hr hig hc).1, List.mem_cons_of_mem _ (hdone e1 h hs hr hig hc).2⟩
        · subst h
          have hc1 : L.sha1 e1.2 ∈ st.repo.blobs ∨
              F.write (".kitkat/objects/" ++ L.sha1 e1.2) = false := by
            rcases hc with h | h
            · exact Or.inl (hblobs _ h)
            · exact Or.inr h
          obtain ⟨s2, h2⟩ := HashAndStoreFile_present L F e1.1 st.repo e1.2
            (by rw [hwork]; exact hfile) hc1
          rw [hh] at h2
          simp at h2
    | ok hash =>
      dsimp only
      obtain ⟨bytes, hf, hhash, _, _, _, _, _, _⟩ := HashAndStoreFile_ok L F e.1 st.repo s1 hash hh
      have hb : bytes = e.2 := by
        rw [hwork, hfile] at hf
        exact (Option.some.inj hf).symm
      subst hb
      refine ⟨hkeep.1.trans hwork, fun h hm => hkeep.2 h (hblobs h hm), fun p hp => ?_,
        fun p hp => ?_, fun e1 h1 hs hr hig hc => ?_⟩
      · rcases List.mem_cons.mp hp with h | h
        · rw [h]; exact ⟨hself, hrepo1⟩
        · exact ⟨hkeys p (hseen p h).1, (hseen p h).2⟩
      · rw [AList.lookup_insert_ne (hother p hp).2]
        exact hrest p (hother p hp).1
      · rcases hmem e1 h1 with h | h
        · rw [AList.lookup_insert_ne (hne e1 h)]
          exact ⟨(hdone e1 h hs hr hig hc).1, List.mem_cons_of_mem _ (hdone e1 h hs hr hig hc).2⟩
        · subst h
          rw [AList.lookup_insert, hhash]
          exact ⟨rfl, List.mem_cons_self _ _⟩

theorem AddAll.inv_fold (L : Lib) (F : Faults) (s : Repo) (index : StrMap)
    (files : List (Sigma fun _ : String => String))
    (hnd : (files.map Sigma.fst).Nodup)
    (hfile : ∀ e, e ∈ files → s.work.lookup (Clean e.1) = some e.2) :
    AddAll.Inv L F s index files
      (files.foldl (fun st e => AddAll.visit L F (LoadIgnorePatterns s) e.1 st)
        { index := index, filesInWorkDir := [], repo := s }) := by
  induction files using List.reverseRecOn with
  | nil =>
    exact ⟨rfl, fun _ h => h, fun p hp => absurd hp (List.not_mem_nil _), fun _ _ => rfl,
      fun e he => absurd he (List.not_mem_nil _)⟩
  | append_singleton visited e ih =>
    rw [List.foldl_append]
    simp only [List.foldl_cons, List.foldl_nil]
    have hnd1 : (visited.map Sigma.fst).Nodup ∧ e.1 ∉ visited.map Sigma.fst := by
      rw [List.map_append, List.nodup_append] at hnd
      refine ⟨hnd.1, fun h => ?_⟩
      exact hnd.2.2 h (by simp)
    exact AddAll.inv_step L F s index visited _ e
      (ih hnd1.1 (fun e1 h1 => hfile e1 (List.mem_append_left _ h1))) hnd1.2
      (hfile e (by simp))

theorem walkFiles_mem {s : Repo} {e : Sigma fun _ : String => String} (h : e ∈ walkFiles s) :
    s.work.lookup e.1 = some e.2 ∧ e.1 ∈ s.work.keys := by
  have he : e ∈ s.work.entries := (List.mem_filter.mp h).1
  have hl : s.work.lookup e.1 = some e.2 := by
    have : (⟨e.1, e.2⟩ : Sigma fun _ : String => String) ∈ s.work.entries := he
    exact Option.mem_def.mp (AList.mem_lookup_iff.mpr this)
  refine ⟨hl, ?_⟩
  rw [← AList.mem_keys, ← AList.lookup_isSome, hl]
  rfl

theorem walkFiles_nodup (s : Repo) : ((walkFiles s).map Sigma.fst).Nodup := by
  have h : (s.work.entries.map Sigma.fst).Nodup := s.work.nodupKeys
  exact h.sublist (List.Sublist.map _ (List.filter_sublist _))

/-- What `AddAll` does stage. After `AddAll` succeeds, every key of the index is a
file on disk outside `.kitkat`; every file on disk outside `.kitkat` on which
`IsSafePath` gives true, that was tracked already or is not matched by the
ignore patterns, and that can be hashed, is in the index with the SHA-1 of its
bytes; and every path that was tracked and is no longer on disk is gone from
the index. The keys of the working tree are clean paths. -/
theorem AddAll_stages (L : Lib) (F : Faults) (s : Repo) (index : StrMap)
    (hclean : ∀ p, p ∈ s.work.keys → Clean p = p) (hload : LoadIndex s = .ok index)
    (hok : (AddAll L F s).1 = .ok ()) :
    ∃ index', LoadIndex (AddAll L F s).2 = .ok index' ∧
      (∀ p, p ∈ index' →
        (∃ content, (⟨p, content⟩ : Sigma fun _ : String => String) ∈ walkFiles s) ∧
          inRepoDir p = false) ∧
      (∀ p content, (⟨p, content⟩ : Sigma fun _ : String => String) ∈ walkFiles s →
        IsSafePath p = true → inRepoDir p = false →
        ShouldIgnore p (LoadIgnorePatterns s) index = false → canStore L F s content →
        index'.lookup p = some (L.sha1 content)) ∧
      (∀ p, p ∈ index →
        (∀ content, (⟨p, content⟩ : Sigma fun _ : String => String) ∉ walkFiles s) →
        p ∉ index') := by
  have hinv := AddAll.inv_fold L F s index (walkFiles s) (walkFiles_nodup s)
    (fun e he => by
      rw [hclean e.1 (walkFiles_mem he).2]
      exact (walkFiles_mem he).1)
  unfold AddAll at hok ⊢
  rw [hload] at hok ⊢
  dsimp only at hok ⊢
  generalize (walkFiles s).foldl (fun st e => AddAll.visit L F (LoadIgnorePatterns s) e.1 st)
    { index := index, filesInWorkDir := [], repo := s } = st at hinv hok ⊢
  obtain ⟨_, _, hseen, hrest, hdone⟩ := hinv
  unfold WriteIndex at hok ⊢
  by_cases hw : F.write IndexPath = true
  · rw [if_pos hw] at hok
    simp at hok
  rw [if_neg hw]
  refine ⟨AddAll.prune st.filesInWorkDir st.index.keys st.index, rfl, fun p hp => ?_,
    fun p content hp hs hr hi hc => ?_, fun p hp hgone => ?_⟩
  · rw [← AList.lookup_isSome, AddAll.prune_lookup] at hp
    have hin : p ∈ st.filesInWorkDir := by
      by_contra hnot
      by_cases hk : p ∈ st.index.keys
      · rw [if_pos ⟨hk, hnot⟩] at hp
        simp at hp
      · rw [if_neg (fun h => hk h.1)] at hp
        rw [AList.lookup_isSome] at hp
        exact hk (AList.mem_keys.mpr hp)
    obtain ⟨hv, hr⟩ := hseen p hin
    obtain ⟨e, he, hep⟩ := List.mem_map.mp hv
    refine ⟨⟨e.2, ?_⟩, hr⟩
    rw [← hep]
    exact he
  · obtain ⟨hl, hin⟩ := hdone ⟨p, content⟩ hp hs hr hi hc
    rw [AddAll.prune_lookup, if_neg (fun h => h.2 hin)]
    exact hl
  · have hnv : p ∉ (walkFiles s).map Sigma.fst := by
      intro hv
      obtain ⟨e, he, hep⟩ := List.mem_map.mp hv
      apply hgone e.2
      rw [← hep]
      exact he
    have hlook : st.index.lookup p = index.lookup p := hrest p hnv
    have hk : p ∈ st.index.keys := by
      have h1 : (index.lookup p).isSome = true := AList.lookup_isSome.mpr hp
      have h2 : (st.index.lookup p).isSome = true := by rw [hlook]; exact h1
      exact AList.mem_keys.mpr (AList.lookup_isSome.mp h2)
    have hns : p ∉ st.filesInWorkDir := fun h => hnv (hseen p h).1
    rw [← AList.lookup_isSome, AddAll.prune_lookup, if_pos ⟨hk, hns⟩]
    simp

theorem AddAll_stages_witness :
    (∀ p, p ∈ demoMixed.work.keys → Clean p = p) ∧
      (AddAll demoLib noFaults demoMixed).1 = .ok () ∧
      ∃ index', LoadIndex (AddAll demoLib noFaults demoMixed).2 = .ok index' ∧
        (∀ p, p ∈ index' →
          (∃ content, (⟨p, content⟩ : Sigma fun _ : String => String) ∈ walkFiles demoMixed) ∧
            inRepoDir p = false) ∧
        (∀ p content, (⟨p, content⟩ : Sigma fun _ : String => String) ∈ walkFiles demoMixed →
          IsSafePath p = true → inRepoDir p = false →
          ShouldIgnore p (LoadIgnorePatterns demoMixed)
            (((∅ : StrMap).insert "gone.txt" "x").insert "a.txt" "hello") = false →
          canStore demoLib noFaults demoMixed content →
          index'.lookup p = some (demoLib.sha1 content)) ∧
        (∀ p, p ∈ ((∅ : StrMap).insert "gone.txt" "x").insert "a.txt" "hello" →
          (∀ content, (⟨p, content⟩ : Sigma fun _ : String => String) ∉ walkFiles demoMixed) →
          p ∉ index') :=
  ⟨by decide, by decide,
    AddAll_stages demoLib noFaults demoMixed _ (by decide) rfl (by decide)⟩

/-! ## The exit codes of the dispatcher -/

/-- C25 (the code at the failing input): in `demoDetached` HEAD is detached, so
`CommitAll` returns the error `cannot commit in detached HEAD state`. The
command `commit -am more` then exits with 2, the code of a usage error, where
`commit -m more` exits with 1 on the same error; `add` of a missing file exits
with 1. -/
theorem commit_am_exit_code :
    (CommitAll demoLib noFaults "ann" "ann@x" 0 "more" demoDetached).1
        = .error (.msg "cannot commit in detached HEAD state") ∧
      (commands.commit demoLib noFaults "ann" "ann@x" 0 ["-am", "more"] demoDetached).1 = 2 ∧
      (Commit demoLib noFaults "ann" "ann@x" 0 "more" demoDetached).1
        = .error (.msg "cannot commit in detached HEAD state") ∧
      (commands.commit demoLib noFaults "ann" "ann@x" 0 ["-m", "more"] demoDetached).1 = 1 ∧
      (commands.add demoLib noFaults ["a.txt", "non-existent-file.txt"] demoRepo).1 = 1 := by
  decide

/-! ## The writers of HEAD and of the branch files -/

/-- C23 (the code at the failing input): on `demoRepo`, `CheckoutCommit` and
`RenameCurrentBranch` succeed and write HEAD through `os.WriteFile`, and
`CreateBranch` succeeds and writes the new branch file through `os.WriteFile`:
none of the three writes goes through a temporary file and a rename. -/
theorem head_written_in_place :
    (CheckoutCommit demoLib noFaults "aaaa0002" demoRepo).1 = .ok () ∧
      (CheckoutCommit demoLib noFaults "aaaa0002" demoRepo).2.1.head = some "aaaa0002" ∧
      (CheckoutCommit demoLib noFaults "aaaa0002" demoRepo).2.2
        = [{ file := ".kitkat/index", writer := .WriteIndex },
           { file := ".kitkat/HEAD", writer := .WriteFile }] ∧
      (CreateBranch demoLib noFaults "dev" demoRepo).1 = .ok () ∧
      (CreateBranch demoLib noFaults "dev" demoRepo).2.1.refs.lookup "refs/heads/dev"
        = some "base0001" ∧
      (CreateBranch demoLib noFaults "dev" demoRepo).2.2
        = [{ file := ".kitkat/refs/heads/dev", writer := .WriteFile }] ∧
      (RenameCurrentBranch noFaults "trunk" demoRepo).1 = .ok () ∧
      (RenameCurrentBranch noFaults "trunk" demoRepo).2.1.head
        = some "ref: refs/heads/trunk\n" ∧
      (RenameCurrentBranch noFaults "trunk" demoRepo).2.2
        = [{ file := ".kitkat/HEAD", writer := .WriteFile }] ∧
      Writer.atomic .WriteFile = false := by
  decide

/-! ## The round trip of the index -/

theorem core.entryMap_fold (p h : String) (entries : List IndexEntry) (m : StrMap)
    (hnd : (entries.map IndexEntry.Path).Nodup)
    (hfresh : ∀ e, e ∈ entries → m.lookup e.Path = none) :
    (entries.foldl (fun entryMap entry => entryMap.insert entry.Path entry.Hash) m).lookup p
        = some h ↔
      m.lookup p = some h ∨ ({ Path := p, Hash := h } : IndexEntry) ∈ entries := by
  induction entries generalizing m with
  | nil => simp
  | cons e rest ih =>
    simp only [List.map_cons, List.nodup_cons] at hnd
    rw [List.foldl_cons, ih (m.insert e.Path e.Hash) hnd.2]
    · by_cases hp : p = e.Path
      · subst hp
        rw [AList.lookup_insert, hfresh e (List.mem_cons_self _ _)]
        constructor
        · rintro (h1 | h1)
          · right
            simp only [Option.some.injEq] at h1
            rw [← h1]
            exact List.mem_cons_self _ _
          · exact absurd (List.mem_map_of_mem IndexEntry.Path h1) hnd.1
        · rintro (h1 | h1)
          · simp at h1
          · rcases List.mem_cons.mp h1 with h2 | h2
            · left
              rw [← h2]
            · exact absurd (List.mem_map_of_mem IndexEntry.Path h2) hnd.1
      · rw [AList.lookup_insert_ne hp]
        constructor
        · rintro (h1 | h1)
          · exact Or.inl h1
          · exact Or.inr (List.mem_cons_of_mem _ h1)
        · rintro (h1 | h1)
          · exact Or.inl h1
          · rcases List.mem_cons.mp h1 with h2 | h2
            · rw [← h2] at hp
              exact absurd rfl hp
            · exact Or.inr h2
    · intro e1 he1
      have hne : e1.Path ≠ e.Path := by
        intro heq
        exact hnd.1 (heq ▸ List.mem_map_of_mem IndexEntry.Path he1)
      rw [AList.lookup_insert_ne hne]
      exact hfresh e1 (List.mem_cons_of_mem _ he1)

theorem core.entryMap_lookup (entries : List IndexEntry)
    (hnd : (entries.map IndexEntry.Path).Nodup) (p h : String) :
    (core.entryMap entries).lookup p = some h ↔
      ({ Path := p, Hash := h } : IndexEntry) ∈ entries := by
  unfold core.entryMap
  rw [core.entryMap_fold p h entries ∅ hnd (fun _ _ => rfl)]
  simp

/-- C24: the round trip of the index. `SaveIndex` on entries with pairwise
distinct paths writes the JSON encoding of the map of the entries, and
`LoadIndex` on that file returns the same entries up to their order, given
that the decoder returns the map the encoder was given and that the encoding
is not the empty text. An absent and an empty file load as the empty index,
also with `storage.LoadIndex`, and `storage.LoadIndex` after
`storage.WriteIndex` of a map returns the map. -/
theorem index_round_trip (J : Json) (entries : List IndexEntry) (file : Option String)
    (decoded : StrMap) (hdistinct : (entries.map IndexEntry.Path).Nodup)
    (hjson : J.unmarshal (J.marshal (core.entryMap entries)) = some decoded)
    (hsame : ∀ p, decoded.lookup p = (core.entryMap entries).lookup p)
    (hobject : J.marshal (core.entryMap entries) ≠ "") :
    (core.SaveIndex J false false entries file
        = (.ok (), some (J.marshal (core.entryMap entries))) ∧
      ∃ loaded, core.LoadIndex J (core.SaveIndex J false false entries file).2 = .ok loaded ∧
        (∀ e, e ∈ loaded ↔ e ∈ entries) ∧ loaded.Perm entries) ∧
    (core.LoadIndex J none = .ok [] ∧ core.LoadIndex J (some "") = .ok []) ∧
    (∀ (F : Faults) (M : StrMap) (s : Repo), F.write IndexPath = false →
      LoadIndex (WriteIndex F M s).2 = .ok M) ∧
    (∀ s : Repo, s.index = .absent → LoadIndex s = .ok ∅) := by
  refine ⟨⟨rfl, decoded.entries.map fun e => { Path := e.1, Hash := e.2 }, ?_, ?_⟩,
    ⟨rfl, rfl⟩, ?_, ?_⟩
  · simp only [core.SaveIndex, core.LoadIndex, Bool.false_eq_true, if_false, hobject, hjson]
  · have hmem : ∀ e : IndexEntry,
        e ∈ decoded.entries.map (fun e => ({ Path := e.1, Hash := e.2 } : IndexEntry)) ↔
          e ∈ entries := by
      intro e
      rw [← core.entryMap_lookup entries hdistinct e.Path e.Hash, ← hsame]
      constructor
      · intro he
        obtain ⟨σ, hσ, rfl⟩ := List.mem_map.mp he
        exact Option.mem_def.mp (AList.mem_lookup_iff.mpr hσ)
      · intro he
        have hσ : (⟨e.Path, e.Hash⟩ : Sigma fun _ : String => String) ∈ decoded.entries :=
          AList.mem_lookup_iff.mp (Option.mem_def.mpr he)
        exact List.mem_map.mpr ⟨_, hσ, rfl⟩
    refine ⟨hmem, (List.perm_ext_iff_of_nodup ?_ (List.Nodup.of_map _ hdistinct)).mpr hmem⟩
    have hkeys : (decoded.entries.map Sigma.fst).Nodup := decoded.nodupKeys
    refine List.Nodup.of_map IndexEntry.Path ?_
    rw [List.map_map]
    exact hkeys
  · intro F M s hw
    simp [WriteIndex, hw, LoadIndex]
  · intro s hs
    simp [LoadIndex, hs]

theorem index_round_trip_witness :
    (demoEntries.map IndexEntry.Path).Nodup ∧
      demoJson.unmarshal (demoJson.marshal (core.entryMap demoEntries))
        = some (core.entryMap demoEntries) ∧
      ∃ loaded, core.LoadIndex demoJson
          (core.SaveIndex demoJson false false demoEntries none).2 = .ok loaded ∧
        (∀ e, e ∈ loaded ↔ e ∈ demoEntries) ∧ loaded.Perm demoEntries :=
  ⟨by decide, rfl,
    (index_round_trip demoJson demoEntries none (core.entryMap demoEntries) (by decide)
      rfl (fun _ => rfl) (by decide)).1.2⟩

/-! ## The Myers diff -/

/-- The cases of `TestMyersDiff`. -/
theorem Diffs_test_cases :
    (NewMyersDiff ([] : List String) []).Diffs = [] ∧
      (NewMyersDiff [] ["a", "b"]).Diffs = [{ Operation := .INSERT, Text := ["a", "b"] }] ∧
      (NewMyersDiff ["a", "b"] []).Diffs = [{ Operation := .DELETE, Text := ["a", "b"] }] ∧
      (NewMyersDiff ["a"] ["b"]).Diffs
        = [{ Operation := .DELETE, Text := ["a"] }, { Operation := .INSERT, Text := ["b"] }] ∧
      (NewMyersDiff ["a", "b"] ["a", "b"]).Diffs
        = [{ Operation := .EQUAL, Text := ["a", "b"] }] ∧
      (NewMyersDiff ["a", "b", "c"] ["a", "d", "c"]).Diffs
        = [{ Operation := .EQUAL, Text := ["a"] }, { Operation := .DELETE, Text := ["b"] },
           { Operation := .INSERT, Text := ["d"] }, { Operation := .EQUAL, Text := ["c"] }] := by
  decide

theorem Myers.lefts_cons {T : Type} (op : Operation) (t : T) (rest : List (Operation × T)) :
    Myers.lefts ((op, t) :: rest)
      = if op = .INSERT then Myers.lefts rest else t :: Myers.lefts rest := rfl

theorem Myers.lefts_append {T : Type} (xs ys : List (Operation × T)) :
    Myers.lefts (xs ++ ys) = Myers.lefts xs ++ Myers.lefts ys := by
  induction xs with
  | nil => rfl
  | cons e rest ih =>
    obtain ⟨op, t⟩ := e
    rw [List.cons_append, Myers.lefts_cons, Myers.lefts_cons, ih]
    split_ifs <;> rfl

theorem Myers.rights_cons {T : Type} (op : Operation) (t : T) (rest : List (Operation × T)) :
    Myers.rights ((op, t) :: rest)
      = if op = .DELETE then Myers.rights rest else t :: Myers.rights rest := rfl

theorem Myers.rights_append {T : Type} (xs ys : List (Operation × T)) :
    Myers.rights (xs ++ ys) = Myers.rights xs ++ Myers.rights ys := by
  induction xs with
  | nil => rfl
  | cons e rest ih =>
    obtain ⟨op, t⟩ := e
    rw [List.cons_append, Myers.rights_cons, Myers.rights_cons, ih]
    split_ifs <;> rfl

theorem Myers.snake_sound {T : Type} [DecidableEq T] (a b : List T) (n : Nat)
    (restA restB : List T) (edits : List (Operation × T))
    (h : Myers.Sound a b n { restA := restA, restB := restB, edits := edits }) :
    Myers.Sound a b n (Myers.snake restA restB edits) := by
  induction restA generalizing restB edits with
  | nil =>
    cases restB <;> exact h
  | cons u restA ih =>
    cases restB with
    | nil => exact h
    | cons v restB =>
      unfold Myers.snake
      by_cases huv : u = v
      · rw [if_pos huv]
        apply ih
        obtain ⟨h1, h2, h3⟩ := h
        subst huv
        refine ⟨?_, ?_, ?_⟩
        · simp only [List.reverse_cons, Myers.lefts_append] at h1 ⊢
          simpa [Myers.lefts] using h1
        · simp only [List.reverse_cons, Myers.rights_append] at h2 ⊢
          simpa [Myers.rights] using h2
        · simp only [List.length_cons] at h3 ⊢
          omega
      · rw [if_neg huv]
        exact h

theorem Myers.right_sound {T : Type} [DecidableEq T] (a b : List T) (n : Nat)
    (p r : Myers.Path T) (hp : Myers.Sound a b (n + 1) p) (hr : Myers.right (some p) = some r) :
    Myers.Sound a b n r := by
  obtain ⟨restA, restB, edits⟩ := p
  cases restA with
  | nil => simp [Myers.right] at hr
  | cons u restA =>
    simp only [Myers.right, Option.some.injEq] at hr
    rw [← hr]
    apply Myers.snake_sound
    obtain ⟨h1, h2, h3⟩ := hp
    refine ⟨?_, ?_, ?_⟩
    · simp only [List.reverse_cons, Myers.lefts_append] at h1 ⊢
      simpa [Myers.lefts] using h1
    · simp only [List.reverse_cons, Myers.rights_append] at h2 ⊢
      simpa [Myers.rights] using h2
    · simp only [List.length_cons] at h3 ⊢
      omega

theorem Myers.down_sound {T : Type} [DecidableEq T] (a b : List T) (n : Nat)
    (p r : Myers.Path T) (hp : Myers.Sound a b (n + 1) p) (hr : Myers.down (some p) = some r) :
    Myers.Sound a b n r := by
  obtain ⟨restA, restB, edits⟩ := p
  cases restB with
  | nil => simp [Myers.down] at hr
  | cons v restB =>
    simp only [Myers.down, Option.some.injEq] at hr
    rw [← hr]
    apply Myers.snake_sound
    obtain ⟨h1, h2, h3⟩ := hp
    refine ⟨?_, ?_, ?_⟩
    · simp only [List.reverse_cons, Myers.lefts_append] at h1 ⊢
      simpa [Myers.lefts] using h1
    · simp only [List.reverse_cons, Myers.rights_append] at h2 ⊢
      simpa [Myers.rights] using h2
    · simp only [List.length_cons] at h3 ⊢
      omega

theorem Myers.step_sound {T : Type} [DecidableEq T] (a b : List T) (n : Nat)
    (below above : Option (Myers.Path T)) (r : Myers.Path T)
    (hb : ∀ p, below = some p → Myers.Sound a b (n + 1) p)
    (ha : ∀ p, above = some p → Myers.Sound a b (n + 1) p)
    (h : Myers.step below above = some r) : Myers.Sound a b n r := by
  have hright : ∀ q, Myers.right below = some q → Myers.Sound a b n q := by
    intro q hq
    cases below with
    | none => simp [Myers.right] at hq
    | some p => exact Myers.right_sound a b n p q (hb p rfl) hq
  have hdown : ∀ q, Myers.down above = some q → Myers.Sound a b n q := by
    intro q hq
    cases above with
    | none => simp [Myers.down] at hq
    | some p => exact Myers.down_sound a b n p q (ha p rfl) hq
  unfold Myers.step at h
  cases hr : Myers.right below with
  | none =>
    cases hd : Myers.down above with
    | none => rw [hr, hd] at h; simp at h
    | some d =>
      rw [hr, hd] at h
      simp only [Option.some.injEq] at h
      exact h ▸ hdown d hd
  | some q =>
    cases hd : Myers.down above with
    | none =>
      rw [hr, hd] at h
      simp only [Option.some.injEq] at h
      exact h ▸ hright q hr
    | some d =>
      rw [hr, hd] at h
      dsimp only at h
      split_ifs at h
      · simp only [Option.some.injEq] at h
        exact h ▸ hdown d hd
      · simp only [Option.some.injEq] at h
        exact h ▸ hright q hr

theorem Myers.step_of_right {T : Type} [DecidableEq T] (p : Myers.Path T)
    (above : Option (Myers.Path T)) (h : p.restA ≠ []) :
    ∃ r, Myers.step (some p) above = some r := by
  obtain ⟨restA, restB, edits⟩ := p
  cases restA with
  | nil => exact absurd rfl h
  | cons u restA =>
    unfold Myers.step
    have hr : Myers.right (some { restA := u :: restA, restB := restB, edits := edits })
        = some (Myers.snake restA restB ((.DELETE, u) :: edits)) := rfl
    rw [hr]
    cases Myers.down above with
    | none => exact ⟨_, rfl⟩
    | some d =>
      dsimp only
      split_ifs
      · exact ⟨_, rfl⟩
      · exact ⟨_, rfl⟩

theorem Myers.step_of_down {T : Type} [DecidableEq T] (p : Myers.Path T)
    (below : Option (Myers.Path T)) (h : p.restB ≠ []) :
    ∃ r, Myers.step below (some p) = some r := by
  obtain ⟨restA, restB, edits⟩ := p
  cases restB with
  | nil => exact absurd rfl h
  | cons v restB =>
    unfold Myers.step
    have hd : Myers.down (some { restA := restA, restB := v :: restB, edits := edits })
        = some (Myers.snake restA restB ((.INSERT, v) :: edits)) := rfl
    rw [hd]
    cases Myers.right below with
    | none => exact ⟨_, rfl⟩
    | some q =>
      dsimp only
      split_ifs
      · exact ⟨_, rfl⟩
      · exact ⟨_, rfl⟩

theorem Myers.next_sound {T : Type} [DecidableEq T] (a b : List T) (n : Nat)
    (frontier : List (Option (Myers.Path T))) (below : Option (Myers.Path T))
    (hb : ∀ p, below = some p → Myers.Sound a b (n + 1) p)
    (hf : ∀ p, some p ∈ frontier → Myers.Sound a b (n + 1) p) :
    ∀ r, some r ∈ Myers.next below frontier → Myers.Sound a b n r := by
  induction frontier generalizing below with
  | nil =>
    intro r hr
    simp only [Myers.next, List.mem_singleton] at hr
    exact Myers.step_sound a b n below none r hb (fun p hp => by simp at hp) hr.symm
  | cons above rest ih =>
    intro r hr
    simp only [Myers.next, List.mem_cons] at hr
    rcases hr with hr | hr
    · exact Myers.step_sound a b n below above r hb
        (fun p hp => hf p (hp ▸ List.mem_cons_self _ _)) hr.symm
    · exact ih above (fun p hp => hf p (hp ▸ List.mem_cons_self _ _))
        (fun p hp => hf p (List.mem_cons_of_mem _ hp)) r hr

theorem Myers.next_head {T : Type} [DecidableEq T] (p : Myers.Path T)
    (rest : List (Option (Myers.Path T))) (h : p.restA ≠ []) :
    ∃ r, some r ∈ Myers.next (some p) rest := by
  cases rest with
  | nil =>
    obtain ⟨r, hr⟩ := Myers.step_of_right p none h
    exact ⟨r, by simp [Myers.next, hr]⟩
  | cons above rest =>
    obtain ⟨r, hr⟩ := Myers.step_of_right p above h
    exact ⟨r, by simp [Myers.next, hr]⟩

theorem Myers.next_nonempty {T : Type} [DecidableEq T]
    (frontier : List (Option (Myers.Path T))) (below : Option (Myers.Path T))
    (p : Myers.Path T) (hp : some p ∈ frontier) (hmore : p.restA ≠ [] ∨ p.restB ≠ []) :
    ∃ r, some r ∈ Myers.next below frontier := by
  induction frontier generalizing below with
  | nil => exact absurd hp (List.not_mem_nil _)
  | cons above rest ih =>
    rcases List.mem_cons.mp hp with h | h
    · subst h
      rcases hmore with hm | hm
      · obtain ⟨r, hr⟩ := Myers.next_head p rest hm
        exact ⟨r, by
          unfold Myers.next
          exact List.mem_cons_of_mem _ hr⟩
      · obtain ⟨r, hr⟩ := Myers.step_of_down p below hm
        exact ⟨r, by
          unfold Myers.next
          rw [hr]
          exact List.mem_cons_self _ _⟩
    · obtain ⟨r, hr⟩ := ih above h
      exact ⟨r, by
        unfold Myers.next
        exact List.mem_cons_of_mem _ hr⟩

theorem Myers.done_none {T : Type} (p : Myers.Path T) (h : Myers.done (some p) = none) :
    p.restA ≠ [] ∨ p.restB ≠ [] := by
  obtain ⟨restA, restB, edits⟩ := p
  cases restA with
  | nil =>
    cases restB with
    | nil => simp [Myers.done] at h
    | cons v restB => exact Or.inr (List.cons_ne_nil _ _)
  | cons u restA => exact Or.inl (List.cons_ne_nil _ _)

theorem Myers.done_some {T : Type} (o : Option (Myers.Path T)) (script : List (Operation × T))
    (h : Myers.done o = some script) :
    ∃ edits, o = some { restA := [], restB := [], edits := edits } ∧ script = edits.reverse := by
  cases o with
  | none => simp [Myers.done] at h
  | some p =>
    obtain ⟨restA, restB, edits⟩ := p
    cases restA with
    | nil =>
      cases restB with
      | nil =>
        simp only [Myers.done, Option.some.injEq] at h
        exact ⟨edits, rfl, h.symm⟩
      | cons v restB => simp [Myers.done] at h
    | cons u restA => simp [Myers.done] at h

/-- The search ends within as many rounds as elements are left, and the script
it returns turns the left input into the right input. -/
theorem Myers.search_sound {T : Type} [DecidableEq T] (a b : List T) (rounds : Nat) :
    ∀ (n : Nat) (frontier : List (Option (Myers.Path T))), n ≤ rounds →
      (∀ p, some p ∈ frontier → Myers.Sound a b n p) → (∃ p, some p ∈ frontier) →
      ∃ script, Myers.search rounds frontier = some script ∧ Myers.lefts script = a ∧
        Myers.rights script = b := by
  induction rounds with
  | zero =>
    intro n frontier hn hs hne
    unfold Myers.search
    cases hfind : frontier.findSome? Myers.done with
    | some script =>
      obtain ⟨o, ho, hdone⟩ := List.exists_of_findSome?_eq_some hfind
      obtain ⟨edits, rfl, rfl⟩ := Myers.done_some o script hdone
      obtain ⟨h1, h2, _⟩ := hs _ ho
      exact ⟨_, rfl, by simpa using h1, by simpa using h2⟩
    | none =>
      exfalso
      obtain ⟨p, hp⟩ := hne
      have hnone := List.findSome?_eq_none_iff.mp hfind (some p) hp
      obtain ⟨_, _, h3⟩ := hs p hp
      rcases Myers.done_none p hnone with h | h
      · have := List.length_pos.mpr h
        omega
      · have := List.length_pos.mpr h
        omega
  | succ rounds ih =>
    intro n frontier hn hs hne
    unfold Myers.search
    cases hfind : frontier.findSome? Myers.done with
    | some script =>
      obtain ⟨o, ho, hdone⟩ := List.exists_of_findSome?_eq_some hfind
      obtain ⟨edits, rfl, rfl⟩ := Myers.done_some o script hdone
      obtain ⟨h1, h2, _⟩ := hs _ ho
      exact ⟨_, rfl, by simpa using h1, by simpa using h2⟩
    | none =>
      dsimp only
      obtain ⟨p, hp⟩ := hne
      have hnone := List.findSome?_eq_none_iff.mp hfind (some p) hp
      have hmore := Myers.done_none p hnone
      obtain ⟨_, _, h3⟩ := hs p hp
      have hpos : 0 < n := by
        rcases hmore with h | h
        · have := List.length_pos.mpr h
          omega
        · have := List.length_pos.mpr h
          omega
      obtain ⟨m, rfl⟩ : ∃ m, n = m + 1 := ⟨n - 1, by omega⟩
      exact ih m (Myers.next none frontier) (by omega)
        (Myers.next_sound a b m frontier none (fun q hq => by simp at hq) hs)
        (Myers.next_nonempty frontier none p hp hmore)

theorem coalesce_cons {T : Type} (op : Operation) (t : T) (rest : List (Operation × T)) :
    coalesce ((op, t) :: rest) =
      match coalesce rest with
      | [] => [{ Operation := op, Text := [t] }]
      | run :: runs =>
        if op = run.Operation then { Operation := op, Text := t :: run.Text } :: runs
        else { Operation := op, Text := [t] } :: run :: runs := rfl

theorem leftOf_coalesce {T : Type} (script : List (Operation × T)) :
    leftOf (coalesce script) = Myers.lefts script := by
  induction script with
  | nil => rfl
  | cons e rest ih =>
    obtain ⟨op, t⟩ := e
    rw [coalesce_cons, Myers.lefts_cons, ← ih]
    cases hc : coalesce rest with
    | nil =>
      dsimp only [leftOf]
      split_ifs <;> simp
    | cons run runs =>
      dsimp only
      by_cases hop : op = run.Operation
      · rw [if_pos hop]
        subst hop
        dsimp only [leftOf]
        split_ifs <;> simp
      · rw [if_neg hop]
        dsimp only [leftOf]
        by_cases h1 : op = .INSERT
        · rw [if_pos h1, if_pos h1]
        · rw [if_neg h1, if_neg h1]
          simp

theorem rightOf_coalesce {T : Type} (script : List (Operation × T)) :
    rightOf (coalesce script) = Myers.rights script := by
  induction script with
  | nil => rfl
  | cons e rest ih =>
    obtain ⟨op, t⟩ := e
    rw [coalesce_cons, Myers.rights_cons, ← ih]
    cases hc : coalesce rest with
    | nil =>
      dsimp only [rightOf]
      split_ifs <;> simp
    | cons run runs =>
      dsimp only
      by_cases hop : op = run.Operation
      · rw [if_pos hop]
        subst hop
        dsimp only [rightOf]
        split_ifs <;> simp
      · rw [if_neg hop]
        dsimp only [rightOf]
        by_cases h1 : op = .DELETE
        · rw [if_pos h1, if_pos h1]
        · rw [if_neg h1, if_neg h1]
          simp

theorem coalesce_equal {T : Type} [DecidableEq T] (a : List T) :
    coalesce (a.map fun t => (Operation.EQUAL, t))
      = if a = [] then [] else [{ Operation := .EQUAL, Text := a }] := by
  induction a with
  | nil => rfl
  | cons u rest ih =>
    rw [List.map_cons, coalesce_cons, ih]
    cases rest with
    | nil => simp
    | cons v rest => simp

theorem Myers.snake_same {T : Type} [DecidableEq T] (a : List T) (edits : List (Operation × T)) :
    Myers.snake a a edits
      = { restA := [], restB := [],
          edits := (a.map fun t => (Operation.EQUAL, t)).reverse ++ edits } := by
  induction a generalizing edits with
  | nil => rfl
  | cons u rest ih =>
    unfold Myers.snake
    rw [if_pos rfl, ih]
    simp

theorem Myers.script_same {T : Type} [DecidableEq T] (a : List T) :
    Myers.script a a = some (a.map fun t => (Operation.EQUAL, t)) := by
  unfold Myers.script
  rw [Myers.snake_same]
  cases a.length + a.length with
  | zero => simp [Myers.search, Myers.done]
  | succ n => simp [Myers.search, Myers.done]

/-- C26: the runs of `NewMyersDiff(a, b).Diffs()` give back the two inputs: the
`Text` of the `EQUAL` and `INSERT` runs in order is `b`, and the `Text` of the
`EQUAL` and `DELETE` runs in order is `a`. Identical inputs give the one run
`EQUAL a`, and no run when both are empty. -/
theorem Diffs_reconstructs {T : Type} [DecidableEq T] (a b : List T) :
    rightOf (NewMyersDiff a b).Diffs = b ∧ leftOf (NewMyersDiff a b).Diffs = a ∧
      (NewMyersDiff a a).Diffs = if a = [] then [] else [{ Operation := .EQUAL, Text := a }] := by
  have hstart : Myers.Sound a b (a.length + b.length) (Myers.snake a b []) :=
    Myers.snake_sound a b _ a b [] ⟨rfl, rfl, le_refl _⟩
  obtain ⟨script, hs, hl, hr⟩ := Myers.search_sound a b (a.length + b.length)
    (a.length + b.length) [some (Myers.snake a b [])] (le_refl _)
    (fun p hp => by
      simp only [List.mem_singleton, Option.some.injEq] at hp
      exact hp ▸ hstart)
    ⟨_, List.mem_singleton_self _⟩
  have hscript : Myers.script a b = some script := hs
  refine ⟨?_, ?_, ?_⟩
  · simp only [MyersDiff.Diffs, NewMyersDiff, hscript, Option.getD_some, rightOf_coalesce, hr]
  · simp only [MyersDiff.Diffs, NewMyersDiff, hscript, Option.getD_some, leftOf_coalesce, hl]
  · simp only [MyersDiff.Diffs, NewMyersDiff, Myers.script_same, Option.getD_some, coalesce_equal]

end Kitkat
